import Mathlib

/-!
# proglog: the segmented append-only log (`internal/log`)

A shallow embedding of `store.go`, `index.go`, `segment.go` and `log.go`.

* Machine integers are natural numbers; every `uint64` operation that can wrap is
  written with an explicit `% 2 ^ 64`, every `uint32` conversion with `% 2 ^ 32`.
* The operating system is a small file system: a directory of file names that
  point to inodes, and a table of inode contents.  File descriptors refer to
  inodes, so a file that was unlinked or opened twice behaves as on POSIX.
* Go errors are values of `Err`; a run-time panic or a memory fault is `Err.fault`.
* Every operation returns its result together with the state it leaves behind,
  also when it fails.
-/

set_option maxRecDepth 100000

namespace Proglog

/-! ## Bytes and the big-endian codec (`enc = binary.BigEndian`) -/

/-- One byte. -/
abbrev Byte := Fin 256

/-- The byte holding `n % 256` (the Go conversion `byte(n)`). -/
def byteOf (n : Nat) : Byte := ⟨n % 256, Nat.mod_lt _ (by decide)⟩

/-- Big-endian encoding on `w` bytes: `enc.PutUint32` for `w = 4`,
`enc.PutUint64` for `w = 8`.  The most significant byte comes first. -/
def putUint : Nat → Nat → List Byte
  | 0, _ => []
  | w + 1, n => byteOf (n / 256 ^ w) :: putUint w n

/-- Big-endian decoding of a byte string: `enc.Uint32` on 4 bytes, `enc.Uint64` on 8. -/
def getUint (bs : List Byte) : Nat :=
  bs.foldl (fun acc b => acc * 256 + b.val) 0

/-- Width of the length prefix of a store frame (`lenWidth`). -/
def lenWidth : Nat := 8

/-- Width of the relative offset in an index entry (`offWidth`). -/
def offWidth : Nat := 4

/-- Width of the store position in an index entry (`posWidth`). -/
def posWidth : Nat := 8

/-- Width of an index entry (`endWidth = offWidth + posWidth`). -/
def endWidth : Nat := offWidth + posWidth

/-- Size of the buffer of a `bufio.Writer` made by `bufio.NewWriter`. -/
def defaultBufSize : Nat := 4096

/-! ## Errors -/

/-- The failures the package can report. -/
inductive Err where
  /-- The value `io.EOF`. -/
  | eof
  /-- The value `api.ErrOffsetOutOfRange{Offset: off}`. -/
  | offsetOutOfRange (off : Nat)
  /-- An error of the operating system (closed file, missing file or directory,
  invalid argument). -/
  | io
  /-- An error of the record encoder or decoder. -/
  | codec
  /-- A run-time panic (nil dereference, index or slice out of range) or a
  memory fault on a mapped page that has no file behind it. -/
  | fault
  deriving DecidableEq, Repr

/-- Results are compared by comparing their values. -/
instance instDecidableEqExcept {ε α : Type} [DecidableEq ε] [DecidableEq α] :
    DecidableEq (Except ε α)
  | .ok a, .ok b =>
    if h : a = b then isTrue (by rw [h]) else isFalse (fun h1 => h (Except.ok.inj h1))
  | .error a, .error b =>
    if h : a = b then isTrue (by rw [h]) else isFalse (fun h1 => h (Except.error.inj h1))
  | .ok _, .error _ => isFalse (fun h => by cases h)
  | .error _, .ok _ => isFalse (fun h => by cases h)

/-! ## Files -/

/-- Slice of a file content: the `n` bytes starting at `off`. -/
def slice (c : List Byte) (off n : Nat) : List Byte := (c.drop off).take n

/-- Overwrite the bytes of `c` starting at `off` by `bs` (the caller checks that
they fit). -/
def overwrite (c : List Byte) (off : Nat) (bs : List Byte) : List Byte :=
  c.take off ++ bs ++ c.drop (off + bs.length)

/-- Set the length of a file content to `n` (`truncate(2)`): cut, or extend with
zero bytes. -/
def resize (c : List Byte) (n : Nat) : List Byte :=
  c.take n ++ List.replicate (n - c.length) (0 : Byte)

/-- The call `os.File.ReadAt(b, off)` with `len(b) = n` on a file of content `c`;
`off` is the `uint64` that the caller converts with `int64(..)`.  A negative
offset is an error; an empty buffer reads nothing and succeeds; a closed file
is an error; a short read is `io.EOF`. -/
def fileReadAt (closed : Bool) (c : List Byte) (off n : Nat) : Except Err (List Byte) :=
  if 2 ^ 63 ≤ off then .error .io
  else if n = 0 then .ok []
  else if closed then .error .io
  else if off + n ≤ c.length then .ok (slice c off n)
  else .error .eof

/-! ## Store (`store.go`) -/

/-- State of a `bufio.Writer`: the buffered bytes and whether a write has
failed before (the error is sticky). -/
structure Writer where
  buf : List Byte
  err : Bool
  deriving DecidableEq, Repr

/-- The type `store`: the embedded `*os.File` (the inode it refers to and whether
the descriptor was closed), the buffered writer and the logical size. -/
structure store where
  File : Nat
  closed : Bool
  buf : Writer
  size : Nat
  deriving DecidableEq, Repr

/-- The call `bufio.Writer.Flush` on a file opened with `O_APPEND`: returns
whether it succeeded, the writer and the file content. -/
def Writer.Flush (w : Writer) (closed : Bool) (c : List Byte) : Bool × Writer × List Byte :=
  if w.err then (false, w, c)
  else if w.buf = [] then (true, w, c)
  else if closed then (false, { w with err := true }, c)
  else (true, { w with buf := [] }, c ++ w.buf)

/-- The call `bufio.Writer.Write(p)`: while `p` does not fit in the free part of
the buffer, either write it directly to the file (empty buffer) or fill the
buffer and flush it; then buffer what is left.  The loop of the library runs at
most twice, and is unrolled here.  Returns the number of bytes written when
there was no error. -/
def Writer.Write (w : Writer) (closed : Bool) (c : List Byte) (p : List Byte) :
    Option Nat × Writer × List Byte :=
  if w.err then (none, w, c)
  else if p.length ≤ defaultBufSize - w.buf.length then
    (some p.length, { w with buf := w.buf ++ p }, c)
  else if w.buf = [] then
    if closed then (none, { w with err := true }, c)
    else (some p.length, w, c ++ p)
  else
    let n := defaultBufSize - w.buf.length
    let full : Writer := { w with buf := w.buf ++ p.take n }
    let (ok, w1, c1) := full.Flush closed c
    let p1 := p.drop n
    if !ok then (none, w1, c1)
    else if p1.length ≤ defaultBufSize then
      (some p.length, { w1 with buf := p1 }, c1)
    else if closed then (none, { w1 with err := true }, c1)
    else (some p.length, w1, c1 ++ p1)

/-- The function `newStore`: the size is the current length of the file. -/
def newStore (ino : Nat) (c : List Byte) : store :=
  { File := ino, closed := false, buf := { buf := [], err := false }, size := c.length }

/-- The method `store.Append`: returns `(n, pos)`, the store and the file content. -/
def store.Append (s : store) (c : List Byte) (p : List Byte) :
    Except Err (Nat × Nat) × store × List Byte :=
  let pos := s.size
  match s.buf.Write s.closed c (putUint 8 (p.length % 2 ^ 64)) with
  | (none, b1, c1) => (.error .io, { s with buf := b1 }, c1)
  | (some _, b1, c1) =>
    match b1.Write s.closed c1 p with
    | (none, b2, c2) => (.error .io, { s with buf := b2 }, c2)
    | (some w, b2, c2) =>
      let w := w + lenWidth
      (.ok (w % 2 ^ 64, pos), { s with buf := b2, size := (s.size + w % 2 ^ 64) % 2 ^ 64 }, c2)

/-- The method `store.Read`: flush, read the length prefix at `pos`, then the
bytes that follow.  `make([]byte, n)` panics when `n` is not a valid length. -/
def store.Read (s : store) (c : List Byte) (pos : Nat) :
    Except Err (List Byte) × store × List Byte :=
  match s.buf.Flush s.closed c with
  | (false, b1, c1) => (.error .io, { s with buf := b1 }, c1)
  | (true, b1, c1) =>
    let s1 := { s with buf := b1 }
    match fileReadAt s.closed c1 pos lenWidth with
    | .error e => (.error e, s1, c1)
    | .ok size =>
      if 2 ^ 63 ≤ getUint size then (.error .fault, s1, c1)
      else
        match fileReadAt s.closed c1 ((pos + lenWidth) % 2 ^ 64) (getUint size) with
        | .error e => (.error e, s1, c1)
        | .ok b => (.ok b, s1, c1)

/-- The method `store.ReadAt` with `len(p) = n` and `off` a non-negative `int64`:
flush, then `File.ReadAt`.  Returns the bytes read, and the error if any. -/
def store.ReadAt (s : store) (c : List Byte) (n off : Nat) :
    (List Byte × Option Err) × store × List Byte :=
  match s.buf.Flush s.closed c with
  | (false, b1, c1) => (([], some .io), { s with buf := b1 }, c1)
  | (true, b1, c1) =>
    let s1 := { s with buf := b1 }
    if n = 0 then (([], none), s1, c1)
    else if s.closed then (([], some .io), s1, c1)
    else if off + n ≤ c1.length then ((slice c1 off n, none), s1, c1)
    else ((slice c1 off n, some .eof), s1, c1)

/-- The method `store.Close`: flush, then close the file. -/
def store.Close (s : store) (c : List Byte) : Except Err Unit × store × List Byte :=
  match s.buf.Flush s.closed c with
  | (false, b1, c1) => (.error .io, { s with buf := b1 }, c1)
  | (true, b1, c1) =>
    if s.closed then (.error .io, { s with buf := b1 }, c1)
    else (.ok (), { s with buf := b1, closed := true }, c1)

/-- The bytes of the store file as its own methods see them: what is on disk
followed by what is still buffered. -/
def store.logical (s : store) (c : List Byte) : List Byte := c ++ s.buf.buf

/-! ## Index (`index.go`) -/

/-- Modelled from the spec: the type `Config` is declared in a file of the package
that is not part of the sources at hand; the spec lists its three recognised
options, `Segment.MaxStoreBytes`, `Segment.MaxIndexBytes` and
`Segment.InitialOffset`, all `uint64`. -/
structure Config where
  MaxStoreBytes : Nat
  MaxIndexBytes : Nat
  InitialOffset : Nat
  deriving DecidableEq, Repr

/-- The type `index`: the file (inode and whether the descriptor was closed), the
length of the shared memory map `len(i.mmap)` and the logical size.  The bytes
of the map are the bytes of the file. -/
structure index where
  file : Nat
  closed : Bool
  mmapLen : Nat
  size : Nat
  deriving DecidableEq, Repr

/-- The function `newIndex` on a file of content `c`: the size is the current length
of the file; the file is then truncated to `MaxIndexBytes` (an error when the
`int64` conversion is negative) and mapped (an error for an empty file). -/
def newIndex (ino : Nat) (c : List Byte) (cfg : Config) : Except Err index × List Byte :=
  if 2 ^ 63 ≤ cfg.MaxIndexBytes then (.error .io, c)
  else
    let c1 := resize c cfg.MaxIndexBytes
    if cfg.MaxIndexBytes = 0 then (.error .io, c1)
    else (.ok { file := ino, closed := false, mmapLen := cfg.MaxIndexBytes, size := c.length }, c1)

/-- The method `index.Close`: sync the map and the file, truncate the file to the
logical size, close it. -/
def index.Close (i : index) (c : List Byte) : Except Err Unit × index × List Byte :=
  if i.closed then (.error .io, i, c)
  else if 2 ^ 63 ≤ i.size then (.error .io, i, c)
  else (.ok (), { i with closed := true }, resize c i.size)

/-- The method `index.Read`, `n` being the `int64` argument: returns `(out, pos)`.
Slicing the map beyond its length panics, and touching a mapped byte beyond the
end of the file faults. -/
def index.Read (i : index) (c : List Byte) (n : Int) : Except Err (Nat × Nat) :=
  if i.size = 0 then .error .eof
  else
    let out : Nat :=
      if n = -1 then ((i.size / endWidth + (2 ^ 64 - 1)) % 2 ^ 64) % 2 ^ 32
      else (n % 2 ^ 32).toNat
    let pos := out * endWidth
    if i.size < pos + endWidth then .error .eof
    else if i.mmapLen < pos + endWidth ∨ c.length < pos + endWidth then .error .fault
    else .ok (getUint (slice c pos offWidth), getUint (slice c (pos + offWidth) posWidth))

/-- The method `index.Write`: returns the index and the file content. -/
def index.Write (i : index) (c : List Byte) (off pos : Nat) :
    Except Err Unit × index × List Byte :=
  if i.mmapLen < (i.size + endWidth) % 2 ^ 64 then (.error .eof, i, c)
  else if i.mmapLen < i.size + endWidth ∨ c.length < i.size + endWidth then (.error .fault, i, c)
  else
    let c1 := overwrite c i.size (putUint 4 off)
    let c2 := overwrite c1 (i.size + offWidth) (putUint 8 pos)
    (.ok (), { i with size := (i.size + endWidth) % 2 ^ 64 }, c2)

/-! ## The directory of the log -/

/-- The two extensions of the files of a segment. -/
inductive Ext where
  | store
  | index
  deriving DecidableEq, Repr

/-- Name of a file of the log directory: `fmt.Sprintf("%d%s", base, ext)`. -/
structure FileName where
  base : Nat
  ext : Ext
  deriving DecidableEq, Repr

/-- The file system seen by one log: whether its directory exists, the names in
it (in creation order) with the inode each points to, and the contents of all
inodes. -/
structure FS where
  present : Bool
  names : List (FileName × Nat)
  inodes : List (List Byte)
  deriving DecidableEq, Repr

/-- An existing, empty directory. -/
def FS.empty : FS := { present := true, names := [], inodes := [] }

/-- Content of an inode. -/
def FS.content (fs : FS) (ino : Nat) : List Byte := fs.inodes.getD ino []

/-- Replace the content of an inode. -/
def FS.put (fs : FS) (ino : Nat) (c : List Byte) : FS :=
  { fs with inodes := fs.inodes.set ino c }

/-- The inode a name points to, if the name exists. -/
def FS.lookup (fs : FS) (n : FileName) : Option Nat :=
  (fs.names.find? (fun e => e.1 = n)).map Prod.snd

/-- The call `os.OpenFile(path.Join(dir, name), ..|os.O_CREATE, 0644)`: fails when
the directory does not exist, opens the file when the name exists, and creates
an empty file otherwise. -/
def FS.OpenFile (fs : FS) (n : FileName) : Except Err Nat × FS :=
  if !fs.present then (.error .io, fs)
  else
    match fs.lookup n with
    | some ino => (.ok ino, fs)
    | none =>
      (.ok fs.inodes.length,
        { fs with names := fs.names ++ [(n, fs.inodes.length)], inodes := fs.inodes ++ [[]] })

/-- The call `os.Remove(name)`: fails when the name does not exist. -/
def FS.Remove (fs : FS) (n : FileName) : Except Err Unit × FS :=
  match fs.lookup n with
  | none => (.error .io, fs)
  | some _ => (.ok (), { fs with names := fs.names.filter (fun e => e.1 ≠ n) })

/-- The call `os.RemoveAll(dir)`. -/
def FS.RemoveAll (fs : FS) : FS := { fs with present := false, names := [] }

/-! ## Records -/

/-- The message `api.Record`: the payload and the offset. -/
structure Record where
  Value : List Byte
  Offset : Nat
  deriving DecidableEq, Repr

/-- The record encoder (`proto.Marshal`, `proto.Unmarshal`), an external
collaborator of the package. -/
structure Codec where
  Marshal : Record → Option (List Byte)
  Unmarshal : List Byte → Option Record

/-- A concrete encoder to run the model on examples: the offset on 8 bytes, then
the payload.  (The encoder of the package is protobuf; the log only relies on
decoding what was encoded.) -/
def fixedCodec : Codec where
  Marshal r := some (putUint 8 r.Offset ++ r.Value)
  Unmarshal p :=
    if p.length < 8 then none
    else some { Value := p.drop 8, Offset := getUint (p.take 8) }

/-! ## Segment (`segment.go`) -/

/-- The type `segment`. -/
structure segment where
  store : store
  index : index
  baseOffset : Nat
  nextOffset : Nat
  config : Config
  deriving DecidableEq, Repr

/-- The function `newSegment`: open or create the two files, build the store and the
index, and recompute `nextOffset` from the last index entry.  Every error of
`index.Read(-1)` means "no entry"; a panic inside it is not an error value and
goes up. -/
def newSegment (fs : FS) (baseOffset : Nat) (c : Config) : Except Err segment × FS :=
  match fs.OpenFile ⟨baseOffset, .store⟩ with
  | (.error e, fs1) => (.error e, fs1)
  | (.ok sino, fs1) =>
    let st := newStore sino (fs1.content sino)
    match fs1.OpenFile ⟨baseOffset, .index⟩ with
    | (.error e, fs2) => (.error e, fs2)
    | (.ok iino, fs2) =>
      match newIndex iino (fs2.content iino) c with
      | (.error e, ci) => (.error e, fs2.put iino ci)
      | (.ok ix, ci) =>
        let fs3 := fs2.put iino ci
        match ix.Read ci (-1) with
        | .error .fault => (.error .fault, fs3)
        | .error _ =>
          (.ok { store := st, index := ix, baseOffset := baseOffset,
                 nextOffset := baseOffset, config := c }, fs3)
        | .ok (off, _) =>
          (.ok { store := st, index := ix, baseOffset := baseOffset,
                 nextOffset := (baseOffset + off + 1) % 2 ^ 64, config := c }, fs3)

/-- The method `segment.Append`: returns the offset given to the record. -/
def segment.Append (cd : Codec) (s : segment) (fs : FS) (record : Record) :
    Except Err Nat × segment × FS :=
  let cur := s.nextOffset
  match cd.Marshal { record with Offset := cur } with
  | none => (.error .codec, s, fs)
  | some p =>
    match s.store.Append (fs.content s.store.File) p with
    | (.error e, st, c) => (.error e, { s with store := st }, fs.put s.store.File c)
    | (.ok (_, pos), st, c) =>
      let fs1 := fs.put s.store.File c
      let s1 := { s with store := st }
      let rel := ((s.nextOffset + 2 ^ 64 - s.baseOffset) % 2 ^ 64) % 2 ^ 32
      match s.index.Write (fs1.content s.index.file) rel pos with
      | (.error e, ix, ci) => (.error e, { s1 with index := ix }, fs1.put s.index.file ci)
      | (.ok _, ix, ci) =>
        (.ok cur, { s1 with index := ix, nextOffset := (s.nextOffset + 1) % 2 ^ 64 },
          fs1.put s.index.file ci)

/-- The method `segment.Read`; the argument of `index.Read` is
`int64(off - s.baseOffset)`. -/
def segment.Read (cd : Codec) (s : segment) (fs : FS) (off : Nat) :
    Except Err Record × segment × FS :=
  let rel : Nat := (off + 2 ^ 64 - s.baseOffset) % 2 ^ 64
  let n : Int := if 2 ^ 63 ≤ rel then (rel : Int) - 2 ^ 64 else (rel : Int)
  match s.index.Read (fs.content s.index.file) n with
  | .error e => (.error e, s, fs)
  | .ok (_, pos) =>
    match s.store.Read (fs.content s.store.File) pos with
    | (.error e, st, c) => (.error e, { s with store := st }, fs.put s.store.File c)
    | (.ok p, st, c) =>
      match cd.Unmarshal p with
      | none => (.error .codec, { s with store := st }, fs.put s.store.File c)
      | some r => (.ok r, { s with store := st }, fs.put s.store.File c)

/-- The method `segment.IsMaxed`. -/
def segment.IsMaxed (s : segment) : Bool :=
  decide (s.config.MaxStoreBytes ≤ s.store.size) ||
    decide (s.config.MaxIndexBytes < (s.index.size + endWidth) % 2 ^ 64)

/-- The method `segment.Close`: close the index, then the store. -/
def segment.Close (s : segment) (fs : FS) : Except Err Unit × segment × FS :=
  match s.index.Close (fs.content s.index.file) with
  | (.error e, ix, ci) => (.error e, { s with index := ix }, fs.put s.index.file ci)
  | (.ok _, ix, ci) =>
    let fs1 := fs.put s.index.file ci
    let s1 := { s with index := ix }
    match s.store.Close (fs1.content s.store.File) with
    | (.error e, st, c) => (.error e, { s1 with store := st }, fs1.put s.store.File c)
    | (.ok _, st, c) => (.ok (), { s1 with store := st }, fs1.put s.store.File c)

/-- The method `segment.Remove`: close, then delete the index file and the store file. -/
def segment.Remove (s : segment) (fs : FS) : Except Err Unit × segment × FS :=
  match s.Close fs with
  | (.error e, s1, fs1) => (.error e, s1, fs1)
  | (.ok _, s1, fs1) =>
    match fs1.Remove ⟨s.baseOffset, .index⟩ with
    | (.error e, fs2) => (.error e, s1, fs2)
    | (.ok _, fs2) =>
      match fs2.Remove ⟨s.baseOffset, .store⟩ with
      | (.error e, fs3) => (.error e, s1, fs3)
      | (.ok _, fs3) => (.ok (), s1, fs3)

/-! ## Log (`log.go`) -/

/-- The pointer `activeSegment`.  The elements of `segments` are distinct objects,
so the pointer is nil, or designates one element of the list, or designates a
segment that is not in the list any more. -/
inductive ActiveRef where
  | nil
  | inList (i : Nat)
  | detached (s : segment)
  deriving DecidableEq, Repr

/-- The type `Log`, together with the file system under `Dir`. -/
structure Log where
  Config : Proglog.Config
  fs : FS
  segments : List segment
  activeSegment : ActiveRef
  deriving DecidableEq, Repr

/-- The segment `activeSegment` points to (`none` for a nil pointer). -/
def Log.active (l : Log) : Option segment :=
  match l.activeSegment with
  | .nil => none
  | .inList i => l.segments[i]?
  | .detached s => some s

/-- Store a segment through the pointer `activeSegment`. -/
def Log.setActive (l : Log) (s : segment) : Log :=
  match l.activeSegment with
  | .nil => l
  | .inList i => { l with segments := l.segments.set i s }
  | .detached _ => { l with activeSegment := .detached s }

/-- The method `Log.newSegment`. -/
def Log.newSegment (l : Log) (off : Nat) : Except Err Unit × Log :=
  match Proglog.newSegment l.fs off l.Config with
  | (.error e, fs1) => (.error e, { l with fs := fs1 })
  | (.ok s, fs1) =>
    (.ok (), { l with fs := fs1, segments := l.segments ++ [s],
                      activeSegment := .inList l.segments.length })

/-- The loop of `Log.setup` over the sorted base offsets: a segment for the
element at hand, then skip the next element. -/
def Log.setupLoop (l : Log) : List Nat → Except Err Unit × Log
  | [] => (.ok (), l)
  | [b] => l.newSegment b
  | b :: _ :: rest =>
    match l.newSegment b with
    | (.error e, l1) => (.error e, l1)
    | (.ok _, l1) => Log.setupLoop l1 rest

/-- The method `Log.setup`.  The files of the directory are the files the log made,
so the name of each gives back its base offset. -/
def Log.setup (l : Log) : Except Err Unit × Log :=
  if !l.fs.present then (.error .io, l)
  else
    let baseOffsets := (l.fs.names.map (fun e => e.1.base)).insertionSort (fun a b => a ≤ b)
    match l.setupLoop baseOffsets with
    | (.error e, l1) => (.error e, l1)
    | (.ok _, l1) =>
      if l1.segments.isEmpty then l1.newSegment l1.Config.InitialOffset
      else (.ok (), l1)

/-- The function `NewLog` on the directory `fs`. -/
def NewLog (fs : FS) (c : Config) : Except Err Unit × Log :=
  let c1 := if c.MaxStoreBytes = 0 then { c with MaxStoreBytes := 1024 } else c
  let c2 := if c1.MaxIndexBytes = 0 then { c1 with MaxIndexBytes := 1024 } else c1
  Log.setup { Config := c2, fs := fs, segments := [], activeSegment := .nil }

/-- The method `Log.Append`. -/
def Log.Append (cd : Codec) (l : Log) (record : Record) : Except Err Nat × Log :=
  match l.active with
  | none => (.error .fault, l)
  | some a =>
    match (if a.IsMaxed then l.newSegment a.nextOffset else (.ok (), l)) with
    | (.error e, l1) => (.error e, l1)
    | (.ok _, l1) =>
      match l1.active with
      | none => (.error .fault, l1)
      | some a1 =>
        match a1.Append cd l1.fs record with
        | (r, a2, fs2) => (r, Log.setActive { l1 with fs := fs2 } a2)

/-- The loop of `Log.Read`: position and value of the first segment whose range
holds `off`. -/
def Log.findSegment (off : Nat) : List segment → Option (Nat × segment)
  | [] => none
  | s :: rest =>
    if s.baseOffset ≤ off ∧ off < s.nextOffset then some (0, s)
    else (Log.findSegment off rest).map (fun r => (r.1 + 1, r.2))

/-- The method `Log.Read`. -/
def Log.Read (cd : Codec) (l : Log) (off : Nat) : Except Err Record × Log :=
  match Log.findSegment off l.segments with
  | none => (.error (.offsetOutOfRange off), l)
  | some (i, s) =>
    if s.nextOffset ≤ off then (.error (.offsetOutOfRange off), l)
    else
      match s.Read cd l.fs off with
      | (r, s1, fs1) => (r, { l with fs := fs1, segments := l.segments.set i s1 })

/-- The loop of `Log.Close`. -/
def Log.closeLoop : FS → List segment → Except Err Unit × FS × List segment
  | fs, [] => (.ok (), fs, [])
  | fs, s :: rest =>
    match s.Close fs with
    | (.error e, s1, fs1) => (.error e, fs1, s1 :: rest)
    | (.ok _, s1, fs1) =>
      match Log.closeLoop fs1 rest with
      | (r, fs2, rest1) => (r, fs2, s1 :: rest1)

/-- The method `Log.Close`. -/
def Log.Close (l : Log) : Except Err Unit × Log :=
  match Log.closeLoop l.fs l.segments with
  | (r, fs1, segs) => (r, { l with fs := fs1, segments := segs })

/-- The method `Log.Remove`. -/
def Log.Remove (l : Log) : Except Err Unit × Log :=
  match l.Close with
  | (.error e, l1) => (.error e, l1)
  | (.ok _, l1) => (.ok (), { l1 with fs := l1.fs.RemoveAll })

/-- The method `Log.Reset`. -/
def Log.Reset (l : Log) : Except Err Unit × Log :=
  match l.Remove with
  | (.error e, l1) => (.error e, l1)
  | (.ok _, l1) => l1.setup

/-- The method `Log.LowestOffset`; indexing an empty slice panics. -/
def Log.LowestOffset (l : Log) : Except Err Nat :=
  match l.segments with
  | [] => .error .fault
  | s :: _ => .ok s.baseOffset

/-- The method `Log.HighestOffset`; indexing an empty slice panics. -/
def Log.HighestOffset (l : Log) : Except Err Nat :=
  match l.segments.getLast? with
  | none => .error .fault
  | some s => if s.nextOffset = 0 then .ok 0 else .ok (s.nextOffset - 1)

/-- The loop of `Log.Truncate`: every segment as the loop leaves it, marked `true`
when it was removed.  The loop stops at the first failing `Remove`. -/
def Log.truncateLoop (lowest : Nat) : FS → List segment → Except Err Unit × FS × List (segment × Bool)
  | fs, [] => (.ok (), fs, [])
  | fs, s :: rest =>
    if s.nextOffset ≤ (lowest + 1) % 2 ^ 64 then
      match s.Remove fs with
      | (.error e, s1, fs1) => (.error e, fs1, (s1, false) :: rest.map (fun t => (t, false)))
      | (.ok _, s1, fs1) =>
        match Log.truncateLoop lowest fs1 rest with
        | (r, fs2, rest1) => (r, fs2, (s1, true) :: rest1)
    else
      match Log.truncateLoop lowest fs rest with
      | (r, fs2, rest1) => (r, fs2, (s, false) :: rest1)

/-- The method `Log.Truncate`.  When a `Remove` fails `l.segments` is not assigned;
otherwise it is the list of the segments that were kept.  `activeSegment` is
not assigned: it keeps designating the same segment, in the list or not. -/
def Log.Truncate (l : Log) (lowest : Nat) : Except Err Unit × Log :=
  match Log.truncateLoop lowest l.fs l.segments with
  | (.error e, fs1, marked) =>
    (.error e, { l with fs := fs1, segments := marked.map Prod.fst })
  | (.ok _, fs1, marked) =>
    (.ok (), { l with
      fs := fs1
      segments := (marked.filter (fun m => !m.2)).map Prod.fst
      activeSegment :=
        match l.activeSegment with
        | .inList i =>
          match marked[i]? with
          | some (s, true) => .detached s
          | _ => .inList ((marked.take i).countP (fun m => !m.2))
        | a => a })

/-- The type `originReader`: the store it embeds is the store of the segment at
position `seg` of `segments` (a pointer, so reading flushes that store), and
`off` is the offset of the next read. -/
structure originReader where
  seg : Nat
  off : Nat
  deriving DecidableEq, Repr

/-- The method `originReader.Read` with `len(p) = n`: `store.ReadAt` at `off`, then
`off` advances by the number of bytes read. -/
def originReader.Read (o : originReader) (l : Log) (n : Nat) :
    (List Byte × Option Err) × originReader × Log :=
  match l.segments[o.seg]? with
  | none => (([], some .fault), o, l)
  | some s =>
    match s.store.ReadAt (l.fs.content s.store.File) n o.off with
    | ((bs, err), st, c) =>
      ((bs, err), { o with off := o.off + bs.length },
        { l with fs := l.fs.put s.store.File c
                 segments := l.segments.set o.seg { s with store := st } })

/-- The method `Log.Reader`: one `originReader` at offset 0 per segment, in the
order of `segments`; the result is the argument list of `io.MultiReader`. -/
def Log.Reader (l : Log) : List originReader :=
  (List.range l.segments.length).map (fun i => { seg := i, off := 0 })

/-- The method `Read` of the reader `io.MultiReader` returns, with `len(p) = n`:
read from the first reader; at `io.EOF` drop it; return when bytes were read or
the error is not `io.EOF`, hiding `io.EOF` while readers remain; with no
reader left, `io.EOF`. -/
def multiReaderRead (n : Nat) :
    List originReader → Log → (List Byte × Option Err) × List originReader × Log
  | [], l => (([], some .eof), [], l)
  | o :: rest, l =>
    match o.Read l n with
    | ((bs, err), o1, l1) =>
      let readers := if err = some .eof then rest else o1 :: rest
      if 0 < bs.length ∨ err ≠ some .eof then
        ((bs, if err = some .eof ∧ 0 < readers.length then none else err), readers, l1)
      else multiReaderRead n rest l1

/-- Reading the stream to its end as `io.ReadAll` does, the call of rank `k` with a
buffer of `sizes k` bytes: the bytes read are accumulated until a call returns
an error, and `io.EOF` is the normal end.  The result is `none` when `fuel`
calls were not enough. -/
def readToEnd (sizes : Nat → Nat) :
    Nat → List originReader → Log → List Byte → Option (List Byte × Option Err) × Log
  | 0, _, l, _ => (none, l)
  | fuel + 1, rs, l, acc =>
    match multiReaderRead (sizes 0) rs l with
    | ((bs, none), rs1, l1) => readToEnd (fun k => sizes (k + 1)) fuel rs1 l1 (acc ++ bs)
    | ((bs, some e), _, l1) => (some (acc ++ bs, if e = .eof then none else some e), l1)

/-! ## Vocabulary of the statements -/

/-- One frame of the store file: the length of the payload on 8 bytes, big-endian,
then the payload. -/
def frame (p : List Byte) : List Byte := putUint 8 p.length ++ p

/-- The frames of a sequence of payloads, one after the other. -/
def frames : List (List Byte) → List Byte
  | [] => []
  | p :: ps => frame p ++ frames ps

/-- Successive calls of `store.Append`, one per payload: the results in call order
and the state after the last call. -/
def store.appendAll (s : store) (c : List Byte) :
    List (List Byte) → List (Except Err (Nat × Nat)) × store × List Byte
  | [] => ([], s, c)
  | p :: ps =>
    match s.Append c p with
    | (r, s1, c1) =>
      match store.appendAll s1 c1 ps with
      | (rs, s2, c2) => (r :: rs, s2, c2)

/-- One entry of the index file: the relative offset on 4 bytes, then the store
position on 8 bytes, both big-endian. -/
def entry (e : Nat × Nat) : List Byte := putUint 4 e.1 ++ putUint 8 e.2

/-- The entries of a sequence of `(offset, position)` pairs, one after the other. -/
def entries : List (Nat × Nat) → List Byte
  | [] => []
  | e :: es => entry e ++ entries es

/-- Successive calls of `index.Write`, one per pair: the results in call order and
the state after the last call. -/
def index.writeAll (i : index) (c : List Byte) :
    List (Nat × Nat) → List (Except Err Unit) × index × List Byte
  | [] => ([], i, c)
  | e :: es =>
    match i.Write c e.1 e.2 with
    | (r, i1, c1) =>
      match index.writeAll i1 c1 es with
      | (rs, i2, c2) => (r :: rs, i2, c2)

/-- An index made by `newIndex` on a new, empty file, then written with the given
pairs; `none` when `newIndex` fails. -/
def writesOnEmpty (cfg : Config) (ws : List (Nat × Nat)) :
    Option (List (Except Err Unit) × index × List Byte) :=
  match newIndex 0 [] cfg with
  | (.ok i, c) => some (i.writeAll c ws)
  | (.error _, _) => none

/-- The index `i` with file content `c` holds exactly the entries `es`: they fill the
first `i.size` bytes, and the file has the length of the map. -/
def IdxRep (i : index) (c : List Byte) (es : List (Nat × Nat)) : Prop :=
  i.size = 12 * es.length ∧ i.size ≤ i.mmapLen ∧ c.length = i.mmapLen ∧ i.mmapLen < 2 ^ 63 ∧
    ∃ rest, c = entries es ++ rest

/-- The configuration as `NewLog` stores it: a zero `MaxStoreBytes` or
`MaxIndexBytes` becomes 1024. -/
def Config.withDefaults (c : Config) : Config :=
  { MaxStoreBytes := if c.MaxStoreBytes = 0 then 1024 else c.MaxStoreBytes
    MaxIndexBytes := if c.MaxIndexBytes = 0 then 1024 else c.MaxIndexBytes
    InitialOffset := c.InitialOffset }

/-- The segment `newSegment` makes when neither file exists: store on the new inode
`n`, index on the new inode `n + 1`. -/
def freshSegment (n b : Nat) (cfg : Config) : segment :=
  { store := { File := n, closed := false, buf := { buf := [], err := false }, size := 0 }
    index := { file := n + 1, closed := false, mmapLen := cfg.MaxIndexBytes, size := 0 }
    baseOffset := b
    nextOffset := b
    config := cfg }

/-- The file system after `newSegment` made the two files of base offset `b`. -/
def FS.withFresh (fs : FS) (b : Nat) (cfg : Config) : FS :=
  { present := fs.present
    names := fs.names ++ [(⟨b, .store⟩, fs.inodes.length), (⟨b, .index⟩, fs.inodes.length + 1)]
    inodes := fs.inodes ++ [[], resize [] cfg.MaxIndexBytes] }

/-- The log `NewLog` makes in an empty directory: one empty segment at
`InitialOffset`, which is the active one. -/
def freshLog (c : Config) : Log :=
  { Config := c.withDefaults
    fs := FS.empty.withFresh c.InitialOffset c.withDefaults
    segments := [freshSegment 0 c.InitialOffset c.withDefaults]
    activeSegment := .inList 0 }

/-- Successive calls of `Log.Append`, one per record: the results in call order and
the log after the last call. -/
def Log.appendAll (cd : Codec) : Log → List Record → List (Except Err Nat) × Log
  | l, [] => ([], l)
  | l, r :: rs =>
    match Log.Append cd l r with
    | (o, l1) =>
      match Log.appendAll cd l1 rs with
      | (os, l2) => (o :: os, l2)

/-- The payload `hello world`. -/
def helloWorld : List Byte := [104, 101, 108, 108, 111, 32, 119, 111, 114, 108, 100]

/-- A log made in an empty directory with the given configuration, to which `n`
records of payload `hello world` were appended, encoded with `fixedCodec`. -/
def sampleLog (c : Config) (n : Nat) : Log :=
  (Log.appendAll fixedCodec (NewLog FS.empty c).2 (List.replicate n ⟨helloWorld, 0⟩)).2

/-- The value of a result, or `d` when it is an error. -/
def okOr {ε α : Type} (d : α) : Except ε α → α
  | .ok a => a
  | .error _ => d

/-- The raw contents of the store files of the log, in the order of `segments`:
for each segment what is on disk followed by what is still buffered. -/
def Log.storeContents (l : Log) : List (List Byte) :=
  l.segments.map (fun s => s.store.logical (l.fs.content s.store.File))

/-- The stores of the log are open, none has a failed writer, and each has its own
file. -/
def StoresOpen (l : Log) : Prop :=
  (∀ s ∈ l.segments, s.store.closed = false ∧ s.store.buf.err = false ∧
      s.store.File < l.fs.inodes.length) ∧
    (l.segments.map (fun s => s.store.File)).Nodup

/-! ## The log as a list of records: abstract model and invariant -/

/-- The abstract log: the segments that were rotated away from, each with its base
offset and the encoded records it holds, then the base offset and the encoded
records of the active segment. -/
structure AbsLog where
  old : List (Nat × List (List Byte))
  base : Nat
  cur : List (List Byte)

/-- All segments of the abstract log, the active one last. -/
def AbsLog.all (A : AbsLog) : List (Nat × List (List Byte)) := A.old ++ [(A.base, A.cur)]

/-- The encoded records of a list of segments, in offset order. -/
def payloads : List (Nat × List (List Byte)) → List (List Byte)
  | [] => []
  | (_, ps) :: X => ps ++ payloads X

/-- The rotation test on the abstract log: the store of the active segment has
reached `MaxStoreBytes`, or its index has no room for one more entry. -/
def AbsLog.maxed (cfg : Config) (A : AbsLog) : Prop :=
  cfg.MaxStoreBytes ≤ (frames A.cur).length % 2 ^ 64 ∨
    cfg.MaxIndexBytes < 12 * A.cur.length + 12

/-- Rotation of the abstract log: the active segment is put aside and a new, empty
one starts at its next offset. -/
def AbsLog.rotate (A : AbsLog) : AbsLog :=
  { old := A.old ++ [(A.base, A.cur)], base := A.base + A.cur.length, cur := [] }

/-- The index entries of a segment holding the encoded records `ps`: the entry of
rank `j` has relative offset `j` (as `uint32`) and the position at which the
frame of rank `j` starts (as `uint64`). -/
def entriesOf (ps : List (List Byte)) : List (Nat × Nat) :=
  (List.range ps.length).map (fun j => (j % 2 ^ 32, (frames (ps.take j)).length % 2 ^ 64))

/-- The directory entries of a list of segments made one after the other in an
empty directory, starting with the segment of rank `k`: the segment of rank `i`
has its store on inode `2 * i` and its index on inode `2 * i + 1`. -/
def namesFrom : Nat → List (Nat × List (List Byte)) → List (FileName × Nat)
  | _, [] => []
  | k, (b, _) :: X =>
    (⟨b, .store⟩, 2 * k) :: (⟨b, .index⟩, 2 * k + 1) :: namesFrom (k + 1) X

/-- The open segment `s`, of rank `k`, has base offset `b` and holds exactly the
encoded records `ps`. -/
def SegInv (cfg : Config) (fs : FS) (s : segment) (k b : Nat) (ps : List (List Byte)) : Prop :=
  s.baseOffset = b ∧ s.nextOffset = b + ps.length ∧ s.config = cfg ∧
    s.store.File = 2 * k ∧ s.store.closed = false ∧ s.store.buf.err = false ∧
    s.store.logical (fs.content (2 * k)) = frames ps ∧
    s.store.size = (frames ps).length % 2 ^ 64 ∧
    s.index.file = 2 * k + 1 ∧ s.index.closed = false ∧
    s.index.mmapLen = cfg.MaxIndexBytes ∧
    IdxRep s.index (fs.content (2 * k + 1)) (entriesOf ps)

/-- The segments `segs`, of ranks `k`, `k + 1`, .. hold the abstract segments `X`. -/
def SegsInv (cfg : Config) (fs : FS) : Nat → List segment → List (Nat × List (List Byte)) → Prop
  | _, [], [] => True
  | k, s :: segs, (b, ps) :: X => SegInv cfg fs s k b ps ∧ SegsInv cfg fs (k + 1) segs X
  | _, [], _ :: _ => False
  | _, _ :: _, [] => False

/-- The offset ranges of the segments `X` follow one another from `s` to `e`. -/
def chained : Nat → List (Nat × List (List Byte)) → Nat → Prop
  | s, [], e => s = e
  | s, (b, ps) :: X, e => b = s ∧ chained (b + ps.length) X e

/-- The limits under which a log can append: an index of at least one entry that
can be mapped, and a positive store limit. -/
def CfgOk (cfg : Config) : Prop :=
  12 ≤ cfg.MaxIndexBytes ∧ cfg.MaxIndexBytes < 2 ^ 63 ∧ 0 < cfg.MaxStoreBytes

/-- The log `l`, made in an empty directory, holds the abstract log `A`. -/
def LogInv (cfg : Config) (l : Log) (A : AbsLog) : Prop :=
  l.Config = cfg ∧ l.fs.present = true ∧ l.activeSegment = .inList A.old.length ∧
    SegsInv cfg l.fs 0 l.segments A.all ∧
    l.fs.inodes.length = 2 * (A.old.length + 1) ∧ l.fs.names = namesFrom 0 A.all ∧
    chained cfg.InitialOffset A.old A.base ∧ (∀ x ∈ A.old, x.2 ≠ []) ∧
    A.base + A.cur.length < 2 ^ 64

/-- The specification of a run of `Log.Append` calls on a log whose first offset is
`init` and which holds the encoded records `recs`: a record that the encoder
accepts gets the next offset and is added at the end; a record that it refuses
changes nothing. -/
def specAppendAll (cd : Codec) (init : Nat) :
    List (List Byte) → List Record → List (Except Err Nat) × List (List Byte)
  | recs, [] => ([], recs)
  | recs, r :: rs =>
    match cd.Marshal { r with Offset := init + recs.length } with
    | none =>
      match specAppendAll cd init recs rs with
      | (os, out) => (.error .codec :: os, out)
    | some p =>
      match specAppendAll cd init (recs ++ [p]) rs with
      | (os, out) => (.ok (init + recs.length) :: os, out)

/-- The offsets of the calls that succeeded, in call order. -/
def okValues : List (Except Err Nat) → List Nat
  | [] => []
  | .ok o :: rest => o :: okValues rest
  | .error _ :: rest => okValues rest

/-- The second half of `Log.Append`: the append to the active segment, once the
rotation test is done. -/
def Log.appendActive (cd : Codec) (l : Log) (record : Record) : Except Err Nat × Log :=
  match l.active with
  | none => (.error .fault, l)
  | some a1 =>
    match a1.Append cd l.fs record with
    | (r, a2, fs2) => (r, Log.setActive { l with fs := fs2 } a2)

/-- Every store file of the abstract log is shorter than `2 ^ 63` bytes, the range
of a file offset. -/
def SizeOk (A : AbsLog) : Prop := ∀ x ∈ A.all, (frames x.2).length < 2 ^ 63

/-- The index of every segment the log can append to is mapped on fewer than 12
bytes: no entry fits. -/
def SmallIndex (l : Log) : Prop :=
  l.Config.MaxIndexBytes < 12 ∧ ∀ a, l.active = some a → a.index.mmapLen < 12

/-- The files of the segments `X`, of ranks `k`, `k + 1`, .., as `Close` leaves them:
the store file is the frames, the index file is the entries and nothing else. -/
def FilesRep (fs : FS) : Nat → List (Nat × List (List Byte)) → Prop
  | _, [] => True
  | k, (_, ps) :: X =>
    fs.content (2 * k) = frames ps ∧ fs.content (2 * k + 1) = entries (entriesOf ps) ∧
      FilesRep fs (k + 1) X

/-- The base offsets that `Log.setup` reads from the directory of the segments `X`:
each one twice, for the store file and for the index file. -/
def bases2 : List (Nat × List (List Byte)) → List Nat
  | [] => []
  | (b, _) :: X => b :: b :: bases2 X

/-- Successive calls of `segment.Append`, one per record: the results in call order
and the state after the last call. -/
def segment.appendAll (cd : Codec) :
    segment → FS → List Record → List (Except Err Nat) × segment × FS
  | s, fs, [] => ([], s, fs)
  | s, fs, r :: rs =>
    match s.Append cd fs r with
    | (o, s1, fs1) =>
      match segment.appendAll cd s1 fs1 rs with
      | (os, s2, fs2) => (o :: os, s2, fs2)

/-- The encoded records of the calls that succeeded, in call order: each record
encoded with the offset its call returned. -/
def okPayloads (cd : Codec) : List (Except Err Nat) → List Record → List (List Byte)
  | .ok o :: os, r :: rs =>
    match cd.Marshal { r with Offset := o } with
    | some p => p :: okPayloads cd os rs
    | none => okPayloads cd os rs
  | .error _ :: os, _ :: rs => okPayloads cd os rs
  | _, _ => []

/-- The open segment `s`, of rank `k`, was made at the offset `b` and holds exactly
the encoded records `ps`; its offsets are those of `b` and `b + ps.length` as
`uint64`.  The store holds after the frames of `ps` the bytes `extra`, the
frames of the appends that found the index full. -/
def SegX (cfg : Config) (fs : FS) (s : segment) (k b : Nat) (ps : List (List Byte))
    (extra : List Byte) : Prop :=
  s.baseOffset = b % 2 ^ 64 ∧ s.nextOffset = (b + ps.length) % 2 ^ 64 ∧ s.config = cfg ∧
    s.store.File = 2 * k ∧ s.store.closed = false ∧ s.store.buf.err = false ∧
    s.store.logical (fs.content (2 * k)) = frames ps ++ extra ∧
    s.store.size = (frames ps ++ extra).length % 2 ^ 64 ∧
    s.index.file = 2 * k + 1 ∧ s.index.closed = false ∧
    s.index.mmapLen = cfg.MaxIndexBytes ∧
    IdxRep s.index (fs.content (2 * k + 1)) (entriesOf ps) ∧
    (extra ≠ [] → cfg.MaxIndexBytes < 12 * ps.length + 12)

/-- A segment made in an empty directory with an index of `2 ^ 32 + 1` entries, after
`2 ^ 32 + 1` appends of the empty record encoded with `fixedCodec`: the results,
the segment and the file system. -/
def wideSegment : List (Except Err Nat) × segment × FS :=
  segment.appendAll fixedCodec (freshSegment 0 0 ⟨1024, 12 * (2 ^ 32 + 1), 0⟩)
    (FS.empty.withFresh 0 ⟨1024, 12 * (2 ^ 32 + 1), 0⟩) (List.replicate (2 ^ 32 + 1) ⟨[], 0⟩)

/-- The segments `segs`, of ranks `k`, `k + 1`, .., were made at the offsets of `X`
and hold its encoded records; no append found an index full. -/
def SegsX (cfg : Config) (fs : FS) : Nat → List segment → List (Nat × List (List Byte)) → Prop
  | _, [], [] => True
  | k, s :: segs, (b, ps) :: X => SegX cfg fs s k b ps [] ∧ SegsX cfg fs (k + 1) segs X
  | _, [], _ :: _ => False
  | _, _ :: _, [] => False

/-- The segments `X` with their base offsets as `uint64`. -/
def wrapBases (X : List (Nat × List (List Byte))) : List (Nat × List (List Byte)) :=
  X.map (fun x => (x.1 % 2 ^ 64, x.2))

/-- The log `l` holds the abstract log `A`, whose offsets are counted without
wrapping from `lo` on: its segments have the ranks `k0`, `k0 + 1`, .. among
the segments made in the directory, the files of the directory are theirs, and
the offsets span less than `2 ^ 64`. -/
def LogX (cfg : Config) (lo : Nat) (l : Log) (k0 : Nat) (A : AbsLog) : Prop :=
  l.Config = cfg ∧ l.fs.present = true ∧ l.activeSegment = .inList A.old.length ∧
    SegsX cfg l.fs k0 l.segments A.all ∧
    l.fs.inodes.length = 2 * (k0 + A.old.length + 1) ∧
    l.fs.names = namesFrom k0 (wrapBases A.all) ∧
    (∃ v0, lo ≤ v0 ∧ chained v0 A.old A.base) ∧ (∀ x ∈ A.old, x.2 ≠ []) ∧
    A.base + A.cur.length < lo + 2 ^ 64

/-- The log `l` has lost all its segments to `Truncate`: the directory is empty and
`activeSegment` still designates a removed segment, whose next offset is `v`
as `uint64`. -/
def LogDead (cfg : Config) (lo : Nat) (l : Log) (v : Nat) : Prop :=
  l.Config = cfg ∧ l.fs.present = true ∧ l.segments = [] ∧ l.fs.names = [] ∧
    (∃ K, l.fs.inodes.length = 2 * K) ∧ lo ≤ v ∧
    ∃ a, l.activeSegment = .detached a ∧ a.nextOffset = v % 2 ^ 64

/-- One call on a log: `Append(record)` or `Truncate(lowest)`. -/
inductive LogOp where
  | append (r : Record)
  | truncate (lowest : Nat)

/-- The log after successive calls of `Log.Append` and `Log.Truncate`, whatever they
return. -/
def Log.run (cd : Codec) : Log → List LogOp → Log
  | l, [] => l
  | l, .append r :: ops => Log.run cd (Log.Append cd l r).2 ops
  | l, .truncate lowest :: ops => Log.run cd (l.Truncate lowest).2 ops

/-- The number of `Append` calls in a sequence of calls. -/
def appendCount : List LogOp → Nat
  | [] => 0
  | .append _ :: ops => appendCount ops + 1
  | .truncate _ :: ops => appendCount ops

/-- The segment list is sorted by base offset and the ranges of adjacent segments
follow one another: `segments[i].nextOffset = segments[i+1].baseOffset`. -/
def SortedContiguous (segs : List segment) : Prop :=
  (segs.map (fun s => s.baseOffset)).Pairwise (fun a b => a ≤ b) ∧
    segs.Chain' (fun s t => s.nextOffset = t.baseOffset)

/-- A log whose indexes are mapped on fewer than 12 bytes: no append succeeds and
every segment is empty at the offset `v`. -/
def Flat (l : Log) (v : Nat) : Prop :=
  l.Config.MaxIndexBytes < 12 ∧
    (∀ s ∈ l.segments, s.baseOffset = v ∧ s.nextOffset = v ∧ s.index.mmapLen < 12) ∧
    ∀ s, l.activeSegment = .detached s → s.nextOffset = v ∧ s.index.mmapLen < 12

/-! # Theorems -/

/-! ## Bytes -/

theorem putUint_length (w n : Nat) : (putUint w n).length = w := by
  induction w with
  | zero => rfl
  | succ w ih => simp [putUint, ih]

theorem getUint_foldl (w n acc : Nat) :
    (putUint w n).foldl (fun a (b : Byte) => a * 256 + b.val) acc = acc * 256 ^ w + n % 256 ^ w := by
  induction w generalizing acc with
  | zero => simp [putUint, Nat.mod_one]
  | succ w ih =>
    simp only [putUint, List.foldl_cons, ih, byteOf]
    rw [Nat.mod_pow_succ (x := n)]
    ring

theorem getUint_putUint (w n : Nat) : getUint (putUint w n) = n % 256 ^ w := by
  simp [getUint, getUint_foldl]

theorem getUint_putUint4 (n : Nat) (h : n < 2 ^ 32) : getUint (putUint 4 n) = n := by
  rw [getUint_putUint]; exact Nat.mod_eq_of_lt (by norm_num at h ⊢; exact h)

theorem getUint_putUint8 (n : Nat) (h : n < 2 ^ 64) : getUint (putUint 8 n) = n := by
  rw [getUint_putUint]; exact Nat.mod_eq_of_lt (by norm_num at h ⊢; exact h)


/-! ## Files and the buffered writer -/

theorem slice_mid (pre x post : List Byte) : slice (pre ++ x ++ post) pre.length x.length = x := by
  simp [slice]

theorem slice_of_eq (c pre x post : List Byte) (off n : Nat) (h : c = pre ++ x ++ post)
    (ho : pre.length = off) (hn : x.length = n) : slice c off n = x := by
  subst h ho hn; exact slice_mid _ _ _

theorem Writer_Flush_open (w : Writer) (c : List Byte) (he : w.err = false) :
    w.Flush false c = (true, { buf := [], err := false }, c ++ w.buf) := by
  obtain ⟨b, e⟩ := w
  simp only at he
  subst he
  by_cases hb : b = []
  · simp [Writer.Flush, hb]
  · simp [Writer.Flush, hb]

theorem Writer_Write_some (w : Writer) (closed : Bool) (c p : List Byte) (n : Nat) (w1 : Writer)
    (c1 : List Byte) (h : w.Write closed c p = (some n, w1, c1)) :
    n = p.length ∧ w1.err = false ∧ c1 ++ w1.buf = c ++ w.buf ++ p := by
  obtain ⟨b, e⟩ := w
  unfold Writer.Write at h
  cases e with
  | true => simp at h
  | false =>
    simp only [Bool.false_eq_true, if_false] at h
    split at h
    · simp only [Prod.mk.injEq, Option.some.injEq] at h
      obtain ⟨h1, h2, h3⟩ := h
      subst h1 h2 h3
      simp
    · split at h
      · rename_i hb
        subst hb
        cases closed with
        | true => simp at h
        | false =>
          simp only [Bool.false_eq_true, if_false, Prod.mk.injEq, Option.some.injEq] at h
          obtain ⟨h1, h2, h3⟩ := h
          subst h1 h2 h3
          simp
      · rename_i hb
        cases closed with
        | true => simp [Writer.Flush, hb] at h
        | false =>
          rw [Writer_Flush_open _ _ rfl] at h
          simp only [Bool.not_true, Bool.false_eq_true, if_false] at h
          split at h
          · simp only [Prod.mk.injEq, Option.some.injEq] at h
            obtain ⟨h1, h2, h3⟩ := h
            subst h1 h2 h3
            simp
          · simp only [Prod.mk.injEq, Option.some.injEq] at h
            obtain ⟨h1, h2, h3⟩ := h
            subst h1 h2 h3
            simp

theorem Writer_Write_open (w : Writer) (c p : List Byte) (he : w.err = false) :
    ∃ w1 c1, w.Write false c p = (some p.length, w1, c1) := by
  obtain ⟨b, e⟩ := w
  simp only at he
  subst he
  unfold Writer.Write
  simp only [Bool.false_eq_true, if_false]
  split
  · exact ⟨_, _, rfl⟩
  · split
    · exact ⟨_, _, rfl⟩
    · rw [Writer_Flush_open _ _ rfl]
      simp only [Bool.not_true, Bool.false_eq_true, if_false]
      split <;> exact ⟨_, _, rfl⟩


theorem frames_append (ps qs : List (List Byte)) : frames (ps ++ qs) = frames ps ++ frames qs := by
  induction ps with
  | nil => rfl
  | cons p ps ih => simp [frames, ih]

theorem frame_length (p : List Byte) : (frame p).length = 8 + p.length := by
  simp [frame, putUint_length]

theorem store_Append_ok (s : store) (c p : List Byte) (n pos : Nat) (s1 : store) (c1 : List Byte)
    (h : s.Append c p = (.ok (n, pos), s1, c1)) :
    pos = s.size ∧ n = (p.length + 8) % 2 ^ 64 ∧
      s1.size = (s.size + (p.length + 8) % 2 ^ 64) % 2 ^ 64 ∧
      s1.logical c1 = s.logical c ++ (putUint 8 (p.length % 2 ^ 64) ++ p) ∧
      s1.closed = s.closed ∧ s1.buf.err = false ∧ s1.File = s.File := by
  unfold store.Append at h
  split at h
  · simp at h
  · rename_i k b1 c2 hw1
    split at h
    · simp at h
    · rename_i k2 b2 c3 hw2
      obtain ⟨_, he1, hl1⟩ := Writer_Write_some _ _ _ _ _ _ _ hw1
      obtain ⟨hk2, he2, hl2⟩ := Writer_Write_some _ _ _ _ _ _ _ hw2
      simp only [Prod.mk.injEq, Except.ok.injEq] at h
      obtain ⟨⟨h1, h2⟩, h3, h4⟩ := h
      subst h1 h2 h3 h4 hk2
      refine ⟨rfl, rfl, rfl, ?_, rfl, he2, rfl⟩
      simp only [store.logical]
      rw [hl2, hl1]; simp

theorem store_Append_open (s : store) (c p : List Byte) (hc : s.closed = false)
    (he : s.buf.err = false) :
    ∃ s1 c1, s.Append c p = (.ok ((p.length + 8) % 2 ^ 64, s.size), s1, c1) := by
  unfold store.Append
  rw [hc]
  obtain ⟨w1, c1, h1⟩ := Writer_Write_open s.buf c (putUint 8 (p.length % 2 ^ 64)) he
  obtain ⟨_, he1, _⟩ := Writer_Write_some _ _ _ _ _ _ _ h1
  obtain ⟨w2, c2, h2⟩ := Writer_Write_open w1 c1 p he1
  simp only [h1, h2]
  exact ⟨_, _, rfl⟩

theorem store_Read_frame (s : store) (c p pre post : List Byte) (pos : Nat)
    (hc : s.closed = false) (he : s.buf.err = false)
    (hl : s.logical c = pre ++ frame p ++ post) (hpos : pre.length = pos)
    (hb : pos + 8 + p.length < 2 ^ 63) :
    s.Read c pos = (.ok p, { s with buf := { buf := [], err := false } }, s.logical c) := by
  unfold store.Read
  rw [hc, Writer_Flush_open _ _ he]
  simp only
  have hlog : c ++ s.buf.buf = pre ++ frame p ++ post := hl
  have h8 : slice (c ++ s.buf.buf) pos lenWidth = putUint 8 p.length := by
    apply slice_of_eq _ pre (putUint 8 p.length) (p ++ post) _ _ _ hpos (putUint_length _ _)
    rw [hlog]; simp [frame]
  have hlen : (c ++ s.buf.buf).length = pos + 8 + p.length + post.length := by
    rw [hlog]; simp [frame_length, hpos]; omega
  have hr1 : fileReadAt false (c ++ s.buf.buf) pos lenWidth = .ok (putUint 8 p.length) := by
    unfold fileReadAt
    rw [if_neg (by omega), if_neg (by simp [lenWidth])]
    simp only [Bool.false_eq_true, if_false]
    rw [if_pos (by rw [hlen]; simp [lenWidth]; omega), h8]
  rw [hr1]
  simp only
  rw [getUint_putUint8 _ (by omega)]
  rw [if_neg (by omega)]
  have hr2 : fileReadAt false (c ++ s.buf.buf) ((pos + lenWidth) % 2 ^ 64) p.length = .ok p := by
    unfold fileReadAt
    have : (pos + lenWidth) % 2 ^ 64 = pos + 8 := by simp only [lenWidth]; omega
    rw [this, if_neg (by omega)]
    by_cases hp : p.length = 0
    · rw [if_pos hp]
      have : p = [] := List.length_eq_zero.mp hp
      rw [this]
    · rw [if_neg hp]
      simp only [Bool.false_eq_true, if_false]
      rw [if_pos (by rw [hlen]; omega)]
      congr 1
      apply slice_of_eq _ (pre ++ putUint 8 p.length) p post _ _ _ _ rfl
      · rw [hlog]; simp [frame]
      · simp [putUint_length, hpos]
  rw [hr2]
  simp [store.logical]

theorem frames_length (ps : List (List Byte)) :
    (frames ps).length = (ps.map (fun p => 8 + p.length)).sum := by
  induction ps with
  | nil => rfl
  | cons p ps ih => simp [frames, frame_length, ih]

theorem frames_split (ps : List (List Byte)) (i : Nat) (hi : i < ps.length) :
    frames ps = frames (ps.take i) ++ frame ps[i] ++ frames (ps.drop (i + 1)) := by
  have h : ps = ps.take i ++ ps[i] :: ps.drop (i + 1) := by
    rw [List.getElem_cons_drop _ _ hi, List.take_append_drop]
  conv_lhs => rw [h]
  rw [frames_append]
  simp [frames, List.append_assoc]

theorem store_appendAll_spec (ps : List (List Byte)) :
    ∀ (s : store) (c : List Byte) (qs : List (List Byte)),
      s.closed = false → s.buf.err = false → s.logical c = frames qs →
      s.size = (frames qs).length → (frames (qs ++ ps)).length < 2 ^ 64 →
      ((s.appendAll c ps).1.length = ps.length ∧
        (∀ i (hi : i < ps.length), (s.appendAll c ps).1[i]? =
          some (.ok (8 + ps[i].length, (frames (qs ++ ps.take i)).length))) ∧
        (s.appendAll c ps).2.1.closed = false ∧ (s.appendAll c ps).2.1.buf.err = false ∧
        (s.appendAll c ps).2.1.logical (s.appendAll c ps).2.2 = frames (qs ++ ps) ∧
        (s.appendAll c ps).2.1.size = (frames (qs ++ ps)).length ∧
        (s.appendAll c ps).2.1.File = s.File) := by
  induction ps with
  | nil =>
    intro s c qs hc he hl hs _
    simp [store.appendAll, hc, he, hl, hs]
  | cons p ps ih =>
    intro s c qs hc he hl hs hb
    obtain ⟨s1, c1, h1⟩ := store_Append_open s c p hc he
    obtain ⟨_, _, hs1, hl1, hc1, he1, hf1⟩ := store_Append_ok _ _ _ _ _ _ _ h1
    have hb' : (frames qs).length + (8 + p.length) + (frames ps).length < 2 ^ 64 := by
      have := hb
      simp only [frames_append, frames, List.length_append, frame_length] at this
      omega
    have hp : p.length % 2 ^ 64 = p.length := Nat.mod_eq_of_lt (by omega)
    have hl1' : s1.logical c1 = frames (qs ++ [p]) := by
      rw [hl1, hl, hp, frames_append]; simp [frames, frame]
    have hs1' : s1.size = (frames (qs ++ [p])).length := by
      rw [hs1, hs, frames_append]
      simp only [frames, List.length_append, frame_length, List.append_nil, List.length_nil]
      omega
    have hb1 : (frames ((qs ++ [p]) ++ ps)).length < 2 ^ 64 := by
      simpa using hb
    obtain ⟨g1, g2, g3, g4, g5, g6, g7⟩ := ih s1 c1 (qs ++ [p]) (hc1.trans hc) he1 hl1' hs1' hb1
    have hstep : s.appendAll c (p :: ps) =
        (.ok ((p.length + 8) % 2 ^ 64, s.size) :: (s1.appendAll c1 ps).1,
          (s1.appendAll c1 ps).2.1, (s1.appendAll c1 ps).2.2) := by
      simp [store.appendAll, h1]
    rw [hstep]
    refine ⟨by simp [g1], ?_, g3, g4, by simpa using g5, by simpa using g6, g7.trans hf1⟩
    intro i hi
    cases i with
    | zero =>
      simp [hs]
      omega
    | succ i =>
      have hi' : i < ps.length := by simpa using hi
      have := g2 i hi'
      simpa using this

/-! ## Claims on the store -/

/-- C8. Store round trip: after any sequence of payloads `ps` was appended to a store
that started empty (file of less than `2 ^ 63` bytes, the range of a file offset),
the position returned by the `i`-th `store.Append` is such that `store.Read` at
that position returns exactly `ps[i]`, whatever was appended after it and whether
or not it is still in the write buffer; an empty payload is read back as empty. -/
theorem store_Read_appendAll (ino : Nat) (ps : List (List Byte)) (i : Nat) (hi : i < ps.length)
    (hb : (frames ps).length < 2 ^ 63) :
    ∃ n pos, ((newStore ino []).appendAll [] ps).1[i]? = some (.ok (n, pos)) ∧
      (((newStore ino []).appendAll [] ps).2.1.Read
        ((newStore ino []).appendAll [] ps).2.2 pos).1 = .ok ps[i] := by
  obtain ⟨_, g2, g3, g4, g5, _, _⟩ :=
    store_appendAll_spec ps (newStore ino []) [] [] rfl rfl rfl rfl
      (by simp only [List.nil_append]; omega)
  refine ⟨_, _, g2 i hi, ?_⟩
  simp only [List.nil_append] at g5 ⊢
  have hsplit := frames_split ps i hi
  have hlen : (frames ps).length = (frames (ps.take i)).length + (8 + ps[i].length) +
      (frames (ps.drop (i + 1))).length := by
    conv_lhs => rw [hsplit]
    simp only [List.length_append, frame_length]
  rw [store_Read_frame _ _ ps[i] (frames (ps.take i)) (frames (ps.drop (i + 1))) _ g3 g4
    (g5.trans hsplit) rfl (by omega)]

/-- Witness of C8: three payloads, the second one empty; the second is read back. -/
theorem store_Read_appendAll_witness :
    ∃ n pos, ((newStore 0 []).appendAll [] [[1, 2], [], [3]]).1[1]? = some (.ok (n, pos)) ∧
      (((newStore 0 []).appendAll [] [[1, 2], [], [3]]).2.1.Read
        ((newStore 0 []).appendAll [] [[1, 2], [], [3]]).2.2 pos).1 = .ok [] :=
  store_Read_appendAll 0 [[1, 2], [], [3]] 1 (by decide) (by decide)

/-- C9. A successful `store.Append(p)` on a store of logical size `s.size` returns the
position `s.size` and `8 + len(p)` bytes written, sets the size to
`s.size + 8 + len(p)` and extends the logical content of the file by the frame of
`p` (the 8-byte big-endian length, then `p`); on an open store the call does
succeed; and after appending `ps` to an empty store every call returned its
frame length and start, the content is the concatenation of the frames and the
size is the sum of the frame lengths, prefixes included.  Sizes are `uint64`. -/
theorem store_Append_frames (s : store) (c p : List Byte) (ino : Nat) (ps : List (List Byte))
    (hs : s.size + 8 + p.length < 2 ^ 64) (hps : (frames ps).length < 2 ^ 64) :
    (∀ n pos s1 c1, s.Append c p = (.ok (n, pos), s1, c1) →
        pos = s.size ∧ n = 8 + p.length ∧ s1.size = s.size + 8 + p.length ∧
          s1.logical c1 = s.logical c ++ frame p) ∧
      (s.closed = false → s.buf.err = false →
        ∃ s1 c1, s.Append c p = (.ok (8 + p.length, s.size), s1, c1)) ∧
      (∀ i (hi : i < ps.length), ((newStore ino []).appendAll [] ps).1[i]? =
        some (.ok (8 + ps[i].length, (frames (ps.take i)).length))) ∧
      ((newStore ino []).appendAll [] ps).2.1.logical ((newStore ino []).appendAll [] ps).2.2 =
        frames ps ∧
      ((newStore ino []).appendAll [] ps).2.1.size = (ps.map (fun q => 8 + q.length)).sum := by
  have hp : p.length % 2 ^ 64 = p.length := Nat.mod_eq_of_lt (by omega)
  have hn : (p.length + 8) % 2 ^ 64 = 8 + p.length := by omega
  refine ⟨?_, ?_, ?_⟩
  · intro n pos s1 c1 h
    obtain ⟨h1, h2, h3, h4, _⟩ := store_Append_ok _ _ _ _ _ _ _ h
    refine ⟨h1, h2.trans hn, ?_, ?_⟩
    · rw [h3, hn]; omega
    · rw [h4, hp]; rfl
  · intro hc he
    obtain ⟨s1, c1, h⟩ := store_Append_open s c p hc he
    rw [hn] at h
    exact ⟨s1, c1, h⟩
  · obtain ⟨_, g2, _, _, g5, g6, _⟩ :=
      store_appendAll_spec ps (newStore ino []) [] [] rfl rfl rfl rfl
        (by simp only [List.nil_append]; omega)
    simp only [List.nil_append] at g2 g5 g6
    exact ⟨g2, g5, by rw [g6, frames_length]⟩

/-- Witness of C9: a payload of three bytes on a fresh store, and two payloads in a row. -/
theorem store_Append_frames_witness :
    ((newStore 0 []).appendAll [] [[1], [2, 3]]).2.1.size =
      ([[1], [2, 3]].map (fun q : List Byte => 8 + q.length)).sum :=
  (store_Append_frames (newStore 0 []) [] [1, 2, 3] 0 [[1], [2, 3]]
    (by decide) (by decide)).2.2.2.2

/-! ## Index -/

theorem entry_length (e : Nat × Nat) : (entry e).length = 12 := by
  simp [entry, putUint_length]

theorem entries_length (es : List (Nat × Nat)) : (entries es).length = 12 * es.length := by
  induction es with
  | nil => rfl
  | cons e es ih => simp [entries, entry_length, ih]; omega

theorem entries_append (es fs : List (Nat × Nat)) :
    entries (es ++ fs) = entries es ++ entries fs := by
  induction es with
  | nil => rfl
  | cons e es ih => simp [entries, ih]

theorem entries_split (es : List (Nat × Nat)) (j : Nat) (hj : j < es.length) :
    entries es = entries (es.take j) ++ entry es[j] ++ entries (es.drop (j + 1)) := by
  have h : es = es.take j ++ es[j] :: es.drop (j + 1) := by
    rw [List.getElem_cons_drop _ _ hj, List.take_append_drop]
  conv_lhs => rw [h]
  rw [entries_append]
  simp [entries, List.append_assoc]

theorem overwrite_at (pre rest bs : List Byte) :
    overwrite (pre ++ rest) pre.length bs = pre ++ bs ++ rest.drop bs.length := by
  simp [overwrite]

theorem overwrite_length (c bs : List Byte) (off : Nat) (h : off + bs.length ≤ c.length) :
    (overwrite c off bs).length = c.length := by
  simp [overwrite]; omega

theorem index_Write_rep (i : index) (c : List Byte) (es : List (Nat × Nat)) (off pos : Nat)
    (h : IdxRep i c es) (hroom : i.size + 12 ≤ i.mmapLen) :
    ∃ i1 c1, i.Write c off pos = (.ok (), i1, c1) ∧ IdxRep i1 c1 (es ++ [(off, pos)]) ∧
      i1.file = i.file ∧ i1.closed = i.closed ∧ i1.mmapLen = i.mmapLen := by
  obtain ⟨hs, hle, hlen, hm, rest, hc⟩ := h
  have hmod : (i.size + endWidth) % 2 ^ 64 = i.size + 12 := by
    simp only [endWidth, offWidth, posWidth]; omega
  unfold index.Write
  rw [hmod, if_neg (by omega), if_neg (by simp only [endWidth, offWidth, posWidth]; omega)]
  refine ⟨_, _, rfl, ?_, rfl, rfl, rfl⟩
  have hel : (entries es).length = i.size := by rw [entries_length, hs]
  have hcl : c.length = 12 * es.length + rest.length := by
    have := congrArg List.length hc
    simpa only [List.length_append, entries_length] using this
  have hrl : 12 ≤ rest.length := by omega
  have h1 : overwrite c i.size (putUint 4 off) = (entries es ++ putUint 4 off) ++ rest.drop 4 := by
    rw [hc, ← hel, overwrite_at, putUint_length]
  have h2 : overwrite (overwrite c i.size (putUint 4 off)) (i.size + offWidth) (putUint 8 pos) =
      entries (es ++ [(off, pos)]) ++ rest.drop 12 := by
    have hl2 : (entries es ++ putUint 4 off).length = i.size + offWidth := by
      simp [hel, putUint_length, offWidth]
    rw [h1, ← hl2, overwrite_at, putUint_length, entries_append]
    simp [entries, entry, List.append_assoc]
  refine ⟨?_, ?_, ?_, hm, rest.drop 12, h2⟩
  · simp only [List.length_append, List.length_cons, List.length_nil]; omega
  · simp only; omega
  · rw [h2]
    simp only [List.length_append, entries_length, List.length_drop, List.length_cons,
      List.length_nil]
    omega

theorem index_Write_full (i : index) (c : List Byte) (off pos : Nat)
    (hm : i.mmapLen < 2 ^ 63) (hs : i.size ≤ i.mmapLen) (hroom : ¬ i.size + 12 ≤ i.mmapLen) :
    i.Write c off pos = (.error .eof, i, c) := by
  have hmod : (i.size + endWidth) % 2 ^ 64 = i.size + 12 := by
    simp only [endWidth, offWidth, posWidth]; omega
  unfold index.Write
  rw [hmod, if_pos (by omega)]

theorem index_Read_out (i : index) (c : List Byte) (es : List (Nat × Nat)) (n : Int) (j : Nat)
    (h : IdxRep i c es)
    (hout : (if n = -1 then ((i.size / endWidth + (2 ^ 64 - 1)) % 2 ^ 64) % 2 ^ 32
      else (n % 2 ^ 32).toNat) = j)
    (hj : j < es.length) (h1 : es[j].1 < 2 ^ 32) (h2 : es[j].2 < 2 ^ 64) :
    i.Read c n = .ok es[j] := by
  obtain ⟨hs, hle, hlen, hm, rest, hc⟩ := h
  unfold index.Read
  rw [if_neg (by omega)]
  simp only [hout]
  have hw : endWidth = 12 := rfl
  rw [hw, if_neg (by omega), if_neg (by omega)]
  have hsplit := entries_split es j hj
  have hpre : (entries (es.take j)).length = j * 12 := by
    rw [entries_length, List.length_take]
    have : min j es.length = j := by omega
    rw [this]; omega
  have hs1 : slice c (j * 12) offWidth = putUint 4 es[j].1 := by
    apply slice_of_eq c (entries (es.take j)) (putUint 4 es[j].1)
      (putUint 8 es[j].2 ++ entries (es.drop (j + 1)) ++ rest) _ _ _ hpre (putUint_length 4 _)
    rw [hc, hsplit]; simp [entry, List.append_assoc]
  have hs2 : slice c (j * 12 + offWidth) posWidth = putUint 8 es[j].2 := by
    apply slice_of_eq c (entries (es.take j) ++ putUint 4 es[j].1) (putUint 8 es[j].2)
      (entries (es.drop (j + 1)) ++ rest) _ _ _ _ (putUint_length 8 _)
    · rw [hc, hsplit]; simp [entry, List.append_assoc]
    · simp [hpre, putUint_length, offWidth]
  rw [hs1, hs2, getUint_putUint4 _ h1, getUint_putUint8 _ h2]

theorem index_Read_nth (i : index) (c : List Byte) (es : List (Nat × Nat)) (n : Nat)
    (h : IdxRep i c es) (hn : n < es.length) (h32 : n < 2 ^ 32)
    (h1 : es[n].1 < 2 ^ 32) (h2 : es[n].2 < 2 ^ 64) :
    i.Read c (n : Int) = .ok es[n] := by
  apply index_Read_out i c es n n h _ hn h1 h2
  rw [if_neg (by omega)]
  omega

theorem index_Read_last (i : index) (c : List Byte) (es : List (Nat × Nat))
    (h : IdxRep i c es) (hk : es.length - 1 < es.length) (h32 : es.length ≤ 2 ^ 32)
    (h1 : es[es.length - 1].1 < 2 ^ 32) (h2 : es[es.length - 1].2 < 2 ^ 64) :
    i.Read c (-1) = .ok es[es.length - 1] := by
  apply index_Read_out i c es (-1) (es.length - 1) h _ hk h1 h2
  rw [if_pos rfl]
  have hs := h.1
  have hw : endWidth = 12 := rfl
  rw [hw, hs]
  omega

theorem newIndex_rep (ino : Nat) (es : List (Nat × Nat)) (cfg : Config)
    (h0 : cfg.MaxIndexBytes ≠ 0) (h63 : cfg.MaxIndexBytes < 2 ^ 63)
    (hcap : 12 * es.length ≤ cfg.MaxIndexBytes) :
    ∃ i c1, newIndex ino (entries es) cfg = (.ok i, c1) ∧ IdxRep i c1 es ∧ i.file = ino ∧
      i.closed = false ∧ i.mmapLen = cfg.MaxIndexBytes ∧ c1 = resize (entries es) cfg.MaxIndexBytes := by
  unfold newIndex
  rw [if_neg (by omega)]
  simp only [if_neg h0]
  refine ⟨_, _, rfl, ?_, rfl, rfl, rfl, rfl⟩
  have htake : (entries es).take cfg.MaxIndexBytes = entries es :=
    List.take_of_length_le (by rw [entries_length]; exact hcap)
  refine ⟨entries_length es, by simp only [entries_length]; exact hcap, ?_, h63,
    List.replicate (cfg.MaxIndexBytes - (entries es).length) 0, ?_⟩
  · simp only [resize, htake, List.length_append, List.length_replicate, entries_length]
    omega
  · simp only [resize, htake]

theorem index_writeAll_ok (ws : List (Nat × Nat)) :
    ∀ (i : index) (c : List Byte) (es : List (Nat × Nat)), IdxRep i c es →
      (∀ r ∈ (i.writeAll c ws).1, r = .ok ()) →
      IdxRep (i.writeAll c ws).2.1 (i.writeAll c ws).2.2 (es ++ ws) ∧
        (i.writeAll c ws).2.1.mmapLen = i.mmapLen := by
  induction ws with
  | nil => intro i c es h _; simpa [index.writeAll] using h
  | cons e ws ih =>
    intro i c es h hok
    by_cases hroom : i.size + 12 ≤ i.mmapLen
    · obtain ⟨i1, c1, hw, hrep, _, _, hml⟩ := index_Write_rep i c es e.1 e.2 h hroom
      have hstep : i.writeAll c (e :: ws) =
          (.ok () :: (i1.writeAll c1 ws).1, (i1.writeAll c1 ws).2.1, (i1.writeAll c1 ws).2.2) := by
        simp [index.writeAll, hw]
      rw [hstep] at hok ⊢
      have := ih i1 c1 (es ++ [e]) hrep (fun r hr => hok r (List.mem_cons_of_mem _ hr))
      simpa [hml] using this
    · exfalso
      have hw := index_Write_full i c e.1 e.2 h.2.2.2.1 h.2.1 hroom
      have := hok (.error .eof) (by simp [index.writeAll, hw])
      cases this

theorem index_writeAll_room (ws : List (Nat × Nat)) :
    ∀ (i : index) (c : List Byte) (es : List (Nat × Nat)), IdxRep i c es →
      12 * (es.length + ws.length) ≤ i.mmapLen →
      ∀ r ∈ (i.writeAll c ws).1, r = .ok () := by
  induction ws with
  | nil => intro i c es _ _ r hr; simp [index.writeAll] at hr
  | cons e ws ih =>
    intro i c es h hcap r hr
    have hs := h.1
    obtain ⟨i1, c1, hw, hrep, _, _, hml⟩ := index_Write_rep i c es e.1 e.2 h
      (by simp only [List.length_cons] at hcap; omega)
    have hstep : i.writeAll c (e :: ws) =
        (.ok () :: (i1.writeAll c1 ws).1, (i1.writeAll c1 ws).2.1, (i1.writeAll c1 ws).2.2) := by
      simp [index.writeAll, hw]
    rw [hstep] at hr
    rcases List.mem_cons.mp hr with h0 | h1
    · exact h0
    · exact ih i1 c1 (es ++ [e]) hrep
        (by simp only [List.length_append, List.length_cons, List.length_nil] at hcap ⊢; omega) r h1

theorem writesOnEmpty_some (cfg : Config) (ws : List (Nat × Nat))
    (r : List (Except Err Unit) × index × List Byte) (h : writesOnEmpty cfg ws = some r) :
    ∃ i0 c0, newIndex 0 [] cfg = (.ok i0, c0) ∧ r = i0.writeAll c0 ws ∧ IdxRep i0 c0 [] ∧
      i0.mmapLen = cfg.MaxIndexBytes := by
  unfold writesOnEmpty at h
  split at h
  · rename_i i0 c0 hn
    have h0 : cfg.MaxIndexBytes ≠ 0 := by
      intro h0; unfold newIndex at hn; simp [h0] at hn
    have h63 : cfg.MaxIndexBytes < 2 ^ 63 := by
      by_contra hc; unfold newIndex at hn; rw [if_pos (by omega)] at hn; simp at hn
    obtain ⟨i, c1, hn1, hrep, _, _, hml, _⟩ := newIndex_rep 0 [] cfg h0 h63 (by simp)
    have : entries [] = [] := rfl
    rw [this, hn] at hn1
    simp only [Prod.mk.injEq, Except.ok.injEq] at hn1
    obtain ⟨h1, h2⟩ := hn1
    subst h1 h2
    exact ⟨_, _, hn, (Option.some.inj h).symm, hrep, hml⟩
  · simp at h

/-! ## Claims on the index -/

theorem index_wrap_general (k M a b : Nat) (hk : 2 ^ 32 < k) (hM : 12 * k ≤ M) (h63 : M < 2 ^ 63) :
    ∃ rs i c, writesOnEmpty ⟨a, M, b⟩ ((List.range k).map (fun j => (0, j))) = some (rs, i, c) ∧
      (∀ r ∈ rs, r = .ok ()) ∧
      ((List.range k).map (fun j => ((0 : Nat), j)))[2 ^ 32]? = some (0, 2 ^ 32) ∧
      i.Read c (2 ^ 32) = .ok (0, 0) := by
  obtain ⟨i0, c0, hn, hrep, _, _, hml, _⟩ :=
    newIndex_rep 0 [] ⟨a, M, b⟩ (by simp only; omega) h63 (by simp)
  have he : entries [] = [] := rfl
  rw [he] at hn
  have hlen : ((List.range k).map (fun j => ((0 : Nat), j))).length = k := by simp
  have hok := index_writeAll_room ((List.range k).map (fun j => (0, j))) i0 c0 [] hrep
    (by rw [hlen, hml]; simpa using hM)
  have hfin := (index_writeAll_ok _ i0 c0 [] hrep hok).1
  rw [List.nil_append] at hfin
  refine ⟨(i0.writeAll c0 ((List.range k).map (fun j => (0, j)))).1,
    (i0.writeAll c0 ((List.range k).map (fun j => (0, j)))).2.1,
    (i0.writeAll c0 ((List.range k).map (fun j => (0, j)))).2.2, ?_, hok, ?_, ?_⟩
  · simp only [writesOnEmpty, hn]
  · rw [List.getElem?_map, List.getElem?_range hk]; rfl
  · have h0 : 0 < ((List.range k).map (fun j => ((0 : Nat), j))).length := by rw [hlen]; omega
    have := index_Read_out _ _ _ (2 ^ 32) 0 hfin (by rw [if_neg (by decide)]; rfl) h0
      (by simp) (by simp)
    rw [this]
    simp

/-- C10, counterexample. An index of `2 ^ 32 + 1` entries, the `j`-th written as
`(0, j)`, every write successful: `index.Read(2 ^ 32)` returns the entry `(0, 0)`
of rank 0 and not the entry `(0, 2 ^ 32)` that was written at rank `2 ^ 32`,
because the rank goes through `uint32(in)`. -/
theorem index_Read_rank_wraps :
    ∃ rs i c, writesOnEmpty ⟨1024, 12 * (2 ^ 32 + 1), 0⟩
        ((List.range (2 ^ 32 + 1)).map (fun j => (0, j))) = some (rs, i, c) ∧
      (∀ r ∈ rs, r = .ok ()) ∧
      ((List.range (2 ^ 32 + 1)).map (fun j => ((0 : Nat), j)))[2 ^ 32]? = some (0, 2 ^ 32) ∧
      i.Read c (2 ^ 32) = .ok (0, 0) :=
  index_wrap_general (2 ^ 32 + 1) (12 * (2 ^ 32 + 1)) 1024 0 (by decide) (Nat.le_refl _)
    (by decide)

/-- C10, amended. Index round trip: after `k ≤ 2 ^ 32` successful
`index.Write(off, pos)` calls (`off` a `uint32`, `pos` a `uint64`) on an index
that started empty, `index.Read(n)` for every `n < k` returns the `n`-th pair as
written, `index.Read(-1)` returns the last pair, and the file starts with the
entries, each the offset on 4 bytes then the position on 8 bytes, big-endian. -/
theorem index_Read_writeAll (cfg : Config) (ws : List (Nat × Nat))
    (r : List (Except Err Unit) × index × List Byte)
    (h : writesOnEmpty cfg ws = some r) (hok : ∀ x ∈ r.1, x = .ok ())
    (hk : ws.length ≤ 2 ^ 32) (hw : ∀ e ∈ ws, e.1 < 2 ^ 32 ∧ e.2 < 2 ^ 64) :
    (∀ n (hn : n < ws.length), r.2.1.Read r.2.2 (n : Int) = .ok ws[n]) ∧
      (∀ e, ws.getLast? = some e → r.2.1.Read r.2.2 (-1) = .ok e) ∧
      (∃ rest, r.2.2 = entries ws ++ rest) ∧ r.2.1.size = 12 * ws.length := by
  obtain ⟨i0, c0, _, hr, hrep, _⟩ := writesOnEmpty_some cfg ws r h
  subst hr
  have hfin := (index_writeAll_ok ws i0 c0 [] hrep hok).1
  rw [List.nil_append] at hfin
  refine ⟨?_, ?_, hfin.2.2.2.2, hfin.1⟩
  · intro n hn
    exact index_Read_nth _ _ ws n hfin hn (by omega) (hw _ (List.getElem_mem _)).1
      (hw _ (List.getElem_mem _)).2
  · intro e he
    rw [List.getLast?_eq_getElem?] at he
    have hlt : ws.length - 1 < ws.length := by
      rcases Nat.lt_or_ge (ws.length - 1) ws.length with h1 | h1
      · exact h1
      · rw [List.getElem?_eq_none h1] at he; cases he
    rw [List.getElem?_eq_getElem hlt] at he
    have he' : ws[ws.length - 1] = e := Option.some.inj he
    rw [← he']
    exact index_Read_last _ _ ws hfin hlt hk (hw _ (List.getElem_mem _)).1
      (hw _ (List.getElem_mem _)).2

/-- Witness of C10: two entries in an index of 24 bytes; the second is read back. -/
theorem index_Read_writeAll_witness :
    ∃ r, writesOnEmpty ⟨1024, 24, 0⟩ [(0, 0), (1, 27)] = some r ∧
      r.2.1.Read r.2.2 ((1 : Nat) : Int) = .ok (1, 27) :=
  ⟨_, rfl, (index_Read_writeAll ⟨1024, 24, 0⟩ [(0, 0), (1, 27)] _ rfl (by decide) (by decide)
    (by decide)).1 1 (by decide)⟩

/-! ## Reading from the log -/

theorem findSegment_none (off : Nat) (segs : List segment) :
    Log.findSegment off segs = none ↔
      ∀ s ∈ segs, ¬ (s.baseOffset ≤ off ∧ off < s.nextOffset) := by
  induction segs with
  | nil => simp [Log.findSegment]
  | cons s rest ih =>
    unfold Log.findSegment
    by_cases h : s.baseOffset ≤ off ∧ off < s.nextOffset
    · simp [h]
    · simp only [if_neg h, Option.map_eq_none', ih, List.mem_cons, forall_eq_or_imp]
      exact ⟨fun hr => ⟨h, hr⟩, fun hr => hr.2⟩

theorem findSegment_first (off : Nat) (pre : List segment) (s : segment) (post : List segment)
    (hpre : ∀ t ∈ pre, ¬ (t.baseOffset ≤ off ∧ off < t.nextOffset))
    (hs : s.baseOffset ≤ off ∧ off < s.nextOffset) :
    Log.findSegment off (pre ++ s :: post) = some (pre.length, s) := by
  induction pre with
  | nil => simp [Log.findSegment, hs]
  | cons t pre ih =>
    have ht := hpre t (List.mem_cons_self _ _)
    have := ih (fun u hu => hpre u (List.mem_cons_of_mem _ hu))
    rw [List.cons_append, Log.findSegment, if_neg ht, this]
    rfl

theorem findSegment_some (off : Nat) (segs : List segment) (i : Nat) (s : segment)
    (h : Log.findSegment off segs = some (i, s)) :
    segs[i]? = some s ∧ (s.baseOffset ≤ off ∧ off < s.nextOffset) ∧
      ∀ j t, j < i → segs[j]? = some t → ¬ (t.baseOffset ≤ off ∧ off < t.nextOffset) := by
  induction segs generalizing i with
  | nil => simp [Log.findSegment] at h
  | cons t rest ih =>
    unfold Log.findSegment at h
    by_cases ht : t.baseOffset ≤ off ∧ off < t.nextOffset
    · rw [if_pos ht] at h
      simp only [Option.some.injEq, Prod.mk.injEq] at h
      obtain ⟨h1, h2⟩ := h
      subst h1 h2
      exact ⟨by simp, ht, fun j u hj => absurd hj (Nat.not_lt_zero _)⟩
    · rw [if_neg ht] at h
      cases hr : Log.findSegment off rest with
      | none => rw [hr] at h; simp at h
      | some r =>
        rw [hr] at h
        simp only [Option.map_some', Option.some.injEq, Prod.mk.injEq] at h
        obtain ⟨h1, h2⟩ := h
        subst h1 h2
        obtain ⟨g1, g2, g3⟩ := ih r.1 (by rw [hr])
        refine ⟨by simpa using g1, g2, ?_⟩
        intro j u hj hu
        cases j with
        | zero =>
          simp only [List.getElem?_cons_zero, Option.some.injEq] at hu
          rw [← hu]; exact ht
        | succ j =>
          simp only [List.getElem?_cons_succ] at hu
          exact g3 j u (by omega) hu

theorem fileReadAt_err (closed : Bool) (c : List Byte) (off n x : Nat) :
    fileReadAt closed c off n ≠ .error (.offsetOutOfRange x) := by
  unfold fileReadAt
  split
  · simp
  · split
    · simp
    · split
      · simp
      · split <;> simp

theorem store_Read_err (s : store) (c : List Byte) (pos x : Nat) :
    (s.Read c pos).1 ≠ .error (.offsetOutOfRange x) := by
  unfold store.Read
  split
  · simp
  · split
    · rename_i e he
      intro h
      simp only [Except.error.injEq] at h
      subst h
      exact fileReadAt_err _ _ _ _ _ he
    · split
      · simp
      · split
        · rename_i e he
          intro h
          simp only [Except.error.injEq] at h
          subst h
          exact fileReadAt_err _ _ _ _ _ he
        · simp

theorem index_Read_err (i : index) (c : List Byte) (n : Int) (x : Nat) :
    i.Read c n ≠ .error (.offsetOutOfRange x) := by
  unfold index.Read
  simp only []
  split_ifs <;> simp

theorem segment_Read_err (cd : Codec) (s : segment) (fs : FS) (off x : Nat) :
    (s.Read cd fs off).1 ≠ .error (.offsetOutOfRange x) := by
  intro h
  unfold segment.Read at h
  simp only [] at h
  split at h
  · rename_i e he
    simp only [Except.error.injEq] at h
    subst h
    exact index_Read_err _ _ _ _ he
  · rename_i o pos he
    have hst := store_Read_err s.store (fs.content s.store.File) pos x
    split at h
    · rename_i e st c hr
      simp only [Except.error.injEq] at h
      subst h
      rw [hr] at hst
      exact hst rfl
    · split at h <;> simp at h

/-! ## Making segments -/

theorem getD_append_right (xs ys : List (List Byte)) (k : Nat) :
    (xs ++ ys).getD (xs.length + k) [] = ys.getD k [] := by
  simp [List.getD_eq_getElem?_getD, List.getElem?_append_right]

theorem getD_append_left (xs ys : List (List Byte)) (k : Nat) (h : k < xs.length) :
    (xs ++ ys).getD k [] = xs.getD k [] := by
  simp [List.getD_eq_getElem?_getD, List.getElem?_append_left h]

theorem lookup_append_ne (p : Bool) (ns : List (FileName × Nat)) (ins : List (List Byte))
    (n m : FileName) (i : Nat) (hne : m ≠ n) :
    FS.lookup ⟨p, ns ++ [(m, i)], ins⟩ n = FS.lookup ⟨p, ns, []⟩ n := by
  unfold FS.lookup
  simp only
  rw [List.find?_append]
  cases List.find? (fun e => decide (e.1 = n)) ns with
  | none => simp [hne]
  | some x => simp

theorem lookup_names (fs : FS) (n : FileName) : fs.lookup n = FS.lookup ⟨true, fs.names, []⟩ n := rfl

theorem index_Read_empty (i : index) (c : List Byte) (n : Int) (h : i.size = 0) :
    i.Read c n = .error .eof := by
  unfold index.Read
  rw [if_pos h]

theorem newSegment_fresh (fs : FS) (b : Nat) (cfg : Config) (hp : fs.present = true)
    (h1 : fs.lookup ⟨b, .store⟩ = none) (h2 : fs.lookup ⟨b, .index⟩ = none)
    (h0 : cfg.MaxIndexBytes ≠ 0) (h63 : cfg.MaxIndexBytes < 2 ^ 63) :
    newSegment fs b cfg = (.ok (freshSegment fs.inodes.length b cfg), fs.withFresh b cfg) := by
  obtain ⟨p, ns, ins⟩ := fs
  simp only at hp
  subst hp
  have h2' : FS.lookup ⟨true, ns ++ [(⟨b, .store⟩, ins.length)], ins ++ [[]]⟩ ⟨b, .index⟩ = none := by
    rw [lookup_append_ne _ _ _ _ _ _ (by simp)]
    exact h2
  have hc1 : (ins ++ [([] : List Byte)]).getD ins.length [] = [] := by
    have := getD_append_right ins [[]] 0
    simp
  have hc2 : (ins ++ [([] : List Byte)] ++ [[]]).getD (ins ++ [([] : List Byte)]).length [] = [] := by
    have := getD_append_right (ins ++ [[]]) [[]] 0
    simpa using this
  have hn : newIndex (ins ++ [([] : List Byte)]).length [] cfg =
      (.ok { file := ins.length + 1, closed := false, mmapLen := cfg.MaxIndexBytes, size := 0 },
        resize [] cfg.MaxIndexBytes) := by
    unfold newIndex
    rw [if_neg (by omega)]
    simp [h0]
  have hr : index.Read (index.mk (ins.length + 1) false cfg.MaxIndexBytes 0)
      (resize [] cfg.MaxIndexBytes) (-1) = .error .eof := index_Read_empty _ _ _ rfl
  unfold newSegment
  simp only [FS.OpenFile, h1, h2', Bool.not_true, Bool.false_eq_true, if_false, FS.content, hc1, hc2,
    hn]
  simp [freshSegment, FS.withFresh, newStore, FS.put, List.set_append, hr]

theorem NewLog_config (fs : FS) (c : Config) :
    NewLog fs c = Log.setup { Config := c.withDefaults, fs := fs, segments := [], activeSegment := .nil } := by
  unfold NewLog Config.withDefaults
  by_cases h1 : c.MaxStoreBytes = 0 <;> by_cases h2 : c.MaxIndexBytes = 0 <;> simp [h1, h2]

theorem withDefaults_ne_zero (c : Config) : c.withDefaults.MaxIndexBytes ≠ 0 := by
  unfold Config.withDefaults
  by_cases h2 : c.MaxIndexBytes = 0 <;> simp [h2]

theorem withDefaults_store_pos (c : Config) : 0 < c.withDefaults.MaxStoreBytes := by
  unfold Config.withDefaults
  by_cases h2 : c.MaxStoreBytes = 0 <;> simp [h2]; omega

theorem NewLog_empty (c : Config) (h63 : c.withDefaults.MaxIndexBytes < 2 ^ 63) :
    NewLog FS.empty c = (.ok (), freshLog c) := by
  rw [NewLog_config]
  have hs := newSegment_fresh FS.empty c.InitialOffset c.withDefaults rfl rfl rfl
    (withDefaults_ne_zero c) h63
  simp only [Log.setup, FS.empty, Bool.not_true, Bool.false_eq_true, if_false, List.map_nil,
    List.insertionSort, Log.setupLoop, List.isEmpty_nil, if_true, Log.newSegment] at hs ⊢
  have hi : c.withDefaults.InitialOffset = c.InitialOffset := rfl
  rw [hi, hs]
  rfl

theorem NewLog_empty_error (c : Config) (h63 : ¬ c.withDefaults.MaxIndexBytes < 2 ^ 63) :
    (NewLog FS.empty c).1 = .error .io := by
  rw [NewLog_config]
  simp only [Log.setup, FS.empty, Bool.not_true, Bool.false_eq_true, if_false, List.map_nil,
    List.insertionSort, Log.setupLoop, List.isEmpty_nil, if_true, Log.newSegment, newSegment,
    FS.OpenFile, FS.lookup, List.find?_nil, Option.map_none', List.nil_append, FS.content,
    List.length_nil, List.find?_cons]
  have h63' : 9223372036854775808 ≤ c.withDefaults.MaxIndexBytes := by omega
  simp [newIndex, h63', FS.content]

theorem NewLog_empty_ok (c : Config) (l : Log) (h : NewLog FS.empty c = (.ok (), l)) :
    l = freshLog c ∧ c.withDefaults.MaxIndexBytes < 2 ^ 63 := by
  by_cases h63 : c.withDefaults.MaxIndexBytes < 2 ^ 63
  · rw [NewLog_empty c h63] at h
    simp only [Prod.mk.injEq, true_and] at h
    exact ⟨h.symm, h63⟩
  · have := NewLog_empty_error c h63
    rw [h] at this
    cases this

theorem Log_Read_oor_iff (cd : Codec) (l : Log) (off : Nat) :
    (Log.Read cd l off).1 = .error (.offsetOutOfRange off) ↔
      ∀ s ∈ l.segments, ¬ (s.baseOffset ≤ off ∧ off < s.nextOffset) := by
  rw [← findSegment_none]
  unfold Log.Read
  cases hf : Log.findSegment off l.segments with
  | none => simp
  | some r =>
    obtain ⟨i, s⟩ := r
    obtain ⟨_, hin, _⟩ := findSegment_some off l.segments i s hf
    simp only [if_neg (Nat.not_le.mpr hin.2)]
    constructor
    · intro h; exact absurd h (segment_Read_err cd s l.fs off off)
    · intro h; cases h

/-! ## Claim on `Log.Read` -/

/-- C4. `Log.Read(off)` fails with `ErrOffsetOutOfRange{Offset: off}` exactly when no
segment of the log has `baseOffset <= off < nextOffset`; otherwise its result is
the result of `segment.Read(off)` on the first segment, in list order, whose
range holds `off`.  On a log just created in an empty directory, `Read(5)`
fails with the out-of-range error carrying 5. -/
theorem Log_Read_range (cd : Codec) (l : Log) (off : Nat) :
    ((Log.Read cd l off).1 = .error (.offsetOutOfRange off) ↔
        ∀ s ∈ l.segments, ¬ (s.baseOffset ≤ off ∧ off < s.nextOffset)) ∧
      (∀ pre s post, l.segments = pre ++ s :: post →
        (∀ t ∈ pre, ¬ (t.baseOffset ≤ off ∧ off < t.nextOffset)) →
        (s.baseOffset ≤ off ∧ off < s.nextOffset) →
        (Log.Read cd l off).1 = (s.Read cd l.fs off).1) ∧
      (∀ c l0, NewLog FS.empty c = (.ok (), l0) →
        (Log.Read cd l0 5).1 = .error (.offsetOutOfRange 5)) := by
  refine ⟨Log_Read_oor_iff cd l off, ?_, ?_⟩
  · intro pre s post hl hpre hs
    unfold Log.Read
    rw [hl, findSegment_first off pre s post hpre hs]
    simp only [if_neg (Nat.not_le.mpr hs.2)]
  · intro c l0 h
    obtain ⟨hl0, _⟩ := NewLog_empty_ok c l0 h
    subst hl0
    rw [Log_Read_oor_iff]
    intro s hs
    simp only [freshLog, List.mem_singleton] at hs
    subst hs
    simp only [freshSegment]
    omega

/-! ## Truncation -/

theorem truncateLoop_kept (lowest : Nat) (segs : List segment) :
    ∀ (fs fs1 : FS) (marked : List (segment × Bool)),
      Log.truncateLoop lowest fs segs = (.ok (), fs1, marked) →
      (marked.filter (fun m => !m.2)).map Prod.fst =
        segs.filter (fun s => !decide (s.nextOffset ≤ (lowest + 1) % 2 ^ 64)) := by
  induction segs with
  | nil =>
    intro fs fs1 marked h
    simp only [Log.truncateLoop, Prod.mk.injEq, true_and] at h
    rw [← h.2]; rfl
  | cons s rest ih =>
    intro fs fs1 marked h
    unfold Log.truncateLoop at h
    by_cases hc : s.nextOffset ≤ (lowest + 1) % 2 ^ 64
    · rw [if_pos hc] at h
      split at h
      · simp at h
      · rename_i u s1 fs2 hr
        cases hl : Log.truncateLoop lowest fs2 rest with
        | mk r x =>
          obtain ⟨fs3, rest1⟩ := x
          rw [hl] at h
          simp only [Prod.mk.injEq] at h
          obtain ⟨h1, h2, h3⟩ := h
          subst h1 h2 h3
          have := ih fs2 fs3 rest1 hl
          simp only [List.filter_cons, Bool.not_true, Bool.false_eq_true, if_false, this,
            decide_eq_true hc]
    · rw [if_neg hc] at h
      cases hl : Log.truncateLoop lowest fs rest with
      | mk r x =>
        obtain ⟨fs3, rest1⟩ := x
        rw [hl] at h
        simp only [Prod.mk.injEq] at h
        obtain ⟨h1, h2, h3⟩ := h
        subst h1 h2 h3
        have := ih fs fs3 rest1 hl
        simp only [List.filter_cons, Bool.not_false, if_true, List.map_cons, this,
          decide_eq_false hc]

theorem Log_Truncate_segments (l l1 : Log) (lowest : Nat) (h : l.Truncate lowest = (.ok (), l1)) :
    l1.segments = l.segments.filter (fun s => !decide (s.nextOffset ≤ (lowest + 1) % 2 ^ 64)) := by
  unfold Log.Truncate at h
  split at h
  · simp at h
  · rename_i u fs1 marked hl
    simp only [Prod.mk.injEq, true_and] at h
    rw [← h]
    exact truncateLoop_kept lowest l.segments l.fs fs1 marked hl

/-! ## Claims on `Log.Truncate` -/

/-- C6, the code at the failing input. A successful `Truncate(lowest)` keeps exactly
the segments whose `nextOffset` is above `lowest + 1` computed in `uint64`, in
their order.  For `lowest = 2 ^ 64 - 1` that sum is 0: on a log of three segments
holding the offsets `0..4` the call succeeds and removes nothing, although
`nextOffset <= lowest + 1` holds for the three segments. -/
theorem Log_Truncate_max_removes_nothing :
    (∀ (l l1 : Log) (lowest : Nat), l.Truncate lowest = (.ok (), l1) →
        l1.segments =
          l.segments.filter (fun s => !decide (s.nextOffset ≤ (lowest + 1) % 2 ^ 64))) ∧
      ((sampleLog ⟨32, 36, 0⟩ 5).segments.map (fun s => (s.baseOffset, s.nextOffset)) =
        [(0, 2), (2, 4), (4, 5)]) ∧
      ((sampleLog ⟨32, 36, 0⟩ 5).Truncate (2 ^ 64 - 1)).1 = .ok () ∧
      ((sampleLog ⟨32, 36, 0⟩ 5).Truncate (2 ^ 64 - 1)).2.segments =
        (sampleLog ⟨32, 36, 0⟩ 5).segments ∧
      (∀ s ∈ (sampleLog ⟨32, 36, 0⟩ 5).segments, s.nextOffset ≤ (2 ^ 64 - 1) + 1) :=
  ⟨Log_Truncate_segments, by decide⟩

/-- C7, counterexample. Default configuration, ten records appended (offsets `0..9`,
all in the one segment), then `Truncate(4)`: the call succeeds, the segment
remains, `LowestOffset()` returns 0, which is not greater than 4, and `Read(3)`
still returns the record of offset 3. -/
theorem Log_Truncate_keeps_straddling_segment :
    (Log.appendAll fixedCodec (NewLog FS.empty ⟨0, 0, 0⟩).2
        (List.replicate 10 ⟨helloWorld, 0⟩)).1 = (List.range 10).map .ok ∧
      ((sampleLog ⟨0, 0, 0⟩ 10).Truncate 4).1 = .ok () ∧
      ((sampleLog ⟨0, 0, 0⟩ 10).Truncate 4).2.segments.length = 1 ∧
      ((sampleLog ⟨0, 0, 0⟩ 10).Truncate 4).2.LowestOffset = .ok 0 ∧
      (Log.Read fixedCodec ((sampleLog ⟨0, 0, 0⟩ 10).Truncate 4).2 3).1 = .ok ⟨helloWorld, 3⟩ := by
  decide

/-- C7, amended. After a successful `Truncate(lowest)` with `lowest < 2 ^ 64 - 1` that
leaves at least one segment, `LowestOffset()` returns the base offset of the
first segment that was kept; that segment was in the log before, and its
`nextOffset` is greater than `lowest + 1`, so that its last offset is greater
than `lowest`. -/
theorem Log_Truncate_LowestOffset (l l1 : Log) (lowest : Nat) (hl : lowest < 2 ^ 64 - 1)
    (h : l.Truncate lowest = (.ok (), l1)) (hne : l1.segments ≠ []) :
    ∃ s rest, l1.segments = s :: rest ∧ l1.LowestOffset = .ok s.baseOffset ∧ s ∈ l.segments ∧
      lowest + 1 < s.nextOffset := by
  have hseg := Log_Truncate_segments l l1 lowest h
  cases hs : l1.segments with
  | nil => exact absurd hs hne
  | cons s rest =>
    refine ⟨s, rest, rfl, ?_, ?_, ?_⟩
    · simp [Log.LowestOffset, hs]
    · have : s ∈ l1.segments := by rw [hs]; exact List.mem_cons_self _ _
      rw [hseg] at this
      exact (List.mem_filter.mp this).1
    · have : s ∈ l1.segments := by rw [hs]; exact List.mem_cons_self _ _
      rw [hseg] at this
      have := (List.mem_filter.mp this).2
      simp only [Bool.not_eq_true', decide_eq_false_iff_not, Nat.not_le] at this
      omega

/-- Witness of C7: offsets `0..4` in three segments, `Truncate(2)` keeps the segments
of base offsets 2 and 4. -/
theorem Log_Truncate_LowestOffset_witness :
    ∃ s rest, ((sampleLog ⟨32, 36, 0⟩ 5).Truncate 2).2.segments = s :: rest ∧
      ((sampleLog ⟨32, 36, 0⟩ 5).Truncate 2).2.LowestOffset = .ok s.baseOffset ∧
      s ∈ (sampleLog ⟨32, 36, 0⟩ 5).segments ∧ 2 + 1 < s.nextOffset :=
  Log_Truncate_LowestOffset (sampleLog ⟨32, 36, 0⟩ 5) ((sampleLog ⟨32, 36, 0⟩ 5).Truncate 2).2 2
    (by decide) (by decide) (by decide)

/-! ## Rotation -/

theorem segment_Append_base (cd : Codec) (s : segment) (fs : FS) (r : Record) :
    (s.Append cd fs r).2.1.baseOffset = s.baseOffset ∧ (s.Append cd fs r).2.1.config = s.config := by
  unfold segment.Append
  simp only []
  split
  · exact ⟨rfl, rfl⟩
  · split
    · exact ⟨rfl, rfl⟩
    · split <;> exact ⟨rfl, rfl⟩

theorem newSegment_base (fs fs1 : FS) (b : Nat) (cfg : Config) (s : segment)
    (h : newSegment fs b cfg = (.ok s, fs1)) : s.baseOffset = b ∧ s.config = cfg := by
  unfold newSegment at h
  split at h
  · simp at h
  · split at h
    · simp at h
    · split at h
      · simp at h
      · split at h
        · simp at h
        · simp only [Prod.mk.injEq, Except.ok.injEq] at h
          rw [← h.1]; exact ⟨rfl, rfl⟩
        · simp only [Prod.mk.injEq, Except.ok.injEq] at h
          rw [← h.1]; exact ⟨rfl, rfl⟩

theorem IsMaxed_iff (s : segment) (h : s.index.size + 12 < 2 ^ 64) :
    s.IsMaxed = true ↔
      (s.config.MaxStoreBytes ≤ s.store.size ∨ s.config.MaxIndexBytes < s.index.size + 12) := by
  have hw : (s.index.size + endWidth) % 2 ^ 64 = s.index.size + 12 := by
    simp only [endWidth, offWidth, posWidth]; omega
  unfold segment.IsMaxed
  rw [hw]
  simp

/-! ## Claim on rotation -/

/-- C5. Let `a` be the active segment when `Log.Append` is called.  If
`store.size >= MaxStoreBytes` or `index.size + 12 > MaxIndexBytes` holds for `a`,
and making the files of the new segment does not fail, the call makes a new
segment whose `baseOffset` is `a.nextOffset`, puts it at the end of the segment
list, which grows by exactly one, makes it the active segment and appends the
record to it.  If neither condition holds, the segment list keeps its length
and its base offsets, and the record is appended to `a`. -/
theorem Log_Append_rotation (cd : Codec) (l : Log) (r : Record) (a : segment)
    (ha : l.active = some a) (hsz : a.index.size + 12 < 2 ^ 64) :
    ((a.config.MaxStoreBytes ≤ a.store.size ∨ a.config.MaxIndexBytes < a.index.size + 12) →
        ∀ s fs1, newSegment l.fs a.nextOffset l.Config = (.ok s, fs1) →
          s.baseOffset = a.nextOffset ∧
          (Log.Append cd l r).2.segments.length = l.segments.length + 1 ∧
          (Log.Append cd l r).2.segments = l.segments ++ [(s.Append cd fs1 r).2.1] ∧
          (s.Append cd fs1 r).2.1.baseOffset = a.nextOffset ∧
          (Log.Append cd l r).2.activeSegment = .inList l.segments.length ∧
          (Log.Append cd l r).1 = (s.Append cd fs1 r).1) ∧
      (¬ (a.config.MaxStoreBytes ≤ a.store.size ∨ a.config.MaxIndexBytes < a.index.size + 12) →
        (Log.Append cd l r).2.segments.length = l.segments.length ∧
        (Log.Append cd l r).2.segments.map (fun s => s.baseOffset) =
          l.segments.map (fun s => s.baseOffset) ∧
        (Log.Append cd l r).2.active = some (a.Append cd l.fs r).2.1 ∧
        (Log.Append cd l r).1 = (a.Append cd l.fs r).1) := by
  constructor
  · intro hmax s fs1 hn
    have hm := (IsMaxed_iff a hsz).mpr hmax
    have hb := (newSegment_base _ _ _ _ _ hn).1
    have hstep : Log.Append cd l r = ((s.Append cd fs1 r).1,
        { l with fs := (s.Append cd fs1 r).2.2
                 segments := l.segments ++ [(s.Append cd fs1 r).2.1]
                 activeSegment := .inList l.segments.length }) := by
      unfold Log.Append
      rw [ha]
      simp only [hm, if_true, Log.newSegment, hn]
      have hact : Log.active (Log.mk l.Config fs1 (l.segments ++ [s])
          (.inList l.segments.length)) = some s := by
        simp [Log.active]
      simp only [hact, Log.setActive]
      simp
    rw [hstep]
    refine ⟨hb, by simp, rfl, ?_, rfl, rfl⟩
    rw [(segment_Append_base cd s fs1 r).1, hb]
  · intro hmax
    have hm : a.IsMaxed = false := by
      cases h : a.IsMaxed with
      | false => rfl
      | true => exact absurd ((IsMaxed_iff a hsz).mp h) hmax
    have hstep : Log.Append cd l r = ((a.Append cd l.fs r).1,
        Log.setActive { l with fs := (a.Append cd l.fs r).2.2 } (a.Append cd l.fs r).2.1) := by
      unfold Log.Append
      rw [ha]
      simp only [hm, Bool.false_eq_true, if_false, ha]
    rw [hstep]
    unfold Log.active at ha
    cases hact : l.activeSegment with
    | nil => rw [hact] at ha; simp at ha
    | detached d =>
      rw [hact] at ha
      simp only [Log.setActive, hact, Log.active]
      exact ⟨trivial, trivial, trivial, trivial⟩
    | inList i =>
      rw [hact] at ha
      simp only at ha
      have hi : i < l.segments.length := by
        rcases Nat.lt_or_ge i l.segments.length with h1 | h1
        · exact h1
        · rw [List.getElem?_eq_none h1] at ha; cases ha
      have hai : l.segments[i] = a := by
        rw [List.getElem?_eq_getElem hi] at ha
        exact Option.some.inj ha
      simp only [Log.setActive, hact, Log.active, List.length_set, true_and]
      refine ⟨?_, by simp [List.getElem?_set, hi], trivial⟩
      apply List.ext_getElem?
      intro j
      simp only [List.getElem?_map, List.getElem?_set]
      by_cases hj : i = j
      · subst hj
        simp [hi, List.getElem?_eq_getElem hi, hai, (segment_Append_base cd a l.fs r).1]
      · simp [hj]

/-- Witness of C5: with `MaxStoreBytes = 32` the store of the active segment holds 54
bytes after two records, so the third `Append` makes the segment of base
offset 2; after one record it holds 27 bytes and the second `Append` makes no
segment. -/
theorem Log_Append_rotation_witness :
    (Log.Append fixedCodec (sampleLog ⟨32, 36, 0⟩ 2) ⟨helloWorld, 0⟩).2.segments.length =
        (sampleLog ⟨32, 36, 0⟩ 2).segments.length + 1 ∧
      (Log.Append fixedCodec (sampleLog ⟨32, 36, 0⟩ 1) ⟨helloWorld, 0⟩).2.segments.length =
        (sampleLog ⟨32, 36, 0⟩ 1).segments.length :=
  ⟨((Log_Append_rotation fixedCodec (sampleLog ⟨32, 36, 0⟩ 2) ⟨helloWorld, 0⟩
      ((sampleLog ⟨32, 36, 0⟩ 2).active.getD (freshSegment 0 0 ⟨32, 36, 0⟩))
      (by decide) (by decide)).1 (by decide)
      (okOr (freshSegment 0 0 ⟨32, 36, 0⟩) (newSegment (sampleLog ⟨32, 36, 0⟩ 2).fs 2 ⟨32, 36, 0⟩).1)
      (newSegment (sampleLog ⟨32, 36, 0⟩ 2).fs 2 ⟨32, 36, 0⟩).2 (by decide)).2.1,
   ((Log_Append_rotation fixedCodec (sampleLog ⟨32, 36, 0⟩ 1) ⟨helloWorld, 0⟩
      ((sampleLog ⟨32, 36, 0⟩ 1).active.getD (freshSegment 0 0 ⟨32, 36, 0⟩))
      (by decide) (by decide)).2 (by decide)).1⟩

/-! ## The invariant of a log made in an empty directory -/

theorem FS_put_content_same (fs : FS) (i : Nat) (c : List Byte) (h : i < fs.inodes.length) :
    (fs.put i c).content i = c := by
  simp [FS.put, FS.content, List.getD_eq_getElem?_getD, List.getElem?_set, h]

theorem FS_put_content_ne (fs : FS) (i j : Nat) (c : List Byte) (h : j ≠ i) :
    (fs.put i c).content j = fs.content j := by
  simp [FS.put, FS.content, List.getD_eq_getElem?_getD, List.getElem?_set, Ne.symm h]

theorem FS_put_length (fs : FS) (i : Nat) (c : List Byte) :
    (fs.put i c).inodes.length = fs.inodes.length := by
  simp [FS.put]

theorem entriesOf_snoc (ps : List (List Byte)) (p : List Byte) :
    entriesOf (ps ++ [p]) = entriesOf ps ++ [(ps.length % 2 ^ 32, (frames ps).length % 2 ^ 64)] := by
  unfold entriesOf
  rw [List.length_append, List.length_singleton, List.range_succ, List.map_append]
  congr 1
  · apply List.map_congr_left
    intro j hj
    rw [List.mem_range] at hj
    rw [List.take_append_of_le_length (Nat.le_of_lt hj)]
  · simp

theorem entriesOf_length (ps : List (List Byte)) : (entriesOf ps).length = ps.length := by
  simp [entriesOf]

theorem entriesOf_get (ps : List (List Byte)) (j : Nat) (h : j < (entriesOf ps).length) :
    (entriesOf ps)[j] = (j % 2 ^ 32, (frames (ps.take j)).length % 2 ^ 64) := by
  simp [entriesOf]

theorem SegInv_frame (cfg : Config) (fs fs1 : FS) (s : segment) (k b : Nat)
    (ps : List (List Byte)) (h0 : fs1.content (2 * k) = fs.content (2 * k))
    (h1 : fs1.content (2 * k + 1) = fs.content (2 * k + 1)) (h : SegInv cfg fs s k b ps) :
    SegInv cfg fs1 s k b ps := by
  unfold SegInv at h ⊢
  rw [h0, h1]
  exact h

theorem SegsInv_frame (cfg : Config) (fs fs1 : FS) (segs : List segment) :
    ∀ (k : Nat) (X : List (Nat × List (List Byte))),
      (∀ j, j < 2 * (k + segs.length) → fs1.content j = fs.content j) →
      SegsInv cfg fs k segs X → SegsInv cfg fs1 k segs X := by
  induction segs with
  | nil =>
    intro k X _ h
    cases X with
    | nil => trivial
    | cons x X => exact h
  | cons s segs ih =>
    intro k X hfs h
    cases X with
    | nil => exact h
    | cons x X =>
      obtain ⟨b, ps⟩ := x
      simp only [SegsInv, List.length_cons] at h hfs ⊢
      refine ⟨SegInv_frame cfg fs fs1 s k b ps (hfs _ (by omega)) (hfs _ (by omega)) h.1, ?_⟩
      exact ih (k + 1) X (fun j hj => hfs j (by omega)) h.2

theorem SegsInv_length (cfg : Config) (fs : FS) (segs : List segment) :
    ∀ (k : Nat) (X : List (Nat × List (List Byte))), SegsInv cfg fs k segs X →
      segs.length = X.length := by
  induction segs with
  | nil =>
    intro k X h
    cases X with
    | nil => rfl
    | cons x X => exact absurd h (by simp [SegsInv])
  | cons s segs ih =>
    intro k X h
    cases X with
    | nil => exact absurd h (by simp [SegsInv])
    | cons x X =>
      simp only [SegsInv] at h
      simp [ih (k + 1) X h.2]

theorem SegsInv_snoc (cfg : Config) (fs : FS) (segs : List segment) :
    ∀ (k : Nat) (X : List (Nat × List (List Byte))) (s : segment) (b : Nat)
      (ps : List (List Byte)),
      SegsInv cfg fs k (segs ++ [s]) (X ++ [(b, ps)]) ↔
        SegsInv cfg fs k segs X ∧ SegInv cfg fs s (k + segs.length) b ps := by
  induction segs with
  | nil =>
    intro k X s b ps
    cases X with
    | nil => simp [SegsInv]
    | cons x X =>
      cases X with
      | nil => simp [SegsInv]
      | cons y X => simp [SegsInv]
  | cons t segs ih =>
    intro k X s b ps
    cases X with
    | nil =>
      cases segs with
      | nil => simp [SegsInv]
      | cons u segs => simp [SegsInv]
    | cons x X =>
      obtain ⟨b1, ps1⟩ := x
      simp only [List.cons_append, SegsInv, List.length_cons, List.append_eq]
      rw [ih (k + 1) X s b ps]
      have : k + 1 + segs.length = k + (segs.length + 1) := by omega
      rw [this, and_assoc]

theorem SegsInv_last (cfg : Config) (fs : FS) (segs : List segment) (k : Nat)
    (X : List (Nat × List (List Byte))) (b : Nat) (ps : List (List Byte))
    (h : SegsInv cfg fs k segs (X ++ [(b, ps)])) :
    ∃ init s, segs = init ++ [s] ∧ init.length = X.length ∧ SegsInv cfg fs k init X ∧
      SegInv cfg fs s (k + X.length) b ps := by
  have hlen := SegsInv_length cfg fs segs k _ h
  simp only [List.length_append, List.length_singleton] at hlen
  have hne : segs ≠ [] := by
    intro h0; rw [h0] at hlen; simp at hlen
  obtain ⟨init, s, hs⟩ : ∃ init s, segs = init ++ [s] :=
    ⟨segs.dropLast, segs.getLast hne, (List.dropLast_append_getLast hne).symm⟩
  subst hs
  rw [SegsInv_snoc] at h
  have hl : init.length = X.length := by
    simp only [List.length_append, List.length_singleton] at hlen; omega
  exact ⟨init, s, rfl, hl, h.1, hl ▸ h.2⟩

theorem byteOf_mod_pow (n w v : Nat) (h : v < w) :
    byteOf (n % 256 ^ w / 256 ^ v) = byteOf (n / 256 ^ v) := by
  have hw : 256 ^ w = 256 ^ v * 256 ^ (w - v) := by
    rw [← Nat.pow_add]; congr 1; omega
  have hd : 256 ∣ 256 ^ (w - v) := by
    have : w - v = (w - v - 1) + 1 := by omega
    rw [this, Nat.pow_succ]
    exact Nat.dvd_mul_left _ _
  unfold byteOf
  apply Fin.ext
  simp only
  rw [hw, Nat.mod_mul_right_div_self, Nat.mod_mod_of_dvd _ hd]

theorem putUint_mod_aux (n w : Nat) : ∀ v, v ≤ w → putUint v (n % 256 ^ w) = putUint v n := by
  intro v
  induction v with
  | zero => intro _; rfl
  | succ v ih =>
    intro h
    simp only [putUint]
    rw [byteOf_mod_pow n w v (by omega), ih (by omega)]

theorem putUint8_mod (n : Nat) : putUint 8 (n % 2 ^ 64) = putUint 8 n := by
  have := putUint_mod_aux n 8 8 (Nat.le_refl _)
  have h : (256 : Nat) ^ 8 = 2 ^ 64 := by norm_num
  rw [h] at this
  exact this

theorem segment_Append_none (cd : Codec) (s : segment) (fs : FS) (r : Record)
    (h : cd.Marshal { r with Offset := s.nextOffset } = none) :
    s.Append cd fs r = (.error .codec, s, fs) := by
  unfold segment.Append
  simp only [h]

theorem segment_Append_inv (cd : Codec) (cfg : Config) (fs : FS) (s : segment) (k b : Nat)
    (ps : List (List Byte)) (r : Record) (p : List Byte)
    (h : SegInv cfg fs s k b ps) (hk : 2 * k + 1 < fs.inodes.length)
    (hroom : 12 * ps.length + 12 ≤ cfg.MaxIndexBytes) (h63 : cfg.MaxIndexBytes < 2 ^ 63)
    (hoff : b + ps.length + 1 < 2 ^ 64)
    (hm : cd.Marshal { r with Offset := b + ps.length } = some p) :
    ∃ s1 fs1, s.Append cd fs r = (.ok (b + ps.length), s1, fs1) ∧
      SegInv cfg fs1 s1 k b (ps ++ [p]) ∧ fs1.present = fs.present ∧ fs1.names = fs.names ∧
      fs1.inodes.length = fs.inodes.length ∧
      ∀ j, j ≠ 2 * k → j ≠ 2 * k + 1 → fs1.content j = fs.content j := by
  obtain ⟨hb, hn, hc, hsf, hsc, hse, hsl, hss, hif, hic, him, hrep⟩ := h
  obtain ⟨st, c, hsa⟩ := store_Append_open s.store (fs.content s.store.File) p hsc hse
  obtain ⟨_, _, hst_size, hst_log, hst_closed, hst_err, hst_file⟩ :=
    store_Append_ok _ _ _ _ _ _ _ hsa
  rw [hsf] at hsa hst_log
  have hrel : ((b + ps.length + 2 ^ 64 - b) % 2 ^ 64) % 2 ^ 32 = ps.length % 2 ^ 32 := by
    have : (b + ps.length + 2 ^ 64 - b) % 2 ^ 64 = ps.length := by omega
    rw [this]
  have hsize : s.index.size = 12 * ps.length := by
    rw [hrep.1, entriesOf_length]
  have hc0 : (fs.put (2 * k) c).content (2 * k + 1) = fs.content (2 * k + 1) :=
    FS_put_content_ne fs _ _ c (by omega)
  obtain ⟨i1, c1, hiw, hrep1, hi1f, hi1c, hi1m⟩ :=
    index_Write_rep s.index (fs.content (2 * k + 1)) (entriesOf ps) (ps.length % 2 ^ 32)
      s.store.size hrep (by rw [hsize, him]; omega)
  have hstep : s.Append cd fs r = (.ok (b + ps.length),
      { s with store := st, index := i1, nextOffset := b + ps.length + 1 },
      (fs.put (2 * k) c).put (2 * k + 1) c1) := by
    unfold segment.Append
    simp only [hn, hb, hm, hsf, hsa, hif, hrel, hc0, hiw]
    have : (b + ps.length + 1) % 2 ^ 64 = b + ps.length + 1 := by omega
    rw [this]
  refine ⟨_, _, hstep, ?_, rfl, rfl, by simp [FS.put], ?_⟩
  · have hk0 : 2 * k < fs.inodes.length := by omega
    have hcs : ((fs.put (2 * k) c).put (2 * k + 1) c1).content (2 * k) = c := by
      rw [FS_put_content_ne _ _ _ _ (by omega), FS_put_content_same _ _ _ hk0]
    have hci : ((fs.put (2 * k) c).put (2 * k + 1) c1).content (2 * k + 1) = c1 :=
      FS_put_content_same _ _ _ (by rw [FS_put_length]; exact hk)
    have hfr : frames (ps ++ [p]) = frames ps ++ frame p := by
      rw [frames_append]; simp [frames]
    refine ⟨hb, ?_, hc, hst_file.trans hsf, hst_closed.trans hsc, hst_err, ?_, ?_,
      hi1f.trans hif, hi1c.trans hic, hi1m.trans him, ?_⟩
    · simp only [List.length_append, List.length_singleton]; omega
    · rw [hcs, hst_log, hsl, putUint8_mod, hfr]; rfl
    · rw [hst_size, hss, hfr, List.length_append, frame_length]
      omega
    · rw [hci, entriesOf_snoc, ← hss]
      exact hrep1
  · intro j h0 h1
    rw [FS_put_content_ne _ _ _ _ h1, FS_put_content_ne _ _ _ _ h0]

theorem withFresh_content_lt (fs : FS) (b : Nat) (cfg : Config) (j : Nat)
    (h : j < fs.inodes.length) : (fs.withFresh b cfg).content j = fs.content j := by
  simp only [FS.withFresh, FS.content]
  exact getD_append_left _ _ _ h

theorem withFresh_content_store (fs : FS) (b : Nat) (cfg : Config) :
    (fs.withFresh b cfg).content fs.inodes.length = [] := by
  simp only [FS.withFresh, FS.content]
  have := getD_append_right fs.inodes [[], resize [] cfg.MaxIndexBytes] 0
  simpa using this

theorem withFresh_content_index (fs : FS) (b : Nat) (cfg : Config) :
    (fs.withFresh b cfg).content (fs.inodes.length + 1) = resize [] cfg.MaxIndexBytes := by
  simp only [FS.withFresh, FS.content]
  have := getD_append_right fs.inodes [[], resize [] cfg.MaxIndexBytes] 1
  simpa using this

theorem SegInv_fresh (cfg : Config) (fs : FS) (k b : Nat) (hn : fs.inodes.length = 2 * k)
    (h63 : cfg.MaxIndexBytes < 2 ^ 63) :
    SegInv cfg (fs.withFresh b cfg) (freshSegment (2 * k) b cfg) k b [] := by
  have hs := withFresh_content_store fs b cfg
  have hi := withFresh_content_index fs b cfg
  rw [hn] at hs hi
  refine ⟨rfl, rfl, rfl, rfl, rfl, rfl, ?_, rfl, rfl, rfl, rfl, ?_⟩
  · rw [hs]; rfl
  · rw [hi]
    refine ⟨rfl, Nat.zero_le _, ?_, h63, resize [] cfg.MaxIndexBytes, rfl⟩
    simp [resize, freshSegment]

theorem namesFrom_append (X Y : List (Nat × List (List Byte))) :
    ∀ k, namesFrom k (X ++ Y) = namesFrom k X ++ namesFrom (k + X.length) Y := by
  induction X with
  | nil => intro k; simp [namesFrom]
  | cons x X ih =>
    intro k
    obtain ⟨b, ps⟩ := x
    simp only [List.cons_append, namesFrom, List.append_eq, ih (k + 1), List.length_cons]
    have : k + 1 + X.length = k + (X.length + 1) := by omega
    rw [this]

theorem find_namesFrom_none (n : FileName) (X : List (Nat × List (List Byte))) :
    ∀ k, (∀ x ∈ X, x.1 ≠ n.base) →
      (namesFrom k X).find? (fun e => decide (e.1 = n)) = none := by
  induction X with
  | nil => intro k _; rfl
  | cons x X ih =>
    intro k h
    obtain ⟨b, ps⟩ := x
    have hb : b ≠ n.base := h (b, ps) (List.mem_cons_self _ _)
    have h1 : (⟨b, .store⟩ : FileName) ≠ n := by
      intro he; apply hb; rw [← he]
    have h2 : (⟨b, .index⟩ : FileName) ≠ n := by
      intro he; apply hb; rw [← he]
    simp only [namesFrom, List.find?_cons, h1, h2, decide_False]
    exact ih (k + 1) (fun x hx => h x (List.mem_cons_of_mem _ hx))

theorem chained_snoc (X : List (Nat × List (List Byte))) (b : Nat) (ps : List (List Byte)) :
    ∀ s e, chained s (X ++ [(b, ps)]) e ↔ chained s X b ∧ b + ps.length = e := by
  induction X with
  | nil =>
    intro s e
    simp only [List.nil_append, chained]
    constructor
    · rintro ⟨h1, h2⟩; exact ⟨h1.symm, h2⟩
    · rintro ⟨h1, h2⟩; exact ⟨h1.symm, h2⟩
  | cons x X ih =>
    intro s e
    obtain ⟨b1, ps1⟩ := x
    simp only [List.cons_append, chained, List.append_eq, ih, and_assoc]

theorem chained_bound (X : List (Nat × List (List Byte))) :
    ∀ s e, chained s X e → s ≤ e ∧ ∀ x ∈ X, s ≤ x.1 ∧ x.1 + x.2.length ≤ e := by
  induction X with
  | nil =>
    intro s e h
    simp only [chained] at h
    subst h
    exact ⟨Nat.le_refl _, fun x hx => by simp at hx⟩
  | cons x X ih =>
    intro s e h
    obtain ⟨b, ps⟩ := x
    simp only [chained] at h
    obtain ⟨hb, hr⟩ := h
    subst hb
    obtain ⟨h1, h2⟩ := ih _ _ hr
    refine ⟨by omega, ?_⟩
    intro x hx
    rcases List.mem_cons.mp hx with h0 | h0
    · subst h0; simp only; omega
    · have := h2 x h0; omega

theorem Log_newSegment_inv (cfg : Config) (l : Log) (A : AbsLog) (hcfg : CfgOk cfg)
    (h : LogInv cfg l A) (hne : A.cur ≠ []) :
    ∃ l1, l.newSegment (A.base + A.cur.length) = (.ok (), l1) ∧ LogInv cfg l1 A.rotate := by
  obtain ⟨hc, hp, hact, hsegs, hino, hnames, hch, hold, hlt⟩ := h
  obtain ⟨hM12, hM63, _⟩ := hcfg
  have hlen := SegsInv_length cfg l.fs l.segments 0 _ hsegs
  have hall : A.all.length = A.old.length + 1 := by simp [AbsLog.all]
  have hcur : 0 < A.cur.length := List.length_pos.mpr hne
  have hbases : ∀ x ∈ A.all, x.1 ≠ A.base + A.cur.length := by
    intro x hx
    simp only [AbsLog.all, List.mem_append, List.mem_singleton] at hx
    rcases hx with h0 | h0
    · have := ((chained_bound A.old _ _ hch).2 x h0).2; omega
    · subst h0; simp only; omega
  have hl1 : l.fs.lookup ⟨A.base + A.cur.length, .store⟩ = none := by
    unfold FS.lookup
    rw [hnames, find_namesFrom_none _ _ 0 hbases]; rfl
  have hl2 : l.fs.lookup ⟨A.base + A.cur.length, .index⟩ = none := by
    unfold FS.lookup
    rw [hnames, find_namesFrom_none _ _ 0 hbases]; rfl
  have hnew := newSegment_fresh l.fs (A.base + A.cur.length) cfg hp hl1 hl2 (by omega) hM63
  have hn2 : l.fs.inodes.length = 2 * l.segments.length := by rw [hino, hlen, hall]
  refine ⟨Log.mk cfg (l.fs.withFresh (A.base + A.cur.length) cfg)
    (l.segments ++ [freshSegment l.fs.inodes.length (A.base + A.cur.length) cfg])
    (.inList l.segments.length), by simp only [Log.newSegment, hc, hnew], ?_⟩
  refine ⟨rfl, hp, ?_, ?_, ?_, ?_, ?_, ?_, ?_⟩
  · simp only [AbsLog.rotate, List.length_append, List.length_singleton]
    rw [hlen, hall]
  · have : A.rotate.all = A.all ++ [(A.base + A.cur.length, [])] := rfl
    rw [this, SegsInv_snoc]
    refine ⟨SegsInv_frame cfg l.fs _ l.segments 0 _ ?_ hsegs, ?_⟩
    · intro j hj
      exact withFresh_content_lt _ _ _ _ (by omega)
    · rw [hn2, Nat.zero_add]
      exact SegInv_fresh cfg l.fs l.segments.length _ hn2 hM63
  · simp only [FS.withFresh, AbsLog.rotate, List.length_append, List.length_singleton,
      List.length_cons, List.length_nil]
    omega
  · have : A.rotate.all = A.all ++ [(A.base + A.cur.length, [])] := rfl
    rw [this, namesFrom_append]
    simp only [FS.withFresh, hnames, namesFrom, Nat.zero_add]
    rw [hino, hall]
  · exact (chained_snoc A.old A.base A.cur _ _).mpr ⟨hch, rfl⟩
  · intro x hx
    simp only [AbsLog.rotate, List.mem_append, List.mem_singleton] at hx
    rcases hx with h0 | h0
    · exact hold x h0
    · subst h0; exact hne
  · simp only [AbsLog.rotate, List.length_nil]; omega

theorem Log_Append_eq (cd : Codec) (l : Log) (r : Record) (a : segment) (ha : l.active = some a) :
    Log.Append cd l r =
      match (if a.IsMaxed then l.newSegment a.nextOffset else (.ok (), l)) with
      | (.error e, l1) => (.error e, l1)
      | (.ok _, l1) => Log.appendActive cd l1 r := by
  unfold Log.Append
  rw [ha]
  simp only [Log.appendActive]

theorem payloads_append (X Y : List (Nat × List (List Byte))) :
    payloads (X ++ Y) = payloads X ++ payloads Y := by
  induction X with
  | nil => rfl
  | cons x X ih =>
    obtain ⟨b, ps⟩ := x
    simp only [List.cons_append, payloads, List.append_eq, ih, List.append_assoc]

theorem payloads_all (A : AbsLog) : payloads A.all = payloads A.old ++ A.cur := by
  simp [AbsLog.all, payloads_append, payloads]

theorem LogInv_active (cfg : Config) (l : Log) (A : AbsLog) (h : LogInv cfg l A) :
    ∃ init s, l.segments = init ++ [s] ∧ init.length = A.old.length ∧
      SegsInv cfg l.fs 0 init A.old ∧ SegInv cfg l.fs s A.old.length A.base A.cur ∧
      l.active = some s := by
  obtain ⟨hc, hp, hact, hsegs, hino, hnames, hch, hold, hlt⟩ := h
  obtain ⟨init, s, hs, hl, h1, h2⟩ := SegsInv_last cfg l.fs l.segments 0 A.old A.base A.cur hsegs
  rw [Nat.zero_add] at h2
  refine ⟨init, s, hs, hl, h1, h2, ?_⟩
  simp [Log.active, hact, hs, ← hl]

theorem Log_appendActive_inv (cd : Codec) (cfg : Config) (l : Log) (A : AbsLog) (r : Record)
    (h : LogInv cfg l A) (h63 : cfg.MaxIndexBytes < 2 ^ 63)
    (hroom : 12 * A.cur.length + 12 ≤ cfg.MaxIndexBytes)
    (hoff : A.base + A.cur.length + 1 < 2 ^ 64) :
    (cd.Marshal { r with Offset := A.base + A.cur.length } = none →
        (Log.appendActive cd l r).1 = .error .codec ∧ LogInv cfg (Log.appendActive cd l r).2 A) ∧
      (∀ p, cd.Marshal { r with Offset := A.base + A.cur.length } = some p →
        (Log.appendActive cd l r).1 = .ok (A.base + A.cur.length) ∧
          LogInv cfg (Log.appendActive cd l r).2 { A with cur := A.cur ++ [p] }) := by
  obtain ⟨init, s, hs, hl, hinit, hseg, hact⟩ := LogInv_active cfg l A h
  obtain ⟨hc, hp, hactref, hsegs, hino, hnames, hch, hold, hlt⟩ := h
  have hset : ∀ t, (init ++ [s]).set A.old.length t = init ++ [t] := by
    intro t; rw [← hl]; simp [List.set_append]
  constructor
  · intro hm
    have hn : s.nextOffset = A.base + A.cur.length := hseg.2.1
    have hstep := segment_Append_none cd s l.fs r (by rw [hn]; exact hm)
    simp only [Log.appendActive, hact, hstep, Log.setActive, hactref]
    refine ⟨trivial, hc, hp, rfl, ?_, hino, hnames, hch, hold, hlt⟩
    simp only [hs, hset]
    rw [← hs]; exact hsegs
  · intro p hm
    obtain ⟨s1, fs1, hstep, hseg1, hp1, hn1, hi1, hfr⟩ :=
      segment_Append_inv cd cfg l.fs s A.old.length A.base A.cur r p hseg (by omega) hroom h63
        hoff hm
    simp only [Log.appendActive, hact, hstep, Log.setActive, hactref]
    have hnm : namesFrom 0 (AbsLog.all { A with cur := A.cur ++ [p] }) = namesFrom 0 A.all := by
      simp only [AbsLog.all, namesFrom_append, namesFrom]
    refine ⟨trivial, hc, hp1.trans hp, rfl, ?segs, hi1.trans hino, ?names, hch, hold, ?lt⟩
    case names => rw [hnm]; exact hn1.trans hnames
    case segs =>
      simp only [hs, hset]
      have : AbsLog.all { A with cur := A.cur ++ [p] } = A.old ++ [(A.base, A.cur ++ [p])] := rfl
      rw [this, SegsInv_snoc, Nat.zero_add, hl]
      refine ⟨SegsInv_frame cfg l.fs fs1 init 0 A.old ?_ hinit, hseg1⟩
      intro j hj
      exact hfr j (by omega) (by omega)
    case lt =>
      simp only [List.length_append, List.length_singleton]; omega

theorem SegInv_IsMaxed (cfg : Config) (fs : FS) (s : segment) (k b : Nat) (ps : List (List Byte))
    (h : SegInv cfg fs s k b ps) (h63 : cfg.MaxIndexBytes < 2 ^ 63) :
    s.IsMaxed = true ↔
      (cfg.MaxStoreBytes ≤ (frames ps).length % 2 ^ 64 ∨ cfg.MaxIndexBytes < 12 * ps.length + 12) := by
  obtain ⟨hb, hn, hc, hsf, hsc, hse, hsl, hss, hif, hic, him, hrep⟩ := h
  have hsize : s.index.size = 12 * ps.length := by rw [hrep.1, entriesOf_length]
  have hle : s.index.size ≤ s.index.mmapLen := hrep.2.1
  rw [IsMaxed_iff s (by omega), hc, hss, hsize]

theorem Log_Append_step (cd : Codec) (cfg : Config) (l : Log) (A : AbsLog) (r : Record)
    (hcfg : CfgOk cfg) (h : LogInv cfg l A) (hoff : A.base + A.cur.length + 1 < 2 ^ 64) :
    ∃ A1 : AbsLog, ((A.maxed cfg ∧ A1 = A.rotate) ∨ (¬ A.maxed cfg ∧ A1 = A)) ∧
      (cd.Marshal { r with Offset := A.base + A.cur.length } = none →
        (Log.Append cd l r).1 = .error .codec ∧ LogInv cfg (Log.Append cd l r).2 A1) ∧
      (∀ p, cd.Marshal { r with Offset := A.base + A.cur.length } = some p →
        (Log.Append cd l r).1 = .ok (A.base + A.cur.length) ∧
          LogInv cfg (Log.Append cd l r).2 { A1 with cur := A1.cur ++ [p] }) := by
  obtain ⟨init, s, hs, hl, hinit, hseg, hact⟩ := LogInv_active cfg l A h
  obtain ⟨hM12, hM63, hS⟩ := hcfg
  have hmax := SegInv_IsMaxed cfg l.fs s A.old.length A.base A.cur hseg hM63
  have hnext : s.nextOffset = A.base + A.cur.length := hseg.2.1
  rw [Log_Append_eq cd l r s hact]
  by_cases hm : s.IsMaxed = true
  · have hne : A.cur ≠ [] := by
      intro h0
      have := hmax.mp hm
      rw [h0] at this
      simp only [frames, List.length_nil, Nat.zero_mod] at this
      omega
    obtain ⟨l1, hl1, hinv1⟩ := Log_newSegment_inv cfg l A ⟨hM12, hM63, hS⟩ h hne
    simp only [hm, if_true, hnext, hl1]
    have hb1 : A.rotate.base + A.rotate.cur.length = A.base + A.cur.length := by
      simp [AbsLog.rotate]
    have := Log_appendActive_inv cd cfg l1 A.rotate r hinv1 hM63
      (by simp only [AbsLog.rotate, List.length_nil]; omega) (by rw [hb1]; exact hoff)
    rw [hb1] at this
    exact ⟨A.rotate, Or.inl ⟨hmax.mp hm, rfl⟩, this⟩
  · have hnm : ¬ A.maxed cfg := fun hx => hm (hmax.mpr hx)
    have hroom : 12 * A.cur.length + 12 ≤ cfg.MaxIndexBytes := by
      by_contra hc
      exact hnm (Or.inr (by omega))
    have hm' : s.IsMaxed = false := by
      cases hx : s.IsMaxed with
      | false => rfl
      | true => exact absurd hx hm
    simp only [hm', Bool.false_eq_true, if_false]
    exact ⟨A, Or.inr ⟨hnm, rfl⟩, Log_appendActive_inv cd cfg l A r h hM63 hroom hoff⟩

theorem rotate_payloads (A : AbsLog) : payloads A.rotate.all = payloads A.all := by
  have : A.rotate.all = A.all ++ [(A.base + A.cur.length, [])] := rfl
  rw [this, payloads_append]
  simp [payloads]

theorem SizeOk_step (cfg : Config) (A A1 : AbsLog) (p : List Byte)
    (hA1 : (A.maxed cfg ∧ A1 = A.rotate) ∨ (¬ A.maxed cfg ∧ A1 = A))
    (hp : cfg.MaxStoreBytes + 8 + p.length < 2 ^ 63) (h : SizeOk A) :
    SizeOk A1 ∧ SizeOk { A1 with cur := A1.cur ++ [p] } := by
  unfold SizeOk at h ⊢
  have hcur : (frames A.cur).length < 2 ^ 63 := h (A.base, A.cur) (by simp [AbsLog.all])
  rcases hA1 with ⟨_, h1⟩ | ⟨hnm, h1⟩
  · subst h1
    constructor
    · intro x hx
      simp only [AbsLog.rotate, AbsLog.all, List.mem_append, List.mem_singleton] at hx
      rcases hx with (h0 | h0) | h0
      · exact h x (by simp [AbsLog.all, h0])
      · exact h x (by simp [AbsLog.all, h0])
      · subst h0; simp [frames]
    · intro x hx
      simp only [AbsLog.rotate, AbsLog.all, List.mem_append, List.mem_singleton,
        List.nil_append] at hx
      rcases hx with (h0 | h0) | h0
      · exact h x (by simp [AbsLog.all, h0])
      · exact h x (by simp [AbsLog.all, h0])
      · subst h0
        simp only [frames, List.append_nil, frame_length]
        omega
  · rw [h1]
    refine ⟨h, ?_⟩
    intro x hx
    simp only [AbsLog.all, List.mem_append, List.mem_singleton] at hx
    rcases hx with h0 | h0
    · exact h x (by simp [AbsLog.all, h0])
    · subst h0
      have hlt : (frames A.cur).length < cfg.MaxStoreBytes := by
        by_contra hc
        apply hnm
        left
        rw [Nat.mod_eq_of_lt (by omega)]
        omega
      simp only [frames_append, frames, List.append_nil, List.length_append, frame_length]
      omega

theorem chained_payloads (X : List (Nat × List (List Byte))) :
    ∀ s e, chained s X e → e = s + (payloads X).length := by
  induction X with
  | nil => intro s e h; simp only [chained] at h; simp [payloads, h]
  | cons x X ih =>
    intro s e h
    obtain ⟨b, ps⟩ := x
    simp only [chained] at h
    obtain ⟨hb, hr⟩ := h
    subst hb
    have := ih _ _ hr
    simp only [payloads, List.length_append]
    omega

theorem LogInv_next (cfg : Config) (l : Log) (A : AbsLog) (h : LogInv cfg l A) :
    A.base + A.cur.length = cfg.InitialOffset + (payloads A.all).length := by
  have := chained_payloads A.old _ _ h.2.2.2.2.2.2.1
  rw [payloads_all, List.length_append]
  omega

theorem Log_appendAll_refines (cd : Codec) (cfg : Config) (hcfg : CfgOk cfg) (rs : List Record) :
    ∀ (l : Log) (A : AbsLog), LogInv cfg l A →
      cfg.InitialOffset + (payloads A.all).length + rs.length < 2 ^ 64 →
      (Log.appendAll cd l rs).1 = (specAppendAll cd cfg.InitialOffset (payloads A.all) rs).1 ∧
        ∃ A1, LogInv cfg (Log.appendAll cd l rs).2 A1 ∧
          payloads A1.all = (specAppendAll cd cfg.InitialOffset (payloads A.all) rs).2 ∧
          ((∀ r ∈ rs, ∀ o p, cd.Marshal { r with Offset := o } = some p →
              cfg.MaxStoreBytes + 8 + p.length < 2 ^ 63) → SizeOk A → SizeOk A1) := by
  induction rs with
  | nil =>
    intro l A h _
    exact ⟨rfl, A, h, rfl, fun _ hA => hA⟩
  | cons r rs ih =>
    intro l A h hb
    have hnext := LogInv_next cfg l A h
    simp only [List.length_cons] at hb
    obtain ⟨A1, hA1, hnone, hsome⟩ := Log_Append_step cd cfg l A r hcfg h (by omega)
    have hp1 : payloads A1.all = payloads A.all := by
      rcases hA1 with ⟨_, h1⟩ | ⟨_, h1⟩
      · rw [h1, rotate_payloads]
      · rw [h1]
    rw [hnext] at hnone hsome
    unfold Log.appendAll specAppendAll
    cases hm : cd.Marshal { r with Offset := cfg.InitialOffset + (payloads A.all).length } with
    | none =>
      obtain ⟨hres, hinv⟩ := hnone hm
      obtain ⟨g1, A2, g2, g3, g4⟩ := ih _ A1 hinv (by rw [hp1]; omega)
      rw [hp1] at g1 g3
      simp only [hres, g1]
      refine ⟨trivial, A2, g2, g3, ?_⟩
      intro hsz hA
      apply g4 (fun r1 hr1 => hsz r1 (List.mem_cons_of_mem _ hr1))
      rcases hA1 with ⟨_, h1⟩ | ⟨_, h1⟩
      · rw [h1]
        intro x hx
        simp only [AbsLog.rotate, AbsLog.all, List.mem_append, List.mem_singleton] at hx
        rcases hx with (h0 | h0) | h0
        · exact hA x (by simp [AbsLog.all, h0])
        · exact hA x (by simp [AbsLog.all, h0])
        · subst h0; simp [frames]
      · rw [h1]; exact hA
    | some p =>
      obtain ⟨hres, hinv⟩ := hsome p hm
      have hp2 : payloads (AbsLog.all { A1 with cur := A1.cur ++ [p] }) = payloads A.all ++ [p] := by
        rw [payloads_all, ← hp1, payloads_all, List.append_assoc]
      obtain ⟨g1, A2, g2, g3, g4⟩ := ih _ _ hinv
        (by rw [hp2]; simp only [List.length_append, List.length_singleton]; omega)
      rw [hp2] at g1 g3
      simp only [hres, g1]
      refine ⟨trivial, A2, g2, g3, ?_⟩
      intro hsz hA
      apply g4 (fun r1 hr1 => hsz r1 (List.mem_cons_of_mem _ hr1))
      exact (SizeOk_step cfg A A1 p hA1 (hsz r (List.mem_cons_self _ _) _ p hm) hA).2

theorem LogInv_fresh (c : Config) (h63 : c.withDefaults.MaxIndexBytes < 2 ^ 63)
    (hi : c.InitialOffset < 2 ^ 64) :
    LogInv c.withDefaults (freshLog c) { old := [], base := c.InitialOffset, cur := [] } := by
  refine ⟨rfl, rfl, rfl, ?_, rfl, rfl, rfl, ?_, ?_⟩
  · simp only [AbsLog.all, List.nil_append, freshLog, SegsInv, and_true]
    exact SegInv_fresh c.withDefaults FS.empty 0 c.InitialOffset rfl h63
  · intro x hx; simp at hx
  · simpa using hi

theorem segment_Read_inv (cd : Codec) (cfg : Config) (fs : FS) (t : segment) (k b : Nat)
    (ps : List (List Byte)) (j : Nat) (h : SegInv cfg fs t k b ps) (hj : j < ps.length)
    (h32 : cfg.MaxIndexBytes / 12 ≤ 2 ^ 32) (hsz : (frames ps).length < 2 ^ 63) :
    (t.Read cd fs (b + j)).1 =
      match cd.Unmarshal ps[j] with
      | none => .error .codec
      | some rec => .ok rec := by
  obtain ⟨hb, hn, hc, hsf, hsc, hse, hsl, hss, hif, hic, him, hrep⟩ := h
  have hsize : t.index.size = 12 * ps.length := by rw [hrep.1, entriesOf_length]
  have hle : t.index.size ≤ t.index.mmapLen := hrep.2.1
  have hlen32 : ps.length ≤ 2 ^ 32 := by omega
  have hrel : (b + j + 2 ^ 64 - t.baseOffset) % 2 ^ 64 = j := by rw [hb]; omega
  have hje : j < (entriesOf ps).length := by rw [entriesOf_length]; exact hj
  have hsplit := frames_split ps j hj
  have hpos : (frames (ps.take j)).length + (8 + ps[j].length) ≤ (frames ps).length := by
    conv_rhs => rw [hsplit]
    simp only [List.length_append, frame_length]
    omega
  have hget : (entriesOf ps)[j] = (j, (frames (ps.take j)).length) := by
    rw [entriesOf_get]
    congr 1
    · exact Nat.mod_eq_of_lt (by omega)
    · exact Nat.mod_eq_of_lt (by omega)
  have hir : t.index.Read (fs.content (2 * k + 1)) (j : Int) =
      .ok (j, (frames (ps.take j)).length) := by
    rw [← hget]
    apply index_Read_nth _ _ _ j hrep hje (by omega)
    · rw [hget]; simp only; omega
    · rw [hget]; simp only; omega
  have hsr := store_Read_frame t.store (fs.content (2 * k)) ps[j] (frames (ps.take j))
    (frames (ps.drop (j + 1))) (frames (ps.take j)).length hsc hse (hsl.trans hsplit) rfl
    (by omega)
  unfold segment.Read
  simp only [hrel, hif, hsf]
  rw [if_neg (by omega), hir]
  simp only [hsr]
  cases cd.Unmarshal ps[j] <;> rfl

theorem findSegment_chain (cfg : Config) (fs : FS) (segs : List segment) :
    ∀ (k : Nat) (X : List (Nat × List (List Byte))) (s e g : Nat),
      SegsInv cfg fs k segs X → chained s X e → g < (payloads X).length →
      ∃ i t b ps j, Log.findSegment (s + g) segs = some (i, t) ∧ SegInv cfg fs t (k + i) b ps ∧
        (b, ps) ∈ X ∧ b + ps.length ≤ e ∧ s + g = b + j ∧
        ∃ hj : j < ps.length, (payloads X)[g]? = some ps[j] := by
  induction segs with
  | nil =>
    intro k X s e g h _ hg
    cases X with
    | nil => simp [payloads] at hg
    | cons x X => exact absurd h (by simp [SegsInv])
  | cons t segs ih =>
    intro k X s e g h hch hg
    cases X with
    | nil => exact absurd h (by simp [SegsInv])
    | cons x X =>
      obtain ⟨b, ps⟩ := x
      simp only [SegsInv] at h
      simp only [chained] at hch
      obtain ⟨hb, hrest⟩ := hch
      subst hb
      obtain ⟨ht, hsegs⟩ := h
      have hbound := (chained_bound X _ _ hrest).1
      by_cases hlt : g < ps.length
      · refine ⟨0, t, b, ps, g, ?_, ht, List.mem_cons_self _ _, hbound, rfl, hlt, ?_⟩
        · unfold Log.findSegment
          rw [if_pos]
          rw [ht.1, ht.2.1]; omega
        · simp only [payloads]
          rw [List.getElem?_append_left hlt, List.getElem?_eq_getElem hlt]
      · simp only [payloads, List.length_append] at hg
        obtain ⟨i, u, b1, ps1, j, hf, hu, hmem, hle, heq, hj, hp⟩ :=
          ih (k + 1) X (b + ps.length) e (g - ps.length) hsegs hrest (by omega)
        have hsum : b + ps.length + (g - ps.length) = b + g := by omega
        rw [hsum] at hf heq
        refine ⟨i + 1, u, b1, ps1, j, ?_, ?_, List.mem_cons_of_mem _ hmem, hle, heq, hj, ?_⟩
        · unfold Log.findSegment
          rw [if_neg, hf]
          · rfl
          · rw [ht.1, ht.2.1]; omega
        · have : k + (i + 1) = k + 1 + i := by omega
          rw [this]; exact hu
        · simp only [payloads]
          rw [List.getElem?_append_right (by omega)]
          exact hp

theorem Log_Read_inv (cd : Codec) (cfg : Config) (l : Log) (A : AbsLog) (g : Nat)
    (h : LogInv cfg l A) (hg : g < (payloads A.all).length)
    (h32 : cfg.MaxIndexBytes / 12 ≤ 2 ^ 32)
    (hsz : ∀ x ∈ A.all, (frames x.2).length < 2 ^ 63) :
    (Log.Read cd l (cfg.InitialOffset + g)).1 =
      match cd.Unmarshal (payloads A.all)[g] with
      | none => .error .codec
      | some rec => .ok rec := by
  obtain ⟨hc, hp, hact, hsegs, hino, hnames, hch, hold, hlt⟩ := h
  have hchall : chained cfg.InitialOffset A.all (A.base + A.cur.length) :=
    (chained_snoc A.old A.base A.cur _ _).mpr ⟨hch, rfl⟩
  obtain ⟨i, t, b, ps, j, hf, ht, hmem, hle, heq, hj, hpj⟩ :=
    findSegment_chain cfg l.fs l.segments 0 A.all _ _ g hsegs hchall hg
  have hpg : (payloads A.all)[g] = ps[j] := by
    rw [List.getElem?_eq_getElem hg] at hpj
    exact Option.some.inj hpj
  unfold Log.Read
  rw [hf]
  simp only
  rw [if_neg (by rw [ht.2.1]; omega), heq, hpg]
  exact segment_Read_inv cd cfg l.fs t _ b ps j ht hj h32 (hsz _ hmem)

/-! ## A log whose index holds no entry -/

theorem index_Write_small (i : index) (c : List Byte) (off pos : Nat) (h : i.mmapLen < 12) :
    ∃ e, i.Write c off pos = (.error e, i, c) := by
  unfold index.Write
  have hw : endWidth = 12 := rfl
  split
  · exact ⟨_, rfl⟩
  · rw [if_pos (Or.inl (by rw [hw]; omega))]
    exact ⟨_, rfl⟩

theorem segment_Append_small (cd : Codec) (s : segment) (fs : FS) (r : Record)
    (h : s.index.mmapLen < 12) :
    (∃ e, (s.Append cd fs r).1 = .error e) ∧ (s.Append cd fs r).2.1.index.mmapLen < 12 := by
  unfold segment.Append
  simp only []
  split
  · exact ⟨⟨_, rfl⟩, h⟩
  · split
    · exact ⟨⟨_, rfl⟩, h⟩
    · rename_i n pos st c hsa
      obtain ⟨e, he⟩ := index_Write_small s.index
        ((fs.put s.store.File c).content s.index.file)
        (((s.nextOffset + 2 ^ 64 - s.baseOffset) % 2 ^ 64) % 2 ^ 32) pos h
      simp only [he]
      exact ⟨⟨_, rfl⟩, h⟩

theorem newSegment_mmapLen (fs fs1 : FS) (b : Nat) (cfg : Config) (s : segment)
    (h : newSegment fs b cfg = (.ok s, fs1)) : s.index.mmapLen = cfg.MaxIndexBytes := by
  unfold newSegment at h
  split at h
  · simp at h
  · split at h
    · simp at h
    · split at h
      · simp at h
      · rename_i ix ci hn
        have hix : ix.mmapLen = cfg.MaxIndexBytes := by
          unfold newIndex at hn
          split at hn
          · simp at hn
          · simp only at hn
            split at hn
            · simp at hn
            · simp only [Prod.mk.injEq, Except.ok.injEq] at hn
              rw [← hn.1]
        split at h
        · simp at h
        · simp only [Prod.mk.injEq, Except.ok.injEq] at h
          rw [← h.1]; exact hix
        · simp only [Prod.mk.injEq, Except.ok.injEq] at h
          rw [← h.1]; exact hix

theorem setActive_active (l : Log) (a a2 : segment) (h : l.active = some a) :
    (l.setActive a2).active = some a2 := by
  unfold Log.active at h
  unfold Log.setActive Log.active
  cases hact : l.activeSegment with
  | nil => rw [hact] at h; simp at h
  | detached d => simp
  | inList i =>
    rw [hact] at h
    simp only at h
    have hi : i < l.segments.length := by
      rcases Nat.lt_or_ge i l.segments.length with h1 | h1
      · exact h1
      · rw [List.getElem?_eq_none h1] at h; cases h
    simp [List.getElem?_set, hi]

theorem Log_appendActive_small (cd : Codec) (l : Log) (r : Record) (h : SmallIndex l) :
    (∃ e, (Log.appendActive cd l r).1 = .error e) ∧ SmallIndex (Log.appendActive cd l r).2 := by
  unfold Log.appendActive
  cases ha : l.active with
  | none => exact ⟨⟨_, rfl⟩, h⟩
  | some a =>
    simp only
    obtain ⟨he, hm⟩ := segment_Append_small cd a l.fs r (h.2 a ha)
    refine ⟨he, ?_, ?_⟩
    · cases hx : l.activeSegment <;> simp [Log.setActive, hx, h.1]
    · intro a3 ha3
      have hact : Log.active { l with fs := (a.Append cd l.fs r).2.2 } = some a := ha
      rw [setActive_active _ a _ hact] at ha3
      rw [← Option.some.inj ha3]
      exact hm

theorem Log_Append_small (cd : Codec) (l : Log) (r : Record) (h : SmallIndex l) :
    (∃ e, (Log.Append cd l r).1 = .error e) ∧ SmallIndex (Log.Append cd l r).2 := by
  cases ha : l.active with
  | none =>
    unfold Log.Append
    rw [ha]
    exact ⟨⟨_, rfl⟩, h⟩
  | some a =>
    rw [Log_Append_eq cd l r a ha]
    by_cases hm : a.IsMaxed = true
    · simp only [hm, if_true, Log.newSegment]
      cases hn : newSegment l.fs a.nextOffset l.Config with
      | mk res fs1 =>
        cases res with
        | error e =>
          simp only
          refine ⟨⟨_, rfl⟩, h.1, ?_⟩
          intro a3 ha3
          exact h.2 a3 ha3
        | ok s =>
          simp only
          apply Log_appendActive_small
          refine ⟨h.1, ?_⟩
          intro a3 ha3
          simp only [Log.active, List.getElem?_concat_length, Option.some.injEq] at ha3
          rw [← ha3, newSegment_mmapLen _ _ _ _ _ hn]
          exact h.1
    · have hm' : a.IsMaxed = false := by
        cases hx : a.IsMaxed with
        | false => rfl
        | true => exact absurd hx hm
      simp only [hm', Bool.false_eq_true, if_false]
      exact Log_appendActive_small cd l r h

theorem Log_appendAll_small (cd : Codec) (rs : List Record) :
    ∀ l, SmallIndex l → okValues (Log.appendAll cd l rs).1 = [] ∧
      ∀ (i o : Nat), (Log.appendAll cd l rs).1[i]? ≠ some (Except.ok o) := by
  induction rs with
  | nil =>
    intro l _
    exact ⟨rfl, fun i o => by simp [Log.appendAll]⟩
  | cons r rs ih =>
    intro l h
    obtain ⟨⟨e, he⟩, h1⟩ := Log_Append_small cd l r h
    obtain ⟨g1, g2⟩ := ih _ h1
    unfold Log.appendAll
    simp only [he]
    refine ⟨by simpa [okValues] using g1, ?_⟩
    intro i o
    cases i with
    | zero => simp
    | succ i => simpa using g2 i o

theorem freshLog_small (c : Config) (h : c.withDefaults.MaxIndexBytes < 12) :
    SmallIndex (freshLog c) := by
  refine ⟨h, ?_⟩
  intro a ha
  simp only [freshLog, Log.active, List.getElem?_cons_zero, Option.some.injEq] at ha
  rw [← ha]
  exact h

/-! ## The specification of a run of appends -/

theorem spec_okValues (cd : Codec) (init : Nat) (rs : List Record) :
    ∀ recs, okValues (specAppendAll cd init recs rs).1 =
      List.range' (init + recs.length) (okValues (specAppendAll cd init recs rs).1).length := by
  induction rs with
  | nil => intro recs; simp [specAppendAll, okValues]
  | cons r rs ih =>
    intro recs
    unfold specAppendAll
    cases hm : cd.Marshal { r with Offset := init + recs.length } with
    | none =>
      simp only [okValues]
      exact ih recs
    | some p =>
      simp only [okValues, List.length_cons, List.range'_succ]
      have := ih (recs ++ [p])
      simp only [List.length_append, List.length_singleton, ← Nat.add_assoc] at this
      rw [← this]

theorem spec_all_ok (cd : Codec) (init : Nat) (rs : List Record) :
    ∀ recs, (∀ r ∈ rs, ∀ o, cd.Marshal { r with Offset := o } ≠ none) →
      (specAppendAll cd init recs rs).1 =
        (List.range' (init + recs.length) rs.length).map Except.ok := by
  induction rs with
  | nil => intro recs _; simp [specAppendAll]
  | cons r rs ih =>
    intro recs h
    unfold specAppendAll
    cases hm : cd.Marshal { r with Offset := init + recs.length } with
    | none => exact absurd hm (h r (List.mem_cons_self _ _) _)
    | some p =>
      have := ih (recs ++ [p]) (fun r1 hr1 => h r1 (List.mem_cons_of_mem _ hr1))
      simp only [List.length_append, List.length_singleton, ← Nat.add_assoc] at this
      simp only [this, List.length_cons, List.range'_succ, List.map_cons]

theorem spec_get (cd : Codec) (init : Nat) (rs : List Record) :
    ∀ recs, (∃ more, (specAppendAll cd init recs rs).2 = recs ++ more) ∧
      ∀ (i o : Nat), (specAppendAll cd init recs rs).1[i]? = some (Except.ok o) →
        ∃ p, (∃ hi : i < rs.length, cd.Marshal { rs[i] with Offset := o } = some p) ∧
          init ≤ o ∧ (specAppendAll cd init recs rs).2[o - init]? = some p := by
  induction rs with
  | nil =>
    intro recs
    exact ⟨⟨[], by simp [specAppendAll]⟩, fun i o h => by simp [specAppendAll] at h⟩
  | cons r rs ih =>
    intro recs
    unfold specAppendAll
    cases hm : cd.Marshal { r with Offset := init + recs.length } with
    | none =>
      obtain ⟨g1, g2⟩ := ih recs
      refine ⟨g1, ?_⟩
      intro i o h
      cases i with
      | zero => simp at h
      | succ i =>
        simp only [List.getElem?_cons_succ] at h
        obtain ⟨p, ⟨hi, hp⟩, h1, h2⟩ := g2 i o h
        exact ⟨p, ⟨by simpa using hi, by simpa using hp⟩, h1, h2⟩
    | some p =>
      obtain ⟨⟨more, g1⟩, g2⟩ := ih (recs ++ [p])
      refine ⟨⟨[p] ++ more, by simp only [g1, List.append_assoc]⟩, ?_⟩
      intro i o h
      cases i with
      | zero =>
        simp only [List.getElem?_cons_zero, Option.some.injEq, Except.ok.injEq] at h
        subst h
        refine ⟨p, ⟨by simp, by simpa using hm⟩, by omega, ?_⟩
        simp only [g1, List.append_assoc]
        have : init + recs.length - init = recs.length := by omega
        rw [this, List.getElem?_append_right (Nat.le_refl _)]
        simp
      | succ i =>
        simp only [List.getElem?_cons_succ] at h
        obtain ⟨q, ⟨hi, hp⟩, h1, h2⟩ := g2 i o h
        exact ⟨q, ⟨by simpa using hi, by simpa using hp⟩, h1, h2⟩

/-! ## Claims on appending and reading back -/

theorem fixedCodec_roundtrip (r : Record) (p : List Byte) (ho : r.Offset < 2 ^ 64)
    (h : fixedCodec.Marshal r = some p) : fixedCodec.Unmarshal p = some r := by
  simp only [fixedCodec, Option.some.injEq] at h
  subst h
  simp only [fixedCodec, List.length_append, putUint_length]
  rw [if_neg (by omega)]
  have h1 : (putUint 8 r.Offset ++ r.Value).drop 8 = r.Value := by
    have := List.drop_left (putUint 8 r.Offset) r.Value
    rwa [putUint_length] at this
  have h2 : (putUint 8 r.Offset ++ r.Value).take 8 = putUint 8 r.Offset := by
    have := List.take_left (putUint 8 r.Offset) r.Value
    rwa [putUint_length] at this
  rw [h1, h2, getUint_putUint8 _ ho]

theorem fresh_refines (cd : Codec) (c : Config) (rs : List Record)
    (h12 : 12 ≤ c.withDefaults.MaxIndexBytes) (h63 : c.withDefaults.MaxIndexBytes < 2 ^ 63)
    (hoff : c.InitialOffset + rs.length < 2 ^ 64) :
    (Log.appendAll cd (freshLog c) rs).1 = (specAppendAll cd c.InitialOffset [] rs).1 ∧
      ∃ A1, LogInv c.withDefaults (Log.appendAll cd (freshLog c) rs).2 A1 ∧
        payloads A1.all = (specAppendAll cd c.InitialOffset [] rs).2 ∧
        ((∀ r ∈ rs, ∀ o p, cd.Marshal { r with Offset := o } = some p →
            c.withDefaults.MaxStoreBytes + 8 + p.length < 2 ^ 63) → SizeOk A1) := by
  have hcfg : CfgOk c.withDefaults := ⟨h12, h63, withDefaults_store_pos c⟩
  have hinv := LogInv_fresh c h63 (by omega)
  have hpay : payloads (AbsLog.all { old := [], base := c.InitialOffset, cur := [] }) = [] := rfl
  have := Log_appendAll_refines cd c.withDefaults hcfg rs (freshLog c) _ hinv
    (by rw [hpay]; simpa using hoff)
  rw [hpay] at this
  obtain ⟨g1, A1, g2, g3, g4⟩ := this
  refine ⟨g1, A1, g2, g3, fun hsz => g4 hsz ?_⟩
  intro x hx
  simp only [AbsLog.all, List.nil_append, List.mem_singleton] at hx
  subst hx
  simp [frames]

/-- C2, counterexample. `MaxIndexBytes = 5`, `InitialOffset = 0`, empty directory:
`NewLog` succeeds and the two `Append` calls fail with `io.EOF`, since no index
entry fits in 5 bytes; the second call does not return the offset 1. -/
theorem Log_Append_fails_small_index :
    (NewLog FS.empty ⟨0, 5, 0⟩).1 = .ok () ∧
      (Log.appendAll fixedCodec (NewLog FS.empty ⟨0, 5, 0⟩).2
        [⟨helloWorld, 0⟩, ⟨helloWorld, 0⟩]).1 = [.error .eof, .error .eof] := by
  decide

/-- C2, amended. For a log made in an empty directory with `InitialOffset` 0 and any
segment size limits, the offsets given by the `Log.Append` calls that succeed are
exactly `0, 1, 2, ...` in call order, whatever the number of rotations; and when
`MaxIndexBytes` is 0 or at least 12 and the encoder accepts every record, every
call succeeds, so that the `k`-th call returns `k - 1`.  (Fewer than `2 ^ 64`
calls.) -/
theorem Log_Append_offsets (cd : Codec) (c : Config) (rs : List Record) (l0 : Log)
    (hinit : c.InitialOffset = 0) (hnew : NewLog FS.empty c = (.ok (), l0))
    (hn : rs.length < 2 ^ 64) :
    okValues (Log.appendAll cd l0 rs).1 =
        List.range (okValues (Log.appendAll cd l0 rs).1).length ∧
      ((c.MaxIndexBytes = 0 ∨ 12 ≤ c.MaxIndexBytes) →
        (∀ r ∈ rs, ∀ o, cd.Marshal { r with Offset := o } ≠ none) →
        (Log.appendAll cd l0 rs).1 = (List.range rs.length).map Except.ok) := by
  obtain ⟨hl0, h63⟩ := NewLog_empty_ok c l0 hnew
  subst hl0
  by_cases h12 : 12 ≤ c.withDefaults.MaxIndexBytes
  · obtain ⟨g1, _⟩ := fresh_refines cd c rs h12 h63 (by omega)
    rw [g1, hinit]
    constructor
    · have := spec_okValues cd 0 rs []
      simpa [List.range_eq_range'] using this
    · intro _ hm
      have := spec_all_ok cd 0 rs [] hm
      simpa [List.range_eq_range'] using this
  · have hs := (Log_appendAll_small cd rs (freshLog c) (freshLog_small c (by omega))).1
    rw [hs]
    refine ⟨rfl, ?_⟩
    intro hM
    exfalso
    apply h12
    unfold Config.withDefaults
    rcases hM with h0 | h0
    · simp [h0]
    · have : c.MaxIndexBytes ≠ 0 := by omega
      simp [this, h0]

/-- Witness of C2: five records with `MaxStoreBytes = 32`, three segments, offsets
`0..4`. -/
theorem Log_Append_offsets_witness :
    (Log.appendAll fixedCodec (NewLog FS.empty ⟨32, 36, 0⟩).2
      (List.replicate 5 ⟨helloWorld, 0⟩)).1 = (List.range 5).map Except.ok :=
  (Log_Append_offsets fixedCodec ⟨32, 36, 0⟩ (List.replicate 5 ⟨helloWorld, 0⟩)
    (NewLog FS.empty ⟨32, 36, 0⟩).2 rfl (by decide) (by decide)).2 (by decide)
    (fun _ _ _ h => by simp [fixedCodec] at h)

/-- C1, counterexample. `InitialOffset = 2 ^ 64 - 1`, default size limits: `NewLog`
succeeds, the first `Append` returns the offset `2 ^ 64 - 1`, and `Read` of that
offset fails with the out-of-range error, because `nextOffset` wrapped to 0. -/
theorem Log_Read_fails_after_wrap :
    (NewLog FS.empty ⟨0, 0, 2 ^ 64 - 1⟩).1 = .ok () ∧
      (Log.Append fixedCodec (NewLog FS.empty ⟨0, 0, 2 ^ 64 - 1⟩).2 ⟨helloWorld, 0⟩).1 =
        .ok (2 ^ 64 - 1) ∧
      (Log.Read fixedCodec
        (Log.Append fixedCodec (NewLog FS.empty ⟨0, 0, 2 ^ 64 - 1⟩).2 ⟨helloWorld, 0⟩).2
        (2 ^ 64 - 1)).1 = .error (.offsetOutOfRange (2 ^ 64 - 1)) := by
  decide

theorem SegsInv_storeContents (cfg : Config) (fs : FS) (segs : List segment) :
    ∀ (k : Nat) (X : List (Nat × List (List Byte))), SegsInv cfg fs k segs X →
      segs.map (fun s => s.store.logical (fs.content s.store.File)) =
        X.map (fun x => frames x.2) := by
  induction segs with
  | nil =>
    intro k X h
    cases X with
    | nil => rfl
    | cons x X => exact absurd h (by simp [SegsInv])
  | cons s segs ih =>
    intro k X h
    cases X with
    | nil => exact absurd h (by simp [SegsInv])
    | cons x X =>
      obtain ⟨b, ps⟩ := x
      simp only [SegsInv] at h
      obtain ⟨hs, hrest⟩ := h
      simp only [List.map_cons, ih (k + 1) X hrest]
      rw [hs.2.2.2.1, hs.2.2.2.2.2.2.1]

theorem LogInv_SizeOk (cfg : Config) (l : Log) (A : AbsLog) (h : LogInv cfg l A)
    (hfile : ∀ x ∈ l.storeContents, x.length < 2 ^ 63) : SizeOk A := by
  have hc := SegsInv_storeContents cfg l.fs l.segments 0 A.all h.2.2.2.1
  intro x hx
  apply hfile
  unfold Log.storeContents
  rw [hc]
  exact List.mem_map_of_mem _ hx

/-- C1, amended. For every configuration and every finite sequence of records
appended with `Log.Append` to a log made in an empty directory, such that the
offsets stay below `2 ^ 64` (`InitialOffset` plus the number of records), an
index holds at most `2 ^ 32` entries (`MaxIndexBytes / 12`) and every store file
stays below `2 ^ 63` bytes: for every offset `o` returned by one of the appends,
`Log.Read(o)` on the final log succeeds and returns the record that was
appended, with its offset field equal to `o`, whatever appends and rotations
came after.  The encoder is any one that decodes what it encoded. -/
theorem Log_Read_Append (cd : Codec) (c : Config) (rs : List Record) (l0 : Log) (i o : Nat)
    (hnew : NewLog FS.empty c = (.ok (), l0))
    (hoff : c.InitialOffset + rs.length < 2 ^ 64)
    (h32 : c.withDefaults.MaxIndexBytes / 12 ≤ 2 ^ 32)
    (hfile : ∀ x ∈ (Log.appendAll cd l0 rs).2.storeContents, x.length < 2 ^ 63)
    (hrt : ∀ r p, r.Offset < 2 ^ 64 → cd.Marshal r = some p → cd.Unmarshal p = some r)
    (hi : i < rs.length) (hres : (Log.appendAll cd l0 rs).1[i]? = some (.ok o)) :
    (Log.Read cd (Log.appendAll cd l0 rs).2 o).1 = .ok { Value := rs[i].Value, Offset := o } := by
  obtain ⟨hl0, h63⟩ := NewLog_empty_ok c l0 hnew
  subst hl0
  by_cases h12 : 12 ≤ c.withDefaults.MaxIndexBytes
  · obtain ⟨g1, A1, hinv, hpay, _⟩ := fresh_refines cd c rs h12 h63 hoff
    rw [g1] at hres
    obtain ⟨p, ⟨_, hp⟩, hle, hget⟩ := (spec_get cd c.InitialOffset rs []).2 i o hres
    rw [← hpay] at hget
    have hg : o - c.InitialOffset < (payloads A1.all).length := by
      rcases Nat.lt_or_ge (o - c.InitialOffset) (payloads A1.all).length with h1 | h1
      · exact h1
      · rw [List.getElem?_eq_none h1] at hget; cases hget
    have hnext := LogInv_next _ _ A1 hinv
    have hlt := hinv.2.2.2.2.2.2.2.2
    have hio : c.withDefaults.InitialOffset = c.InitialOffset := rfl
    rw [hio] at hnext
    have ho : o < 2 ^ 64 := by omega
    have hread := Log_Read_inv cd c.withDefaults _ A1 (o - c.InitialOffset) hinv hg h32
      (LogInv_SizeOk _ _ A1 hinv hfile)
    rw [hio] at hread
    have hsum : c.InitialOffset + (o - c.InitialOffset) = o := by omega
    rw [hsum] at hread
    rw [hread]
    rw [List.getElem?_eq_getElem hg] at hget
    rw [Option.some.inj hget, hrt _ p ho hp]
  · exfalso
    exact (Log_appendAll_small cd rs (freshLog c) (freshLog_small c (by omega))).2 i o hres

/-- Witness of C1: five records in three segments; the record of offset 3, in the
second segment, is read back from the final log. -/
theorem Log_Read_Append_witness :
    (Log.Read fixedCodec (Log.appendAll fixedCodec (NewLog FS.empty ⟨32, 36, 0⟩).2
      (List.replicate 5 ⟨helloWorld, 0⟩)).2 3).1 = .ok ⟨helloWorld, 3⟩ :=
  Log_Read_Append fixedCodec ⟨32, 36, 0⟩ (List.replicate 5 ⟨helloWorld, 0⟩)
    (NewLog FS.empty ⟨32, 36, 0⟩).2 3 3 (by decide) (by decide) (by decide) (by decide)
    fixedCodec_roundtrip (by decide) (by decide)

/-! ## Closing and reopening -/

theorem SegsInv_frame_range (cfg : Config) (fs fs1 : FS) (segs : List segment) :
    ∀ (k : Nat) (X : List (Nat × List (List Byte))),
      (∀ j, 2 * k ≤ j → j < 2 * (k + segs.length) → fs1.content j = fs.content j) →
      SegsInv cfg fs k segs X → SegsInv cfg fs1 k segs X := by
  induction segs with
  | nil =>
    intro k X _ h
    cases X with
    | nil => trivial
    | cons x X => exact h
  | cons s segs ih =>
    intro k X hfs h
    cases X with
    | nil => exact h
    | cons x X =>
      obtain ⟨b, ps⟩ := x
      simp only [SegsInv, List.length_cons] at h hfs ⊢
      refine ⟨SegInv_frame cfg fs fs1 s k b ps (hfs _ (by omega) (by omega))
        (hfs _ (by omega) (by omega)) h.1, ?_⟩
      exact ih (k + 1) X (fun j h1 h2 => hfs j (by omega) (by omega)) h.2

theorem FilesRep_frame (fs fs1 : FS) (X : List (Nat × List (List Byte))) :
    ∀ k, (∀ j, 2 * k ≤ j → j < 2 * (k + X.length) → fs1.content j = fs.content j) →
      FilesRep fs k X → FilesRep fs1 k X := by
  induction X with
  | nil => intro k _ _; trivial
  | cons x X ih =>
    intro k hfs h
    obtain ⟨b, ps⟩ := x
    simp only [FilesRep, List.length_cons] at h hfs ⊢
    rw [hfs _ (by omega) (by omega), hfs _ (by omega) (by omega)]
    exact ⟨h.1, h.2.1, ih (k + 1) (fun j h1 h2 => hfs j (by omega) (by omega)) h.2.2⟩

theorem resize_entries (es : List (Nat × Nat)) (rest : List Byte) :
    resize (entries es ++ rest) (entries es).length = entries es := by
  simp [resize]

theorem segment_Close_inv (cfg : Config) (fs : FS) (s : segment) (k b : Nat)
    (ps : List (List Byte)) (h : SegInv cfg fs s k b ps) (hk : 2 * k + 1 < fs.inodes.length)
    (h63 : cfg.MaxIndexBytes < 2 ^ 63) :
    ∃ s1 fs1, s.Close fs = (.ok (), s1, fs1) ∧ fs1.content (2 * k) = frames ps ∧
      fs1.content (2 * k + 1) = entries (entriesOf ps) ∧ fs1.present = fs.present ∧
      fs1.names = fs.names ∧ fs1.inodes.length = fs.inodes.length ∧
      ∀ j, j ≠ 2 * k → j ≠ 2 * k + 1 → fs1.content j = fs.content j := by
  obtain ⟨hb, hn, hc, hsf, hsc, hse, hsl, hss, hif, hic, him, hrep⟩ := h
  obtain ⟨hsize, hle, hlen, _, rest, hcont⟩ := hrep
  have hic' : index.Close s.index (fs.content (2 * k + 1)) =
      (.ok (), { s.index with closed := true }, entries (entriesOf ps)) := by
    unfold index.Close
    rw [hic]
    simp only [Bool.false_eq_true, if_false]
    rw [if_neg (by omega), hcont, hsize, ← entries_length, resize_entries]
  have hc0 : (fs.put (2 * k + 1) (entries (entriesOf ps))).content (2 * k) = fs.content (2 * k) :=
    FS_put_content_ne fs _ _ _ (by omega)
  have hsc' : store.Close s.store (fs.content (2 * k)) =
      (.ok (), { s.store with buf := { buf := [], err := false }, closed := true },
        frames ps) := by
    unfold store.Close
    rw [hsc, Writer_Flush_open _ _ hse]
    simp only [Bool.false_eq_true, if_false]
    rw [← hsl]; rfl
  have hcl : ∃ s1, s.Close fs = (.ok (), s1,
      (fs.put (2 * k + 1) (entries (entriesOf ps))).put (2 * k) (frames ps)) := by
    unfold segment.Close
    simp only [hif, hsf, hic', hc0, hsc']
    exact ⟨_, rfl⟩
  obtain ⟨s1, hcl⟩ := hcl
  refine ⟨s1, _, hcl, ?_, ?_, rfl, rfl, by simp [FS.put], ?_⟩
  · exact FS_put_content_same _ _ _ (by rw [FS_put_length]; omega)
  · rw [FS_put_content_ne _ _ _ _ (by omega)]
    exact FS_put_content_same _ _ _ hk
  · intro j h0 h1
    rw [FS_put_content_ne _ _ _ _ h0, FS_put_content_ne _ _ _ _ h1]

theorem closeLoop_inv (cfg : Config) (h63 : cfg.MaxIndexBytes < 2 ^ 63) (segs : List segment) :
    ∀ (fs : FS) (k : Nat) (X : List (Nat × List (List Byte))), SegsInv cfg fs k segs X →
      2 * (k + segs.length) ≤ fs.inodes.length →
      ∃ fs1 segs1, Log.closeLoop fs segs = (.ok (), fs1, segs1) ∧ FilesRep fs1 k X ∧
        fs1.present = fs.present ∧ fs1.names = fs.names ∧
        fs1.inodes.length = fs.inodes.length ∧
        ∀ j, j < 2 * k → fs1.content j = fs.content j := by
  induction segs with
  | nil =>
    intro fs k X h _
    cases X with
    | nil => exact ⟨fs, [], rfl, trivial, rfl, rfl, rfl, fun _ _ => rfl⟩
    | cons x X => exact absurd h (by simp [SegsInv])
  | cons s segs ih =>
    intro fs k X h hlen
    cases X with
    | nil => exact absurd h (by simp [SegsInv])
    | cons x X =>
      obtain ⟨b, ps⟩ := x
      simp only [SegsInv] at h
      simp only [List.length_cons] at hlen
      obtain ⟨s1, fs1, hcl, hc0, hc1, hp1, hn1, hl1, hfr1⟩ :=
        segment_Close_inv cfg fs s k b ps h.1 (by omega) h63
      have hrest : SegsInv cfg fs1 (k + 1) segs X :=
        SegsInv_frame_range cfg fs fs1 segs (k + 1) X
          (fun j h1 h2 => hfr1 j (by omega) (by omega)) h.2
      obtain ⟨fs2, segs2, hcl2, hrep2, hp2, hn2, hl2, hfr2⟩ :=
        ih fs1 (k + 1) X hrest (by rw [hl1]; omega)
      refine ⟨fs2, s1 :: segs2, ?_, ?_, hp2.trans hp1, hn2.trans hn1, hl2.trans hl1, ?_⟩
      · simp only [Log.closeLoop, hcl, hcl2]
      · simp only [FilesRep]
        rw [hfr2 _ (by omega), hfr2 _ (by omega)]
        exact ⟨hc0, hc1, hrep2⟩
      · intro j hj
        rw [hfr2 j (by omega), hfr1 j (by omega) (by omega)]

theorem find_namesFrom (pre : List (Nat × List (List Byte))) (b : Nat) (ps : List (List Byte))
    (post : List (Nat × List (List Byte))) :
    ∀ k, (∀ x ∈ pre, x.1 ≠ b) →
      (namesFrom k (pre ++ (b, ps) :: post)).find? (fun e => decide (e.1 = ⟨b, .store⟩)) =
          some (⟨b, .store⟩, 2 * (k + pre.length)) ∧
        (namesFrom k (pre ++ (b, ps) :: post)).find? (fun e => decide (e.1 = ⟨b, .index⟩)) =
          some (⟨b, .index⟩, 2 * (k + pre.length) + 1) := by
  induction pre with
  | nil =>
    intro k _
    simp [namesFrom]
  | cons x pre ih =>
    intro k h
    obtain ⟨b1, ps1⟩ := x
    have hb : b1 ≠ b := h (b1, ps1) (List.mem_cons_self _ _)
    obtain ⟨g1, g2⟩ := ih (k + 1) (fun x hx => h x (List.mem_cons_of_mem _ hx))
    have hk : k + 1 + pre.length = k + (pre.length + 1) := by omega
    rw [hk] at g1 g2
    simp only [List.cons_append, namesFrom, List.find?_cons, List.length_cons, List.append_eq]
    simp only [FileName.mk.injEq, hb, false_and, decide_False, reduceCtorEq, and_false]
    exact ⟨g1, g2⟩

theorem names_bases2 (X : List (Nat × List (List Byte))) :
    ∀ k, (namesFrom k X).map (fun e => e.1.base) = bases2 X := by
  induction X with
  | nil => intro k; rfl
  | cons x X ih =>
    intro k
    obtain ⟨b, ps⟩ := x
    simp only [namesFrom, List.map_cons, bases2, ih (k + 1)]

theorem bases2_sorted (X : List (Nat × List (List Byte))) :
    ∀ s e, chained s X e → List.Sorted (fun a b => a ≤ b) (bases2 X) ∧ ∀ y ∈ bases2 X, s ≤ y := by
  induction X with
  | nil => intro s e _; exact ⟨List.sorted_nil, fun y hy => by simp [bases2] at hy⟩
  | cons x X ih =>
    intro s e h
    obtain ⟨b, ps⟩ := x
    simp only [chained] at h
    obtain ⟨hb, hr⟩ := h
    subst hb
    obtain ⟨g1, g2⟩ := ih _ _ hr
    simp only [bases2, List.sorted_cons, List.mem_cons, forall_eq_or_imp, le_refl, true_and]
    refine ⟨⟨fun y hy => ?_, fun y hy => ?_, g1⟩, fun y hy => ?_⟩
    · have := g2 y hy; omega
    · have := g2 y hy; omega
    · have := g2 y hy; omega

theorem chained_pairwise (old : List (Nat × List (List Byte))) (base : Nat)
    (cur : List (List Byte)) :
    ∀ s e, chained s (old ++ [(base, cur)]) e → (∀ x ∈ old, x.2 ≠ []) →
      List.Pairwise (fun x y => x.1 ≠ y.1) (old ++ [(base, cur)]) := by
  induction old with
  | nil => intro s e _ _; simp
  | cons x old ih =>
    intro s e h hne
    obtain ⟨b, ps⟩ := x
    simp only [List.cons_append, chained, List.append_eq] at h
    obtain ⟨hb, hr⟩ := h
    have hps : 0 < ps.length := List.length_pos.mpr (hne (b, ps) (List.mem_cons_self _ _))
    simp only [List.cons_append, List.pairwise_cons]
    refine ⟨?_, ih _ _ hr (fun x hx => hne x (List.mem_cons_of_mem _ hx))⟩
    intro y hy
    have := ((chained_bound _ _ _ hr).2 y hy).1
    omega

theorem SegsInv_mem (cfg : Config) (fs : FS) (segs : List segment) :
    ∀ (k : Nat) (X : List (Nat × List (List Byte))), SegsInv cfg fs k segs X →
      ∀ x ∈ X, ∃ s i, SegInv cfg fs s i x.1 x.2 := by
  induction segs with
  | nil =>
    intro k X h x hx
    cases X with
    | nil => simp at hx
    | cons y X => exact absurd h (by simp [SegsInv])
  | cons s segs ih =>
    intro k X h x hx
    cases X with
    | nil => simp at hx
    | cons y X =>
      obtain ⟨b, ps⟩ := y
      simp only [SegsInv] at h
      rcases List.mem_cons.mp hx with h0 | h0
      · subst h0; exact ⟨s, k, h.1⟩
      · exact ih (k + 1) X h.2 x h0

theorem LogInv_bounds (cfg : Config) (l : Log) (A : AbsLog) (h : LogInv cfg l A) :
    ∀ x ∈ A.all, 12 * x.2.length ≤ cfg.MaxIndexBytes ∧ x.1 + x.2.length < 2 ^ 64 := by
  intro x hx
  obtain ⟨hc, hp, hact, hsegs, hino, hnames, hch, hold, hlt⟩ := h
  obtain ⟨s, i, hs⟩ := SegsInv_mem cfg l.fs l.segments 0 A.all hsegs x hx
  obtain ⟨_, _, _, _, _, _, _, _, _, _, him, hrep⟩ := hs
  have hsize : s.index.size = 12 * x.2.length := by rw [hrep.1, entriesOf_length]
  have hle : s.index.size ≤ s.index.mmapLen := hrep.2.1
  have hchall : chained cfg.InitialOffset A.all (A.base + A.cur.length) :=
    (chained_snoc A.old A.base A.cur _ _).mpr ⟨hch, rfl⟩
  have := ((chained_bound _ _ _ hchall).2 x hx).2
  exact ⟨by omega, by omega⟩

theorem index_Read_last_entriesOf (i : index) (c : List Byte) (ps : List (List Byte))
    (h : IdxRep i c (entriesOf ps)) (hne : ps ≠ []) (h32 : ps.length ≤ 2 ^ 32) :
    ∃ pos, i.Read c (-1) = .ok (ps.length - 1, pos) := by
  have hpos : 0 < ps.length := List.length_pos.mpr hne
  have hlen := entriesOf_length ps
  have hk : (entriesOf ps).length - 1 < (entriesOf ps).length := by omega
  have hget := entriesOf_get ps ((entriesOf ps).length - 1) hk
  have h1 : (entriesOf ps)[(entriesOf ps).length - 1].1 < 2 ^ 32 := by
    rw [hget]; exact Nat.mod_lt _ (by norm_num)
  have h2 : (entriesOf ps)[(entriesOf ps).length - 1].2 < 2 ^ 64 := by
    rw [hget]; exact Nat.mod_lt _ (by norm_num)
  have := index_Read_last i c (entriesOf ps) h hk (by omega) h1 h2
  rw [this, hget]
  refine ⟨(frames (List.take ((entriesOf ps).length - 1) ps)).length % 2 ^ 64, ?_⟩
  have : ((entriesOf ps).length - 1) % 2 ^ 32 = ps.length - 1 := by
    rw [hlen]
    exact Nat.mod_eq_of_lt (by omega)
  rw [this]

theorem newSegment_existing (cfg : Config) (fs : FS) (k b : Nat) (ps : List (List Byte))
    (hp : fs.present = true)
    (hl1 : fs.lookup ⟨b, .store⟩ = some (2 * k)) (hl2 : fs.lookup ⟨b, .index⟩ = some (2 * k + 1))
    (hc1 : fs.content (2 * k) = frames ps) (hc2 : fs.content (2 * k + 1) = entries (entriesOf ps))
    (hk : 2 * k + 1 < fs.inodes.length)
    (h0 : cfg.MaxIndexBytes ≠ 0) (h63 : cfg.MaxIndexBytes < 2 ^ 63)
    (hcap : 12 * ps.length ≤ cfg.MaxIndexBytes) (h32 : ps.length ≤ 2 ^ 32)
    (hsz : (frames ps).length < 2 ^ 64) (hoff : b + ps.length < 2 ^ 64) :
    ∃ s, newSegment fs b cfg =
        (.ok s, fs.put (2 * k + 1) (resize (entries (entriesOf ps)) cfg.MaxIndexBytes)) ∧
      SegInv cfg (fs.put (2 * k + 1) (resize (entries (entriesOf ps)) cfg.MaxIndexBytes)) s k b ps := by
  obtain ⟨ix, ci, hni, hrep, hif, hic, him, hci⟩ :=
    newIndex_rep (2 * k + 1) (entriesOf ps) cfg h0 h63 (by rw [entriesOf_length]; exact hcap)
  subst hci
  have hcs : (fs.put (2 * k + 1) (resize (entries (entriesOf ps)) cfg.MaxIndexBytes)).content
      (2 * k) = frames ps := by
    rw [FS_put_content_ne _ _ _ _ (by omega)]; exact hc1
  have hcx : (fs.put (2 * k + 1) (resize (entries (entriesOf ps)) cfg.MaxIndexBytes)).content
      (2 * k + 1) = resize (entries (entriesOf ps)) cfg.MaxIndexBytes :=
    FS_put_content_same _ _ _ hk
  have hinv : ∀ n, n = b + ps.length →
      SegInv cfg (fs.put (2 * k + 1) (resize (entries (entriesOf ps)) cfg.MaxIndexBytes))
        { store := newStore (2 * k) (frames ps), index := ix, baseOffset := b, nextOffset := n,
          config := cfg } k b ps := by
    intro n hn
    refine ⟨rfl, hn, rfl, rfl, rfl, rfl, ?_, ?_, hif, hic, him, ?_⟩
    · rw [hcs]; simp [store.logical, newStore]
    · simp only [newStore]; exact (Nat.mod_eq_of_lt hsz).symm
    · rw [hcx]; exact hrep
  by_cases hne : ps = []
  · have hsize : ix.size = 0 := by rw [hrep.1, entriesOf_length, hne]; rfl
    have hr := index_Read_empty ix (resize (entries (entriesOf ps)) cfg.MaxIndexBytes) (-1) hsize
    refine ⟨_, ?_, hinv b (by rw [hne]; rfl)⟩
    unfold newSegment
    simp only [FS.OpenFile, hp, hl1, hl2, Bool.not_true, Bool.false_eq_true, if_false, hc1, hc2,
      hni, hr]
  · obtain ⟨pos, hr⟩ := index_Read_last_entriesOf ix _ ps hrep hne h32
    have hpos : 0 < ps.length := List.length_pos.mpr hne
    have hnext : (b + (ps.length - 1) + 1) % 2 ^ 64 = b + ps.length := by omega
    refine ⟨_, ?_, hinv (b + ps.length) rfl⟩
    unfold newSegment
    simp only [FS.OpenFile, hp, hl1, hl2, Bool.not_true, Bool.false_eq_true, if_false, hc1, hc2,
      hni, hr, hnext]

theorem setupLoop_inv (cfg : Config) (h0 : cfg.MaxIndexBytes ≠ 0) (h63 : cfg.MaxIndexBytes < 2 ^ 63)
    (X : List (Nat × List (List Byte))) :
    ∀ (Xd : List (Nat × List (List Byte))) (l : Log),
      l.Config = cfg → l.fs.present = true → l.fs.names = namesFrom 0 (Xd ++ X) →
      l.fs.inodes.length = 2 * (Xd ++ X).length → SegsInv cfg l.fs 0 l.segments Xd →
      FilesRep l.fs Xd.length X → List.Pairwise (fun x y => x.1 ≠ y.1) (Xd ++ X) →
      (∀ x ∈ X, 12 * x.2.length ≤ cfg.MaxIndexBytes ∧ x.2.length ≤ 2 ^ 32 ∧
        (frames x.2).length < 2 ^ 64 ∧ x.1 + x.2.length < 2 ^ 64) →
      ∃ l1, l.setupLoop (bases2 X) = (.ok (), l1) ∧ l1.Config = cfg ∧ l1.fs.present = true ∧
        l1.fs.names = l.fs.names ∧ l1.fs.inodes.length = l.fs.inodes.length ∧
        SegsInv cfg l1.fs 0 l1.segments (Xd ++ X) ∧
        (X ≠ [] → l1.activeSegment = .inList ((Xd ++ X).length - 1)) ∧ (X = [] → l1 = l) := by
  induction X with
  | nil =>
    intro Xd l hc hp hn hi hs _ _ _
    refine ⟨l, rfl, hc, hp, rfl, rfl, ?_, fun h => absurd rfl h, fun _ => rfl⟩
    simpa using hs
  | cons x X ih =>
    intro Xd l hc hp hn hi hs hf hpw hb
    obtain ⟨b, ps⟩ := x
    subst hc
    have hslen := SegsInv_length l.Config l.fs l.segments 0 Xd hs
    simp only [FilesRep] at hf
    obtain ⟨hc1, hc2, hfrest⟩ := hf
    have hdist : ∀ y ∈ Xd, y.1 ≠ b := by
      intro y hy
      exact (List.pairwise_append.mp hpw).2.2 y hy (b, ps) (List.mem_cons_self _ _)
    obtain ⟨hf1, hf2⟩ := find_namesFrom Xd b ps X 0 hdist
    rw [Nat.zero_add] at hf1 hf2
    have hl1 : l.fs.lookup ⟨b, .store⟩ = some (2 * Xd.length) := by
      unfold FS.lookup; rw [hn, hf1]; rfl
    have hl2 : l.fs.lookup ⟨b, .index⟩ = some (2 * Xd.length + 1) := by
      unfold FS.lookup; rw [hn, hf2]; rfl
    have hlen : l.fs.inodes.length = 2 * (Xd.length + (X.length + 1)) := by
      rw [hi]; simp
    obtain ⟨hb1, hb2, hb3, hb4⟩ := hb (b, ps) (List.mem_cons_self _ _)
    obtain ⟨s, hns, hseg⟩ := newSegment_existing l.Config l.fs Xd.length b ps hp hl1 hl2 hc1 hc2
      (by omega) h0 h63 hb1 hb2 hb3 hb4
    have happ : Xd ++ (b, ps) :: X = (Xd ++ [(b, ps)]) ++ X := by simp
    have hput : ∀ j, j ≠ 2 * Xd.length + 1 →
        (l.fs.put (2 * Xd.length + 1) (resize (entries (entriesOf ps)) l.Config.MaxIndexBytes)).content j =
          l.fs.content j := fun j hj => FS_put_content_ne _ _ _ _ hj
    obtain ⟨l2, g1, g2, g3, g4, g5, g6, g7, g8⟩ := ih (Xd ++ [(b, ps)])
      (Log.mk l.Config (l.fs.put (2 * Xd.length + 1)
        (resize (entries (entriesOf ps)) l.Config.MaxIndexBytes)) (l.segments ++ [s])
        (.inList l.segments.length)) rfl hp (by rw [← happ]; exact hn)
      (by rw [← happ, ← hi]; simp [FS.put])
      (by
        rw [SegsInv_snoc, Nat.zero_add, hslen]
        exact ⟨SegsInv_frame l.Config l.fs _ l.segments 0 Xd
          (fun j hj => hput j (by omega)) hs, hseg⟩)
      (by
        simp only [List.length_append, List.length_singleton]
        exact FilesRep_frame l.fs _ X (Xd.length + 1)
          (fun j h1 h2 => hput j (by omega)) hfrest)
      (by rw [← happ]; exact hpw)
      (fun x hx => hb x (List.mem_cons_of_mem _ hx))
    have hstep : l.setupLoop (bases2 ((b, ps) :: X)) = (.ok (), l2) := by
      simp only [bases2, Log.setupLoop, Log.newSegment, hns]
      exact g1
    refine ⟨l2, hstep, g2, g3, g4, by rw [g5]; simp [FS.put], by rw [happ]; exact g6,
      fun _ => ?_, fun h => by simp at h⟩
    by_cases hX : X = []
    · rw [g8 hX, hX]
      simp [hslen]
    · rw [g7 hX, happ]

theorem Log_reopen_inv (c : Config) (l : Log) (A : AbsLog)
    (h : LogInv c.withDefaults l A) (h63 : c.withDefaults.MaxIndexBytes < 2 ^ 63)
    (h32 : c.withDefaults.MaxIndexBytes / 12 ≤ 2 ^ 32) (hsz : SizeOk A) :
    ∃ l1 l2, l.Close = (.ok (), l1) ∧ NewLog l1.fs c = (.ok (), l2) ∧
      LogInv c.withDefaults l2 A := by
  have hbounds := LogInv_bounds _ l A h
  obtain ⟨hc, hp, hact, hsegs, hino, hnames, hch, hold, hlt⟩ := h
  have hslen := SegsInv_length _ l.fs l.segments 0 A.all hsegs
  have hall : A.all.length = A.old.length + 1 := by simp [AbsLog.all]
  obtain ⟨fs1, segs1, hcl, hrep, hp1, hn1, hl1, _⟩ :=
    closeLoop_inv c.withDefaults h63 l.segments l.fs 0 A.all hsegs
      (by rw [hino, hslen, hall]; omega)
  have hchall : chained c.withDefaults.InitialOffset A.all (A.base + A.cur.length) :=
    (chained_snoc A.old A.base A.cur _ _).mpr ⟨hch, rfl⟩
  have hsorted := (bases2_sorted A.all _ _ hchall).1
  obtain ⟨l2, g1, g2, g3, g4, g5, g6, g7, _⟩ := setupLoop_inv c.withDefaults
    (withDefaults_ne_zero c) h63 A.all []
    (Log.mk c.withDefaults fs1 [] .nil) rfl (hp1.trans hp)
    (by simp only [List.nil_append]; exact hn1.trans hnames)
    (by simp only [List.nil_append]; rw [hl1, hino, hall])
    trivial hrep
    (by simp only [List.nil_append]; exact chained_pairwise A.old A.base A.cur _ _ hchall hold)
    (fun x hx => ⟨(hbounds x hx).1, by have := (hbounds x hx).1; omega,
      by have := hsz x hx; omega, (hbounds x hx).2⟩)
  have hne : A.all ≠ [] := by simp [AbsLog.all]
  simp only [List.nil_append] at g6 g7
  have hseg2 : l2.segments.isEmpty = false := by
    have := SegsInv_length _ _ _ _ _ g6
    cases hs2 : l2.segments with
    | nil => rw [hs2, hall] at this; simp at this
    | cons a b => rfl
  refine ⟨{ l with fs := fs1, segments := segs1 }, l2, by simp only [Log.Close, hcl], ?_, ?_⟩
  · rw [NewLog_config]
    simp only [Log.setup, hp1.trans hp, Bool.not_true, Bool.false_eq_true, if_false]
    rw [hn1, hnames, names_bases2, hsorted.insertionSort_eq, g1]
    simp only [hseg2, Bool.false_eq_true, if_false]
  · refine ⟨g2, g3, ?_, g6, ?_, ?_, hch, hold, hlt⟩
    · rw [g7 hne, hall]; rfl
    · rw [g5]; simp only; rw [hl1, hino]
    · rw [g4]; simp only; rw [hn1, hnames]

theorem spec_out_length (cd : Codec) (init : Nat) (rs : List Record) :
    ∀ recs, (specAppendAll cd init recs rs).2.length =
      recs.length + (okValues (specAppendAll cd init recs rs).1).length := by
  induction rs with
  | nil => intro recs; simp [specAppendAll, okValues]
  | cons r rs ih =>
    intro recs
    unfold specAppendAll
    cases hm : cd.Marshal { r with Offset := init + recs.length } with
    | none => simp only [okValues]; exact ih recs
    | some p =>
      simp only [okValues, List.length_cons]
      rw [ih (recs ++ [p])]
      simp only [List.length_append, List.length_singleton]
      omega

theorem LogInv_HighestOffset (cfg : Config) (l : Log) (A : AbsLog) (h : LogInv cfg l A)
    (hpos : 0 < A.base + A.cur.length) :
    l.HighestOffset = .ok (A.base + A.cur.length - 1) := by
  obtain ⟨init, s, hs, _, _, hseg, _⟩ := LogInv_active cfg l A h
  unfold Log.HighestOffset
  have hlast : (init ++ [s]).getLast? = some s := by simp
  rw [hs, hlast]
  simp only
  rw [hseg.2.1, if_neg (by omega)]

theorem Read_of_spec (cd : Codec) (c : Config) (rs : List Record) (l : Log) (A1 : AbsLog)
    (i o : Nat) (hinv : LogInv c.withDefaults l A1)
    (hpay : payloads A1.all = (specAppendAll cd c.InitialOffset [] rs).2)
    (hsize : SizeOk A1) (h32 : c.withDefaults.MaxIndexBytes / 12 ≤ 2 ^ 32)
    (hrt : ∀ r p, r.Offset < 2 ^ 64 → cd.Marshal r = some p → cd.Unmarshal p = some r)
    (hi : i < rs.length)
    (hres : (specAppendAll cd c.InitialOffset [] rs).1[i]? = some (.ok o)) :
    (Log.Read cd l o).1 = .ok { Value := rs[i].Value, Offset := o } := by
  obtain ⟨p, ⟨_, hp⟩, hle, hget⟩ := (spec_get cd c.InitialOffset rs []).2 i o hres
  rw [← hpay] at hget
  have hg : o - c.InitialOffset < (payloads A1.all).length := by
    rcases Nat.lt_or_ge (o - c.InitialOffset) (payloads A1.all).length with h1 | h1
    · exact h1
    · rw [List.getElem?_eq_none h1] at hget; cases hget
  have hnext := LogInv_next _ _ A1 hinv
  have hlt := hinv.2.2.2.2.2.2.2.2
  have hio : c.withDefaults.InitialOffset = c.InitialOffset := rfl
  rw [hio] at hnext
  have ho : o < 2 ^ 64 := by omega
  have hread := Log_Read_inv cd c.withDefaults _ A1 (o - c.InitialOffset) hinv hg h32 hsize
  rw [hio] at hread
  have hsum : c.InitialOffset + (o - c.InitialOffset) = o := by omega
  rw [hsum] at hread
  rw [hread]
  rw [List.getElem?_eq_getElem hg] at hget
  rw [Option.some.inj hget, hrt _ p ho hp]

theorem range'_getLast (s n o : Nat) (h : (List.range' s n).getLast? = some o) :
    0 < n ∧ o = s + n - 1 := by
  rw [List.getLast?_eq_getElem?, List.length_range'] at h
  rcases Nat.eq_zero_or_pos n with h0 | h0
  · subst h0; simp at h
  · rw [List.getElem?_range' s 1 (by omega)] at h
    simp only [Nat.one_mul, Option.some.injEq] at h
    exact ⟨h0, by omega⟩

/-! ## Claim on reopening -/

/-- C3, counterexample. `InitialOffset = 2 ^ 64 - 1`, default size limits: one record
is appended and gets the offset `2 ^ 64 - 1`; after `Close` and `NewLog` on the
same directory, `HighestOffset()` returns 0 and `Read(2 ^ 64 - 1)` fails with the
out-of-range error. -/
theorem Log_reopen_fails_after_wrap :
    (Log.appendAll fixedCodec (NewLog FS.empty ⟨0, 0, 2 ^ 64 - 1⟩).2 [⟨helloWorld, 0⟩]).1 =
        [.ok (2 ^ 64 - 1)] ∧
      (sampleLog ⟨0, 0, 2 ^ 64 - 1⟩ 1).Close.1 = .ok () ∧
      (NewLog (sampleLog ⟨0, 0, 2 ^ 64 - 1⟩ 1).Close.2.fs ⟨0, 0, 2 ^ 64 - 1⟩).1 = .ok () ∧
      (NewLog (sampleLog ⟨0, 0, 2 ^ 64 - 1⟩ 1).Close.2.fs ⟨0, 0, 2 ^ 64 - 1⟩).2.HighestOffset =
        .ok 0 ∧
      (Log.Read fixedCodec
        (NewLog (sampleLog ⟨0, 0, 2 ^ 64 - 1⟩ 1).Close.2.fs ⟨0, 0, 2 ^ 64 - 1⟩).2
        (2 ^ 64 - 1)).1 = .error (.offsetOutOfRange (2 ^ 64 - 1)) := by
  decide

/-- C3, amended. Reopen round trip: for every sequence of records appended to a log
made in an empty directory, with the offsets below `2 ^ 64`, at most `2 ^ 32`
entries in an index and store files below `2 ^ 63` bytes: after `Log.Close` and
`NewLog` on the same directory with the same configuration, `Log.Read(o)` for
each offset `o` that an append returned gives the record that was appended, and
`HighestOffset()` is the last offset returned before the close.  When an index
entry fits (`MaxIndexBytes` 0 or at least 12), `Close` and `NewLog` do succeed. -/
theorem Log_reopen (cd : Codec) (c : Config) (rs : List Record) (l0 : Log)
    (hnew : NewLog FS.empty c = (.ok (), l0))
    (hoff : c.InitialOffset + rs.length < 2 ^ 64)
    (h32 : c.withDefaults.MaxIndexBytes / 12 ≤ 2 ^ 32)
    (hfile : ∀ x ∈ (Log.appendAll cd l0 rs).2.storeContents, x.length < 2 ^ 63)
    (hrt : ∀ r p, r.Offset < 2 ^ 64 → cd.Marshal r = some p → cd.Unmarshal p = some r) :
    (12 ≤ c.withDefaults.MaxIndexBytes →
        ∃ l1 l2, (Log.appendAll cd l0 rs).2.Close = (.ok (), l1) ∧
          NewLog l1.fs c = (.ok (), l2)) ∧
      ∀ l1 l2, (Log.appendAll cd l0 rs).2.Close = (.ok (), l1) → NewLog l1.fs c = (.ok (), l2) →
        (∀ (i o : Nat) (hi : i < rs.length),
          (Log.appendAll cd l0 rs).1[i]? = some (.ok o) →
            (Log.Read cd l2 o).1 = .ok { Value := rs[i].Value, Offset := o }) ∧
        (∀ o, (okValues (Log.appendAll cd l0 rs).1).getLast? = some o →
          l2.HighestOffset = .ok o) := by
  obtain ⟨hl0, h63⟩ := NewLog_empty_ok c l0 hnew
  subst hl0
  by_cases h12 : 12 ≤ c.withDefaults.MaxIndexBytes
  · obtain ⟨g1, A1, hinv, hpay, _⟩ := fresh_refines cd c rs h12 h63 hoff
    have hsize := LogInv_SizeOk _ _ A1 hinv hfile
    obtain ⟨m1, m2, hcl, hop, hinv2⟩ := Log_reopen_inv c _ A1 hinv h63 h32 hsize
    refine ⟨fun _ => ⟨m1, m2, hcl, hop⟩, ?_⟩
    intro l1 l2 hcl1 hop1
    rw [hcl] at hcl1
    have e1 : m1 = l1 := (Prod.mk.inj hcl1).2
    subst e1
    rw [hop] at hop1
    have e2 : m2 = l2 := (Prod.mk.inj hop1).2
    subst e2
    constructor
    · intro i o hi hres
      rw [g1] at hres
      exact Read_of_spec cd c rs m2 A1 i o hinv2 hpay hsize h32 hrt hi hres
    · intro o ho
      rw [g1, spec_okValues cd c.InitialOffset rs []] at ho
      obtain ⟨hn, hoe⟩ := range'_getLast _ _ _ ho
      have hlen := spec_out_length cd c.InitialOffset rs []
      have hnext := LogInv_next _ _ A1 hinv2
      rw [hpay, hlen] at hnext
      have hio : c.withDefaults.InitialOffset = c.InitialOffset := rfl
      simp only [List.length_nil, Nat.zero_add, Nat.add_zero, hio] at hnext hoe
      rw [LogInv_HighestOffset _ _ A1 hinv2 (by omega), hnext, hoe]
  · have hsmall := Log_appendAll_small cd rs (freshLog c) (freshLog_small c (by omega))
    refine ⟨fun h => absurd h h12, ?_⟩
    intro l1 l2 _ _
    constructor
    · intro i o _ hres
      exact absurd hres (hsmall.2 i o)
    · intro o ho
      rw [hsmall.1] at ho
      simp at ho

/-- Witness of C3: five records in three segments, closed and reopened; the record of
offset 3 is read back and the highest offset is 4. -/
theorem Log_reopen_witness :
    (Log.Read fixedCodec
        (NewLog (sampleLog ⟨32, 36, 0⟩ 5).Close.2.fs ⟨32, 36, 0⟩).2 3).1 = .ok ⟨helloWorld, 3⟩ ∧
      (NewLog (sampleLog ⟨32, 36, 0⟩ 5).Close.2.fs ⟨32, 36, 0⟩).2.HighestOffset = .ok 4 :=
  ⟨((Log_reopen fixedCodec ⟨32, 36, 0⟩ (List.replicate 5 ⟨helloWorld, 0⟩)
      (NewLog FS.empty ⟨32, 36, 0⟩).2 (by decide) (by decide) (by decide) (by decide)
      fixedCodec_roundtrip).2 (sampleLog ⟨32, 36, 0⟩ 5).Close.2
      (NewLog (sampleLog ⟨32, 36, 0⟩ 5).Close.2.fs ⟨32, 36, 0⟩).2 (by decide) (by decide)).1
      3 3 (by decide) (by decide),
   ((Log_reopen fixedCodec ⟨32, 36, 0⟩ (List.replicate 5 ⟨helloWorld, 0⟩)
      (NewLog FS.empty ⟨32, 36, 0⟩).2 (by decide) (by decide) (by decide) (by decide)
      fixedCodec_roundtrip).2 (sampleLog ⟨32, 36, 0⟩ 5).Close.2
      (NewLog (sampleLog ⟨32, 36, 0⟩ 5).Close.2.fs ⟨32, 36, 0⟩).2 (by decide) (by decide)).2
      4 (by decide)⟩

/-! ## Claims on the failures of the index -/

/-- C11, counterexample. An index of 12 bytes holding the one entry `(0, 0)`:
`index.Read(2 ^ 32)` succeeds and returns that entry, although the entry of rank
`2 ^ 32` lies far beyond the logical size; and an index opened with
`MaxIndexBytes = 12` on a file of two entries has `size = 24` but a map of 12
bytes, so that `index.Read(-1)` panics although the index holds entries. -/
theorem index_Read_beyond_size_succeeds :
    (∃ r, writesOnEmpty ⟨1024, 12, 0⟩ [(0, 0)] = some r ∧ r.2.1.size = 12 ∧
        r.2.1.Read r.2.2 (2 ^ 32) = .ok (0, 0)) ∧
      (∃ i c, newIndex 0 (entries [(0, 0), (1, 27)]) ⟨1024, 12, 0⟩ = (.ok i, c) ∧ i.size = 24 ∧
        i.Read c (-1) = .error .fault) := by
  refine ⟨⟨_, rfl, by decide, by decide⟩, ⟨_, _, rfl, by decide, by decide⟩⟩

/-- C11, amended. For every index state and every rank `n` with `0 <= n < 2 ^ 32`,
`index.Read(n)` fails with `io.EOF` whenever the index is empty or
`n * 12 + 12 > size`, and succeeds only when the entry of rank `n` lies inside
the first `size` bytes (and does succeed then, when the logical size lies inside
the mapped file); for an index whose logical size lies inside the mapped file,
`index.Read(-1)` fails, with `io.EOF`, exactly when `size < 12`. -/
theorem index_Read_eof (i : index) (c : List Byte) (n : Nat) (h32 : n < 2 ^ 32) :
    ((i.size = 0 ∨ i.size < n * 12 + 12) → i.Read c (n : Int) = .error .eof) ∧
      (∀ r, i.Read c (n : Int) = .ok r → i.size ≠ 0 ∧ n * 12 + 12 ≤ i.size) ∧
      (i.size ≤ i.mmapLen → i.size ≤ c.length →
        (n * 12 + 12 ≤ i.size → ∃ r, i.Read c (n : Int) = .ok r) ∧
        (i.size < 12 → i.Read c (-1) = .error .eof) ∧
        (12 ≤ i.size → ∃ r, i.Read c (-1) = .ok r)) := by
  have hw : endWidth = 12 := rfl
  have hn1 : ((n : Int) = -1) = False := by simp
  have hout : ((n : Int) % 2 ^ 32).toNat = n := by omega
  refine ⟨?_, ?_, ?_⟩
  · intro h
    unfold index.Read
    by_cases h0 : i.size = 0
    · rw [if_pos h0]
    · rw [if_neg h0]
      simp only [hn1, if_false, hout, hw]
      rw [if_pos (by omega)]
  · intro r h
    unfold index.Read at h
    by_cases h0 : i.size = 0
    · rw [if_pos h0] at h; cases h
    · rw [if_neg h0] at h
      simp only [hn1, if_false, hout, hw] at h
      by_cases h1 : i.size < n * 12 + 12
      · rw [if_pos h1] at h; cases h
      · exact ⟨h0, by omega⟩
  · intro hm hc
    refine ⟨?_, ?_, ?_⟩
    · intro h
      unfold index.Read
      rw [if_neg (by omega)]
      simp only [hn1, if_false, hout, hw]
      rw [if_neg (by omega), if_neg (by omega)]
      exact ⟨_, rfl⟩
    · intro h
      unfold index.Read
      by_cases h0 : i.size = 0
      · rw [if_pos h0]
      · rw [if_neg h0]
        simp only [if_true, hw]
        rw [if_pos (by omega)]
    · intro h
      unfold index.Read
      rw [if_neg (by omega)]
      simp only [if_true, hw]
      rw [if_neg (by omega), if_neg (by omega)]
      exact ⟨_, rfl⟩

/-- Witness of C11: on an index of two entries, the rank 2 is beyond the size. -/
theorem index_Read_eof_witness :
    ∃ r, writesOnEmpty ⟨1024, 24, 0⟩ [(0, 0), (1, 27)] = some r ∧
      r.2.1.Read r.2.2 ((2 : Nat) : Int) = .error .eof :=
  ⟨_, rfl, (index_Read_eof _ _ 2 (by decide)).1 (by decide)⟩

theorem overwrite_entry (c : List Byte) (n off pos : Nat) (h : n + 12 ≤ c.length) :
    overwrite (overwrite c n (putUint 4 off)) (n + offWidth) (putUint 8 pos) =
      c.take n ++ entry (off, pos) ++ c.drop (n + 12) := by
  have hpre : (c.take n).length = n := by simp; omega
  have h1 : overwrite c n (putUint 4 off) = c.take n ++ putUint 4 off ++ (c.drop n).drop 4 := by
    have := overwrite_at (c.take n) (c.drop n) (putUint 4 off)
    rw [List.take_append_drop, hpre, putUint_length] at this
    exact this
  have hpre2 : (c.take n ++ putUint 4 off).length = n + offWidth := by
    rw [List.length_append, hpre, putUint_length]; rfl
  rw [h1, ← hpre2, overwrite_at, putUint_length]
  simp only [entry, List.drop_drop, List.append_assoc]

/-- C12. For every index state (the size that of a file, `size + 12 < 2 ^ 64`),
`index.Write(off, pos)` fails with `io.EOF` if and only if `size + 12` exceeds the
length of the mapped region; on failure the mapped bytes and the size are
unchanged; on success the 12 bytes at `[size, size + 12)` are the entry, every
other byte is unchanged, the length is unchanged and the size grows by 12.
When the mapped region has room and is backed by the file, the call does
succeed. -/
theorem index_Write_capacity (i : index) (c : List Byte) (off pos : Nat)
    (hs : i.size + 12 < 2 ^ 64) :
    ((i.Write c off pos).1 = .error .eof ↔ i.mmapLen < i.size + 12) ∧
      (i.mmapLen < i.size + 12 → i.Write c off pos = (.error .eof, i, c)) ∧
      (∀ e, (i.Write c off pos).1 = .error e → (i.Write c off pos).2 = (i, c)) ∧
      (∀ i1 c1, i.Write c off pos = (.ok (), i1, c1) →
        i.size + 12 ≤ i.mmapLen ∧ i1 = { i with size := i.size + 12 } ∧
          c1.length = c.length ∧ slice c1 i.size 12 = entry (off, pos) ∧
          ∀ j, j < i.size ∨ i.size + 12 ≤ j → c1.get? j = c.get? j) ∧
      (i.size + 12 ≤ i.mmapLen → i.mmapLen ≤ c.length →
        ∃ c1, i.Write c off pos = (.ok (), { i with size := i.size + 12 }, c1)) := by
  have hmod : (i.size + endWidth) % 2 ^ 64 = i.size + 12 := by
    simp only [endWidth, offWidth, posWidth]; omega
  have hw : i.size + endWidth = i.size + 12 := rfl
  have hfull : i.mmapLen < i.size + 12 → i.Write c off pos = (.error .eof, i, c) := by
    intro h
    unfold index.Write
    rw [hmod, if_pos h]
  have hshort : i.size + 12 ≤ i.mmapLen → c.length < i.size + 12 →
      i.Write c off pos = (.error .fault, i, c) := by
    intro h1 h2
    unfold index.Write
    rw [hmod, if_neg (by omega), hw, if_pos (Or.inr h2)]
  have hroom : i.size + 12 ≤ i.mmapLen → i.size + 12 ≤ c.length →
      i.Write c off pos = (.ok (), { i with size := i.size + 12 },
        c.take i.size ++ entry (off, pos) ++ c.drop (i.size + 12)) := by
    intro h1 h2
    unfold index.Write
    rw [hmod, if_neg (by omega), hw, if_neg (by omega)]
    simp only [overwrite_entry c i.size off pos h2]
  refine ⟨⟨?_, fun h => by rw [hfull h]⟩, hfull, ?_, ?_, ?_⟩
  · intro h
    by_contra hn
    by_cases hc : c.length < i.size + 12
    · rw [hshort (by omega) hc] at h
      cases h
    · rw [hroom (by omega) (by omega)] at h
      cases h
  · intro e h
    by_cases h1 : i.mmapLen < i.size + 12
    · rw [hfull h1]
    · by_cases hc : c.length < i.size + 12
      · rw [hshort (by omega) hc]
      · rw [hroom (by omega) (by omega)] at h
        cases h
  · intro i1 c1 h
    by_cases h1 : i.mmapLen < i.size + 12
    · rw [hfull h1] at h
      cases h
    · by_cases hc : c.length < i.size + 12
      · rw [hshort (by omega) hc] at h
        cases h
      · rw [hroom (by omega) (by omega)] at h
        simp only [Prod.mk.injEq, true_and] at h
        obtain ⟨hi1, hc1⟩ := h
        have hpre : (c.take i.size).length = i.size := by simp; omega
        refine ⟨by omega, hi1.symm, ?_, ?_, ?_⟩
        · rw [← hc1]; simp [entry_length]; omega
        · rw [← hc1]
          exact slice_of_eq _ _ _ _ _ _ rfl hpre (entry_length _)
        · intro j hj
          rw [← hc1]
          simp only [List.get?_eq_getElem?]
          rcases hj with hj | hj
          · rw [List.append_assoc, List.getElem?_append_left (by omega),
              List.getElem?_take_of_lt hj]
          · rw [List.getElem?_append_right (by simp [entry_length]; omega),
              List.getElem?_drop]
            congr 1
            simp [entry_length]
            omega
  · intro h1 h2
    exact ⟨_, hroom h1 (by omega)⟩

/-- Witness of C12: the second write into an index of 24 bytes, and a write into an
index whose file was cut to 0 bytes by `Close` while 1024 bytes stay mapped. -/
theorem index_Write_capacity_witness :
    (∃ r, writesOnEmpty ⟨1024, 24, 0⟩ [(0, 0)] = some r ∧
      ((r.2.1.Write r.2.2 1 27).1 = .error .eof ↔ r.2.1.mmapLen < r.2.1.size + 12)) ∧
      ((index.Write ⟨1, true, 1024, 0⟩ [] 0 0).1 = .error .eof ↔ 1024 < 0 + 12) :=
  ⟨⟨_, rfl, (index_Write_capacity _ _ 1 27 (by decide)).1⟩,
    (index_Write_capacity ⟨1, true, 1024, 0⟩ [] 0 0 (by decide)).1⟩

/-! ## Claims on `Reset`, on the offsets of the log and on the active segment -/

/-- C14, divergence. `Log.Reset` never succeeds: when `Remove` succeeds the
directory is gone and `setup` fails on reading it (a failing `Remove` fails
`Reset` too).  On the log with `MaxStoreBytes = 32` to which three records were
appended, `Reset` returns the error and the two old segments are still the
segment list. -/
theorem Log_Reset_fails (l : Log) :
    (∃ e, l.Reset.1 = .error e) ∧
      (sampleLog ⟨32, 0, 0⟩ 3).Reset.1 = .error .io ∧
      (sampleLog ⟨32, 0, 0⟩ 3).Reset.2.segments.map (fun s => (s.baseOffset, s.nextOffset)) =
        [(0, 2), (2, 3)] := by
  refine ⟨?_, by decide, by decide⟩
  unfold Log.Reset Log.Remove
  rcases hc : l.Close with ⟨r, l1⟩
  cases r with
  | error e => exact ⟨e, rfl⟩
  | ok u => exact ⟨.io, rfl⟩

theorem LogInv_LowestOffset (cfg : Config) (l : Log) (A : AbsLog) (h : LogInv cfg l A) :
    l.LowestOffset = .ok cfg.InitialOffset := by
  obtain ⟨hc, hp, hact, hsegs, hino, hnames, hch, hold, hlt⟩ := h
  unfold Log.LowestOffset
  rcases hA : A.old with _ | ⟨⟨b, ps⟩, old⟩
  · rw [AbsLog.all, hA] at hsegs
    rw [hA] at hch
    simp only [chained] at hch
    rcases hl : l.segments with _ | ⟨s, rest⟩
    · rw [hl] at hsegs; simp [SegsInv] at hsegs
    · rw [hl] at hsegs
      simp only [List.nil_append, SegsInv] at hsegs
      simp only [hsegs.1.1, hch]
  · rw [AbsLog.all, hA] at hsegs
    rw [hA] at hch
    simp only [chained] at hch
    rcases hl : l.segments with _ | ⟨s, rest⟩
    · rw [hl] at hsegs; simp [SegsInv] at hsegs
    · rw [hl] at hsegs
      simp only [List.cons_append, SegsInv] at hsegs
      simp only [hsegs.1.1, hch.1]

/-- C15, counterexample. On a log made in an empty directory, `Truncate(0)` succeeds
and removes the only, empty segment; the segment list is then empty, and
`LowestOffset()` and `HighestOffset()` index an empty slice and panic instead
of returning an offset. -/
theorem Log_offsets_panic_without_segment :
    ((NewLog FS.empty ⟨0, 0, 0⟩).2.Truncate 0).1 = .ok () ∧
      ((NewLog FS.empty ⟨0, 0, 0⟩).2.Truncate 0).2.segments = [] ∧
      ((NewLog FS.empty ⟨0, 0, 0⟩).2.Truncate 0).2.LowestOffset = .error .fault ∧
      ((NewLog FS.empty ⟨0, 0, 0⟩).2.Truncate 0).2.HighestOffset = .error .fault := by
  refine ⟨by decide, by decide, by decide, by decide⟩

/-- C15, amended. On a log with at least one segment `LowestOffset` returns the base offset
of the first segment and `HighestOffset` returns the next offset of the last
segment minus one, or 0 when that next offset is 0.  Hence on a log made in an
empty directory with `InitialOffset = 0`, after a run of appends of which
`n >= 1` succeeded, `HighestOffset` is `n - 1` and `LowestOffset` is 0. -/
theorem Log_Lowest_Highest (cd : Codec) (c : Config) (l0 : Log) (rs : List Record) (n : Nat) :
    (∀ (l : Log) s rest, l.segments = s :: rest → l.LowestOffset = .ok s.baseOffset) ∧
      (∀ (l : Log) init s, l.segments = init ++ [s] →
        l.HighestOffset = .ok (if s.nextOffset = 0 then 0 else s.nextOffset - 1)) ∧
      (c.InitialOffset = 0 → NewLog FS.empty c = (.ok (), l0) → rs.length < 2 ^ 64 →
        (okValues (Log.appendAll cd l0 rs).1).length = n → 1 ≤ n →
        (Log.appendAll cd l0 rs).2.HighestOffset = .ok (n - 1) ∧
          (Log.appendAll cd l0 rs).2.LowestOffset = .ok 0) := by
  refine ⟨?_, ?_, ?_⟩
  · intro l s rest h
    simp only [Log.LowestOffset, h]
  · intro l init s h
    have hlast : (init ++ [s]).getLast? = some s := by simp
    simp only [Log.HighestOffset, h, hlast]
    split <;> rfl
  · intro hi hnew hlen hn h1
    obtain ⟨hl0, h63⟩ := NewLog_empty_ok c l0 hnew
    subst hl0
    by_cases h12 : 12 ≤ c.withDefaults.MaxIndexBytes
    · obtain ⟨g1, A1, g2, g3, _⟩ := fresh_refines cd c rs h12 h63 (by omega)
      have hnext := LogInv_next _ _ _ g2
      have hout := spec_out_length cd c.InitialOffset rs []
      rw [g1] at hn
      rw [g3, hout, hn] at hnext
      have hci : c.withDefaults.InitialOffset = 0 := hi
      simp only [hci, List.length_nil, Nat.zero_add] at hnext
      refine ⟨?_, ?_⟩
      · rw [LogInv_HighestOffset _ _ _ g2 (by omega), hnext]
      · rw [LogInv_LowestOffset _ _ _ g2, hci]
    · have := (Log_appendAll_small cd rs _ (freshLog_small c (by omega))).1
      rw [this] at hn
      simp at hn
      omega

/-- Witness of C15: with `MaxStoreBytes = 32`, three records of 19 framed bytes
give two segments, the second at base offset 2, and `HighestOffset` is 2. -/
theorem Log_Lowest_Highest_witness :
    ((Log.appendAll fixedCodec (NewLog FS.empty ⟨32, 0, 0⟩).2
        [⟨[1, 2, 3], 0⟩, ⟨[4, 5, 6], 0⟩, ⟨[7, 8, 9], 0⟩]).2.segments.map
          (fun s => s.baseOffset) = [0, 2]) ∧
      (Log.appendAll fixedCodec (NewLog FS.empty ⟨32, 0, 0⟩).2
        [⟨[1, 2, 3], 0⟩, ⟨[4, 5, 6], 0⟩, ⟨[7, 8, 9], 0⟩]).2.HighestOffset = .ok (3 - 1) ∧
      (Log.appendAll fixedCodec (NewLog FS.empty ⟨32, 0, 0⟩).2
        [⟨[1, 2, 3], 0⟩, ⟨[4, 5, 6], 0⟩, ⟨[7, 8, 9], 0⟩]).2.LowestOffset = .ok 0 :=
  ⟨by decide,
    (Log_Lowest_Highest fixedCodec ⟨32, 0, 0⟩ (NewLog FS.empty ⟨32, 0, 0⟩).2
      [⟨[1, 2, 3], 0⟩, ⟨[4, 5, 6], 0⟩, ⟨[7, 8, 9], 0⟩] 3).2.2 rfl (by decide) (by decide)
      (by decide) (by decide)⟩

/-- C16, divergence. On a log made in an empty directory to which one record was
appended, `Truncate(0)` succeeds and removes the only segment: the segment list
is empty while `activeSegment` still designates the removed, closed segment,
which is not an element of the list. -/
theorem Log_Truncate_detaches_active :
    ((sampleLog ⟨0, 0, 0⟩ 1).Truncate 0).1 = .ok () ∧
      ((sampleLog ⟨0, 0, 0⟩ 1).Truncate 0).2.segments = [] ∧
      (((sampleLog ⟨0, 0, 0⟩ 1).Truncate 0).2.active.map
        (fun s => (s.baseOffset, s.nextOffset, s.store.closed))) = some (0, 1, true) ∧
      ((sampleLog ⟨0, 0, 0⟩ 1).Truncate 0).2.active ≠
        ((sampleLog ⟨0, 0, 0⟩ 1).Truncate 0).2.segments.getLast? := by
  refine ⟨by decide, by decide, by decide, by decide⟩

/-! ## Claim on the reader of the whole log -/

theorem set_map_same {α β : Type} (f : α → β) (xs : List α) (i : Nat) (s t : α)
    (hs : xs[i]? = some s) (hf : f t = f s) : (xs.set i t).map f = xs.map f := by
  apply List.ext_getElem?
  intro j
  simp only [List.getElem?_map, List.getElem?_set]
  by_cases hij : i = j
  · subst hij
    have hi : i < xs.length := by
      rcases Nat.lt_or_ge i xs.length with h | h
      · exact h
      · rw [List.getElem?_eq_none h] at hs; cases hs
    simp [hi, hs, hf]
  · simp [hij]

theorem store_ReadAt_open (s : store) (c : List Byte) (n off : Nat) (hn : 0 < n)
    (hcl : s.closed = false) (herr : s.buf.err = false) :
    s.ReadAt c n off =
      ((slice (s.logical c) off n, if off + n ≤ (s.logical c).length then none else some .eof),
        { s with buf := ⟨[], false⟩ }, s.logical c) := by
  unfold store.ReadAt
  rw [hcl, Writer_Flush_open _ _ herr]
  simp only [store.logical]
  rw [if_neg (by omega), if_neg (by simp)]
  by_cases hle : off + n ≤ (c ++ s.buf.buf).length
  · rw [if_pos hle, if_pos hle]
  · rw [if_neg hle, if_neg hle]

theorem originReader_Read_open (l : Log) (i off n : Nat) (s : segment) (hn : 0 < n)
    (hs : l.segments[i]? = some s) (hopen : StoresOpen l) :
    ∃ l1, (originReader.mk i off).Read l n =
        ((slice (s.store.logical (l.fs.content s.store.File)) off n,
          if off + n ≤ (s.store.logical (l.fs.content s.store.File)).length then none
          else some .eof),
          originReader.mk i (off + (slice (s.store.logical (l.fs.content s.store.File)) off n).length),
          l1) ∧
      StoresOpen l1 ∧ l1.storeContents = l.storeContents ∧
      l1.segments.length = l.segments.length := by
  obtain ⟨ho, hnd⟩ := hopen
  have hi : i < l.segments.length := by
    rcases Nat.lt_or_ge i l.segments.length with h | h
    · exact h
    · rw [List.getElem?_eq_none h] at hs; cases hs
  have hmem : s ∈ l.segments := List.getElem?_mem hs
  obtain ⟨hcl, herr, hino⟩ := ho s hmem
  have hfl := Writer_Flush_open s.store.buf (l.fs.content s.store.File) herr
  have hmapf : ((l.segments.set i { s with store := { s.store with buf := ⟨[], false⟩ } }).map
      (fun t => t.store.File)) = l.segments.map (fun t => t.store.File) :=
    set_map_same _ _ _ s _ hs rfl
  refine ⟨{ l with
      fs := l.fs.put s.store.File (l.fs.content s.store.File ++ s.store.buf.buf)
      segments := l.segments.set i { s with store := { s.store with buf := ⟨[], false⟩ } } },
    ?_, ⟨?_, ?_⟩, ?_, ?_⟩
  · simp only [originReader.Read, hs, store_ReadAt_open _ _ n off hn hcl herr, store.logical]
  · intro t ht
    simp only at ht ⊢
    rw [FS_put_length]
    rcases List.mem_or_eq_of_mem_set ht with h | h
    · exact ho t h
    · subst h; exact ⟨hcl, rfl, hino⟩
  · simp only
    rw [hmapf]; exact hnd
  · apply List.ext_getElem?
    intro j
    simp only [Log.storeContents, List.getElem?_map, List.getElem?_set]
    by_cases hij : i = j
    · subst hij
      simp only [if_true, hi, hs, Option.map_some', store.logical, List.append_nil]
      rw [FS_put_content_same _ _ _ hino]
    · simp only [hij, if_false]
      rcases htj : l.segments[j]? with _ | t
      · rfl
      · simp only [Option.map_some', Option.some.injEq]
        have hj : j < l.segments.length := by
          rcases Nat.lt_or_ge j l.segments.length with h | h
          · exact h
          · rw [List.getElem?_eq_none h] at htj; cases htj
        have hne : t.store.File ≠ s.store.File := by
          intro he
          obtain ⟨_, hgj⟩ := List.getElem?_eq_some.1 htj
          obtain ⟨_, hgi⟩ := List.getElem?_eq_some.1 hs
          have hj1 : j < (l.segments.map (fun t => t.store.File)).length := by simpa using hj
          have hi1 : i < (l.segments.map (fun t => t.store.File)).length := by simpa using hi
          have e : (l.segments.map (fun t => t.store.File))[j] =
              (l.segments.map (fun t => t.store.File))[i] := by
            rw [List.getElem_map, List.getElem_map, hgj, hgi]; exact he
          have := (List.Nodup.getElem_inj_iff hnd).1 e
          omega
        rw [FS_put_content_ne _ _ _ _ hne]
  · simp
theorem storeContents_get (l : Log) (i : Nat) (C : List Byte)
    (hC : l.storeContents[i]? = some C) :
    ∃ s, l.segments[i]? = some s ∧ s.store.logical (l.fs.content s.store.File) = C := by
  simp only [Log.storeContents, List.getElem?_map] at hC
  rcases hs : l.segments[i]? with _ | s
  · rw [hs] at hC; cases hC
  · rw [hs] at hC
    simp only [Option.map_some', Option.some.injEq] at hC
    exact ⟨s, rfl, hC⟩

theorem readToEnd_succ (sizes : Nat → Nat) (fuel : Nat) (rs : List originReader) (l : Log)
    (acc : List Byte) :
    readToEnd sizes (fuel + 1) rs l acc =
      match multiReaderRead (sizes 0) rs l with
      | ((bs, none), rs1, l1) => readToEnd (fun k => sizes (k + 1)) fuel rs1 l1 (acc ++ bs)
      | ((bs, some e), _, l1) => (some (acc ++ bs, if e = .eof then none else some e), l1) := rfl

theorem readToEnd_current (i : Nat) (rest : List originReader)
    (hrest : ∀ (l : Log) (acc : List Byte) (sizes : Nat → Nat), (∀ k, 0 < sizes k) →
      StoresOpen l → i + 1 + rest.length = l.segments.length →
      ∃ fuel0, ∀ fuel, fuel0 ≤ fuel → (readToEnd sizes fuel rest l acc).1 =
        some (acc ++ (l.storeContents.drop (i + 1)).flatten, none)) (C : List Byte) (k : Nat) :
    ∀ (off : Nat) (l : Log) (acc : List Byte) (sizes : Nat → Nat), (∀ k, 0 < sizes k) →
      StoresOpen l → i + 1 + rest.length = l.segments.length →
      l.storeContents[i]? = some C → C.length - off ≤ k →
      ∃ fuel0, ∀ fuel, fuel0 ≤ fuel →
        (readToEnd sizes fuel (originReader.mk i off :: rest) l acc).1 =
          some (acc ++ (C.drop off ++ (l.storeContents.drop (i + 1)).flatten), none) := by
  have hend : ∀ (off : Nat) (l : Log) (acc : List Byte) (sizes : Nat → Nat), (∀ k, 0 < sizes k) →
      StoresOpen l → i + 1 + rest.length = l.segments.length →
      l.storeContents[i]? = some C → ¬ off + sizes 0 ≤ C.length →
      ∃ fuel0, ∀ fuel, fuel0 ≤ fuel →
        (readToEnd sizes fuel (originReader.mk i off :: rest) l acc).1 =
          some (acc ++ (C.drop off ++ (l.storeContents.drop (i + 1)).flatten), none) := by
    intro off l acc sizes hpos hopen hlen hC hle
    obtain ⟨s, hs, hsC⟩ := storeContents_get l i C hC
    obtain ⟨l1, hread, hopen1, hcont1, hlen1⟩ :=
      originReader_Read_open l i off (sizes 0) s (hpos 0) hs hopen
    rw [hsC] at hread
    rw [if_neg hle] at hread
    have hsl : slice C off (sizes 0) = C.drop off := by
      unfold slice
      exact List.take_of_length_le (by simp; omega)
    rw [hsl] at hread
    obtain ⟨f0, hf0⟩ := hrest l1 acc sizes hpos hopen1 (by omega)
    obtain ⟨f1, hf1⟩ := hrest l1 (acc ++ C.drop off) (fun k => sizes (k + 1))
      (fun k => hpos (k + 1)) hopen1 (by omega)
    refine ⟨f0 + f1 + 1, ?_⟩
    intro fuel hfuel
    obtain ⟨f, rfl⟩ : ∃ f, fuel = f + 1 := ⟨fuel - 1, by omega⟩
    by_cases hbs : C.drop off = []
    · have := hf0 (f + 1) (by omega)
      rw [readToEnd_succ] at this ⊢
      simp only [multiReaderRead, hread, hbs, List.length_nil, Nat.lt_irrefl, ne_eq,
        not_true_eq_false, or_self, if_false]
      rw [this, hcont1]
      simp
    · have hposl : 0 < (C.drop off).length := List.length_pos.2 hbs
      rw [readToEnd_succ]
      simp only [multiReaderRead, hread, hposl, true_or, if_true, true_and]
      by_cases hr : 0 < rest.length
      · simp only [hr, if_true]
        rw [hf1 f (by omega), hcont1]
        simp
      · simp only [hr, if_false]
        have hdrop : l.storeContents.drop (i + 1) = [] := by
          apply List.drop_of_length_le
          simp only [Log.storeContents, List.length_map]
          omega
        simp [hdrop]
  induction k with
  | zero =>
    intro off l acc sizes hpos hopen hlen hC hk
    have := hpos 0
    exact hend off l acc sizes hpos hopen hlen hC (by omega)
  | succ k ih =>
    intro off l acc sizes hpos hopen hlen hC hk
    by_cases hle : off + sizes 0 ≤ C.length
    · obtain ⟨s, hs, hsC⟩ := storeContents_get l i C hC
      obtain ⟨l1, hread, hopen1, hcont1, hlen1⟩ :=
        originReader_Read_open l i off (sizes 0) s (hpos 0) hs hopen
      rw [hsC] at hread
      rw [if_pos hle] at hread
      have hsl : (slice C off (sizes 0)).length = sizes 0 := by
        simp [slice]; omega
      have := hpos 0
      obtain ⟨f1, hf1⟩ := ih (off + sizes 0) l1 (acc ++ slice C off (sizes 0))
        (fun k => sizes (k + 1)) (fun k => hpos (k + 1)) hopen1 (by omega)
        (by rw [hcont1]; exact hC) (by omega)
      refine ⟨f1 + 1, ?_⟩
      intro fuel hfuel
      obtain ⟨f, rfl⟩ : ∃ f, fuel = f + 1 := ⟨fuel - 1, by omega⟩
      rw [readToEnd_succ]
      simp only [multiReaderRead, hread, hsl, this, true_or, if_true, reduceCtorEq, false_and,
        if_false]
      rw [hf1 f (by omega), hcont1]
      have : slice C off (sizes 0) ++ C.drop (off + sizes 0) = C.drop off := by
        unfold slice
        rw [← List.drop_drop, List.take_append_drop]
      simp only [List.append_assoc, ← this]
    · exact hend off l acc sizes hpos hopen hlen hC hle
theorem readToEnd_rest (m : Nat) :
    ∀ (i : Nat) (l : Log) (acc : List Byte) (sizes : Nat → Nat), (∀ k, 0 < sizes k) →
      StoresOpen l → i + m = l.segments.length →
      ∃ fuel0, ∀ fuel, fuel0 ≤ fuel →
        (readToEnd sizes fuel ((List.range' i m).map (fun j => originReader.mk j 0)) l acc).1 =
          some (acc ++ (l.storeContents.drop i).flatten, none) := by
  induction m with
  | zero =>
    intro i l acc sizes _ _ hlen
    refine ⟨1, ?_⟩
    intro fuel hfuel
    obtain ⟨f, rfl⟩ : ∃ f, fuel = f + 1 := ⟨fuel - 1, by omega⟩
    have hdrop : l.storeContents.drop i = [] := by
      apply List.drop_of_length_le
      simp only [Log.storeContents, List.length_map]
      omega
    rw [hdrop]
    simp [readToEnd_succ, multiReaderRead]
  | succ m ih =>
    intro i l acc sizes hpos hopen hlen
    have hi : i < l.storeContents.length := by
      simp only [Log.storeContents, List.length_map]; omega
    have hC : l.storeContents[i]? = some l.storeContents[i] := List.getElem?_eq_getElem hi
    have hrest := fun (l : Log) (acc : List Byte) (sizes : Nat → Nat) (hp : ∀ k, 0 < sizes k)
        (ho : StoresOpen l)
        (hl : i + 1 + ((List.range' (i + 1) m).map (fun j => originReader.mk j 0)).length =
          l.segments.length) =>
      ih (i + 1) l acc sizes hp ho (by simpa using hl)
    obtain ⟨f0, hf0⟩ := readToEnd_current i _ hrest l.storeContents[i] l.storeContents[i].length
      0 l acc sizes hpos hopen (by simp; omega) hC (by omega)
    refine ⟨f0, ?_⟩
    intro fuel hfuel
    rw [List.range'_succ, List.map_cons, hf0 fuel hfuel]
    have hd : l.storeContents.drop i = l.storeContents[i] :: l.storeContents.drop (i + 1) :=
      List.drop_eq_getElem_cons hi
    rw [hd, List.flatten_cons, List.drop_zero]

/-- C13, amended. For every log whose stores are open, each on its own file, reading the
stream of `Log.Reader()` to its end, with buffers of any positive sizes, ends
without error after finitely many reads and yields the concatenation of the raw
contents of the store files, buffered bytes included, in the order of the
segment list. -/
theorem Log_Reader_contents (l : Log) (sizes : Nat → Nat) (hpos : ∀ k, 0 < sizes k)
    (hopen : StoresOpen l) :
    ∃ fuel0, ∀ fuel, fuel0 ≤ fuel →
      (readToEnd sizes fuel l.Reader l []).1 = some (l.storeContents.flatten, none) := by
  obtain ⟨f0, hf0⟩ := readToEnd_rest l.segments.length 0 l [] sizes hpos hopen (by omega)
  refine ⟨f0, ?_⟩
  intro fuel hfuel
  have := hf0 fuel hfuel
  rw [← List.range_eq_range'] at this
  simpa [Log.Reader] using this

/-- Witness of C13: the log of two segments with `MaxStoreBytes = 32` and three
records, read with buffers of 16 bytes; the stream is the three frames. -/
theorem Log_Reader_contents_witness :
    StoresOpen (sampleLog ⟨32, 0, 0⟩ 3) ∧
      (sampleLog ⟨32, 0, 0⟩ 3).storeContents.flatten =
        frames ((List.range 3).map (fun j => putUint 8 j ++ helloWorld)) ∧
      ∃ fuel0, ∀ fuel, fuel0 ≤ fuel →
        (readToEnd (fun _ => 16) fuel (sampleLog ⟨32, 0, 0⟩ 3).Reader (sampleLog ⟨32, 0, 0⟩ 3) []).1 =
          some ((sampleLog ⟨32, 0, 0⟩ 3).storeContents.flatten, none) :=
  ⟨by unfold StoresOpen; decide, by decide,
    Log_Reader_contents _ _ (fun _ => by decide) (by unfold StoresOpen; decide)⟩

/-- C13, counterexample. After `Log.Close` the store of the log with one record
still holds the 27 bytes of its frame, but reading the stream of `Log.Reader()`
ends at once with the error of a closed file and no byte.  And with
`MaxIndexBytes = 5` the three segments of the log after two appends share one
store file, the contents are 0, 27 and 27 bytes, and the stream has 81 bytes:
the first frame comes twice. -/
theorem Log_Reader_fails_closed_or_shared :
    (sampleLog ⟨0, 0, 0⟩ 1).Close.1 = .ok () ∧
      (sampleLog ⟨0, 0, 0⟩ 1).Close.2.storeContents.flatten.length = 27 ∧
      (∀ fuel, (readToEnd (fun _ => 16) (fuel + 1) (sampleLog ⟨0, 0, 0⟩ 1).Close.2.Reader
        (sampleLog ⟨0, 0, 0⟩ 1).Close.2 []).1 = some ([], some .io)) ∧
      (sampleLog ⟨0, 5, 0⟩ 2).storeContents.map List.length = [0, 27, 27] ∧
      ((readToEnd (fun _ => 512) 5 (sampleLog ⟨0, 5, 0⟩ 2).Reader
        (sampleLog ⟨0, 5, 0⟩ 2) []).1.map (fun r => (r.1.length, r.2))) = some (81, none) := by
  refine ⟨by decide, by decide, fun fuel => ?_, by decide, by decide⟩
  · rw [readToEnd_succ]
    have : multiReaderRead 16 (sampleLog ⟨0, 0, 0⟩ 1).Close.2.Reader (sampleLog ⟨0, 0, 0⟩ 1).Close.2 =
        (([], some .io), (sampleLog ⟨0, 0, 0⟩ 1).Close.2.Reader, (sampleLog ⟨0, 0, 0⟩ 1).Close.2) := by
      decide
    rw [this]
    rfl

/-! ## Segments whose offsets wrap and whose index is full -/

theorem segment_Append_X (cd : Codec) (cfg : Config) (fs : FS) (s : segment) (k b : Nat)
    (ps : List (List Byte)) (extra : List Byte) (r : Record)
    (h : SegX cfg fs s k b ps extra) (hk : 2 * k + 1 < fs.inodes.length)
    (h63 : cfg.MaxIndexBytes < 2 ^ 63) :
    (cd.Marshal { r with Offset := (b + ps.length) % 2 ^ 64 } = none →
        s.Append cd fs r = (.error .codec, s, fs)) ∧
      ∀ p, cd.Marshal { r with Offset := (b + ps.length) % 2 ^ 64 } = some p →
        ∃ s1 fs1, fs1.present = fs.present ∧ fs1.names = fs.names ∧
          fs1.inodes.length = fs.inodes.length ∧
          (∀ j, j ≠ 2 * k → j ≠ 2 * k + 1 → fs1.content j = fs.content j) ∧
          ((12 * ps.length + 12 ≤ cfg.MaxIndexBytes →
              s.Append cd fs r = (.ok ((b + ps.length) % 2 ^ 64), s1, fs1) ∧
              SegX cfg fs1 s1 k b (ps ++ [p]) []) ∧
            (cfg.MaxIndexBytes < 12 * ps.length + 12 →
              s.Append cd fs r = (.error .eof, s1, fs1) ∧
              SegX cfg fs1 s1 k b ps (extra ++ frame p))) := by
  obtain ⟨hb, hn, hc, hsf, hsc, hse, hsl, hss, hif, hic, him, hrep, hex⟩ := h
  constructor
  · intro hm
    exact segment_Append_none cd s fs r (by rw [hn]; exact hm)
  intro p hm
  obtain ⟨st, c, hsa⟩ := store_Append_open s.store (fs.content s.store.File) p hsc hse
  obtain ⟨_, _, hst_size, hst_log, hst_closed, hst_err, hst_file⟩ :=
    store_Append_ok _ _ _ _ _ _ _ hsa
  rw [hsf] at hsa hst_log
  have hsize : s.index.size = 12 * ps.length := by
    rw [hrep.1, entriesOf_length]
  have hle : s.index.size ≤ s.index.mmapLen := hrep.2.1
  have hlen : ps.length < 2 ^ 64 := by omega
  have hrel : (((b + ps.length) % 2 ^ 64 + 2 ^ 64 - b % 2 ^ 64) % 2 ^ 64) % 2 ^ 32 =
      ps.length % 2 ^ 32 := by
    have : ((b + ps.length) % 2 ^ 64 + 2 ^ 64 - b % 2 ^ 64) % 2 ^ 64 = ps.length := by omega
    rw [this]
  have hc0 : (fs.put (2 * k) c).content (2 * k + 1) = fs.content (2 * k + 1) :=
    FS_put_content_ne fs _ _ c (by omega)
  have hk0 : 2 * k < fs.inodes.length := by omega
  have hlog1 : st.logical c = frames ps ++ extra ++ frame p := by
    rw [hst_log, hsl, putUint8_mod]; rfl
  have hsize1 : st.size = (frames ps ++ extra ++ frame p).length % 2 ^ 64 := by
    rw [hst_size, hss]
    simp only [List.length_append, frame_length]
    omega
  by_cases hroom : 12 * ps.length + 12 ≤ cfg.MaxIndexBytes
  · have hex0 : extra = [] := by
      by_contra hne
      have := hex hne
      omega
    subst hex0
    obtain ⟨i1, c1, hiw, hrep1, hi1f, hi1c, hi1m⟩ :=
      index_Write_rep s.index (fs.content (2 * k + 1)) (entriesOf ps) (ps.length % 2 ^ 32)
        s.store.size hrep (by rw [hsize, him]; omega)
    have hstep : s.Append cd fs r = (.ok ((b + ps.length) % 2 ^ 64),
        { s with store := st, index := i1, nextOffset := (b + ps.length + 1) % 2 ^ 64 },
        (fs.put (2 * k) c).put (2 * k + 1) c1) := by
      unfold segment.Append
      simp only [hn, hb, hm, hsf, hsa, hif, hrel, hc0, hiw]
      have : ((b + ps.length) % 2 ^ 64 + 1) % 2 ^ 64 = (b + ps.length + 1) % 2 ^ 64 := by omega
      rw [this]
    refine ⟨{ s with store := st, index := i1, nextOffset := (b + ps.length + 1) % 2 ^ 64 },
      (fs.put (2 * k) c).put (2 * k + 1) c1, rfl, rfl, by simp [FS.put], ?_,
      fun _ => ⟨hstep, ?_⟩, fun hfull => absurd hroom (by omega)⟩
    · intro j h0 h1
      rw [FS_put_content_ne _ _ _ _ h1, FS_put_content_ne _ _ _ _ h0]
    · have hcs : ((fs.put (2 * k) c).put (2 * k + 1) c1).content (2 * k) = c := by
        rw [FS_put_content_ne _ _ _ _ (by omega), FS_put_content_same _ _ _ hk0]
      have hci : ((fs.put (2 * k) c).put (2 * k + 1) c1).content (2 * k + 1) = c1 :=
        FS_put_content_same _ _ _ (by rw [FS_put_length]; exact hk)
      have hfr : frames (ps ++ [p]) = frames ps ++ frame p := by
        rw [frames_append]; simp [frames]
      refine ⟨hb, ?_, hc, hst_file.trans hsf, hst_closed.trans hsc, hst_err, ?_, ?_,
        hi1f.trans hif, hi1c.trans hic, hi1m.trans him, ?_, fun hne => absurd rfl hne⟩
      · simp only [List.length_append, List.length_singleton, Nat.add_assoc]
      · rw [hcs, hlog1, hfr]; simp
      · rw [hsize1, hfr]; simp
      · rw [hci, entriesOf_snoc]
        simp only [List.append_nil] at hss
        rw [← hss]
        exact hrep1
  · have hiw := index_Write_full s.index (fs.content (2 * k + 1)) (ps.length % 2 ^ 32)
      s.store.size (by rw [him]; exact h63) hle (by rw [hsize, him]; omega)
    have hstep : s.Append cd fs r = (.error .eof, { s with store := st },
        (fs.put (2 * k) c).put (2 * k + 1) (fs.content (2 * k + 1))) := by
      unfold segment.Append
      simp only [hn, hb, hm, hsf, hsa, hif, hrel, hc0, hiw]
    refine ⟨{ s with store := st },
      (fs.put (2 * k) c).put (2 * k + 1) (fs.content (2 * k + 1)), rfl, rfl,
      by simp [FS.put], ?_, fun h1 => absurd h1 hroom, fun _ => ⟨hstep, ?_⟩⟩
    · intro j h0 h1
      rw [FS_put_content_ne _ _ _ _ h1, FS_put_content_ne _ _ _ _ h0]
    · have hcs : ((fs.put (2 * k) c).put (2 * k + 1) (fs.content (2 * k + 1))).content (2 * k) =
          c := by
        rw [FS_put_content_ne _ _ _ _ (by omega), FS_put_content_same _ _ _ hk0]
      have hci : ((fs.put (2 * k) c).put (2 * k + 1) (fs.content (2 * k + 1))).content
          (2 * k + 1) = fs.content (2 * k + 1) := by
        rw [FS_put_content_same _ _ _ (by rw [FS_put_length]; exact hk)]
      refine ⟨hb, hn, hc, hst_file.trans hsf, hst_closed.trans hsc, hst_err, ?_, ?_,
        hif, hic, him, ?_, fun _ => by omega⟩
      · rw [hcs, hlog1, List.append_assoc]
      · rw [hsize1, List.append_assoc]
      · rw [hci]; exact hrep

theorem SegX_fresh (cfg : Config) (fs : FS) (k b : Nat) (hn : fs.inodes.length = 2 * k)
    (h63 : cfg.MaxIndexBytes < 2 ^ 63) :
    SegX cfg (fs.withFresh (b % 2 ^ 64) cfg) (freshSegment (2 * k) (b % 2 ^ 64) cfg) k b [] [] := by
  have hs := withFresh_content_store fs (b % 2 ^ 64) cfg
  have hi := withFresh_content_index fs (b % 2 ^ 64) cfg
  rw [hn] at hs hi
  refine ⟨rfl, rfl, rfl, rfl, rfl, rfl, ?_, rfl, rfl, rfl, rfl, ?_, fun h => absurd rfl h⟩
  · rw [hs]; rfl
  · rw [hi]
    refine ⟨rfl, Nat.zero_le _, ?_, h63, resize [] cfg.MaxIndexBytes, rfl⟩
    simp [resize, freshSegment]

theorem segment_appendAll_cons (cd : Codec) (s : segment) (fs : FS) (r : Record)
    (rs : List Record) :
    segment.appendAll cd s fs (r :: rs) =
      ((s.Append cd fs r).1 ::
          (segment.appendAll cd (s.Append cd fs r).2.1 (s.Append cd fs r).2.2 rs).1,
        (segment.appendAll cd (s.Append cd fs r).2.1 (s.Append cd fs r).2.2 rs).2) := rfl

theorem segment_appendAll_X (cd : Codec) (cfg : Config) (k b : Nat)
    (h63 : cfg.MaxIndexBytes < 2 ^ 63) (rs : List Record) :
    ∀ (s : segment) (fs : FS) (ps : List (List Byte)) (extra : List Byte),
      SegX cfg fs s k b ps extra → 2 * k + 1 < fs.inodes.length →
      ∃ extra1,
        SegX cfg (segment.appendAll cd s fs rs).2.2 (segment.appendAll cd s fs rs).2.1 k b
          (ps ++ okPayloads cd (segment.appendAll cd s fs rs).1 rs) extra1 ∧
        (okValues (segment.appendAll cd s fs rs).1).length =
          (okPayloads cd (segment.appendAll cd s fs rs).1 rs).length ∧
        (∀ i (hi : i < (okPayloads cd (segment.appendAll cd s fs rs).1 rs).length),
          ∃ r ∈ rs, cd.Marshal { r with Offset := (b + ps.length + i) % 2 ^ 64 } =
            some (okPayloads cd (segment.appendAll cd s fs rs).1 rs)[i]) ∧
        ((∀ r ∈ rs, ∀ o, cd.Marshal { r with Offset := o } ≠ none) →
          12 * (ps.length + rs.length) ≤ cfg.MaxIndexBytes →
          (okPayloads cd (segment.appendAll cd s fs rs).1 rs).length = rs.length) := by
  induction rs with
  | nil =>
    intro s fs ps extra h _
    refine ⟨extra, ?_, rfl, ?_, fun _ _ => rfl⟩
    · simpa [segment.appendAll, okPayloads] using h
    · intro i hi; simp [segment.appendAll, okPayloads] at hi
  | cons r rs ih =>
    intro s fs ps extra h hk
    obtain ⟨hnone, hsome⟩ := segment_Append_X cd cfg fs s k b ps extra r h hk h63
    rw [segment_appendAll_cons]
    cases hm : cd.Marshal { r with Offset := (b + ps.length) % 2 ^ 64 } with
    | none =>
      have hstep := hnone hm
      simp only [hstep, okPayloads, okValues]
      obtain ⟨extra1, g1, g2, g3, g4⟩ := ih s fs ps extra h hk
      refine ⟨extra1, g1, g2, ?_, ?_⟩
      · intro i hi
        obtain ⟨r1, hr1, hm1⟩ := g3 i hi
        exact ⟨r1, List.mem_cons_of_mem _ hr1, hm1⟩
      · intro htot _
        exact absurd hm (htot r (List.mem_cons_self _ _) _)
    | some p =>
      obtain ⟨s1, fs1, hp1, hn1, hi1, hfr, hok, hfull⟩ := hsome p hm
      by_cases hroom : 12 * ps.length + 12 ≤ cfg.MaxIndexBytes
      · obtain ⟨hstep, hseg⟩ := hok hroom
        simp only [hstep, okPayloads, okValues, hm]
        obtain ⟨extra1, g1, g2, g3, g4⟩ := ih s1 fs1 (ps ++ [p]) [] hseg (by omega)
        refine ⟨extra1, ?_, ?_, ?_, ?_⟩
        · simpa using g1
        · simp only [List.length_cons, g2]
        · intro i hi
          cases i with
          | zero => exact ⟨r, List.mem_cons_self _ _, by simpa using hm⟩
          | succ i =>
            simp only [List.length_cons, Nat.add_lt_add_iff_right] at hi
            obtain ⟨r1, hr1, hm1⟩ := g3 i hi
            refine ⟨r1, List.mem_cons_of_mem _ hr1, ?_⟩
            simp only [List.length_append, List.length_singleton] at hm1
            simp only [List.getElem_cons_succ]
            rw [← hm1]
            congr 3
            omega
        · intro htot hall
          simp only [List.length_cons]
          rw [g4 (fun r1 hr1 => htot r1 (List.mem_cons_of_mem _ hr1))
            (by simp only [List.length_append, List.length_cons, List.length_nil] at hall ⊢
                omega)]
      · obtain ⟨hstep, hseg⟩ := hfull (by omega)
        simp only [hstep, okPayloads, okValues]
        obtain ⟨extra1, g1, g2, g3, g4⟩ := ih s1 fs1 ps (extra ++ frame p) hseg (by omega)
        refine ⟨extra1, g1, g2, ?_, ?_⟩
        · intro i hi
          obtain ⟨r1, hr1, hm1⟩ := g3 i hi
          exact ⟨r1, List.mem_cons_of_mem _ hr1, hm1⟩
        · intro _ hall
          simp only [List.length_cons] at hall
          omega

theorem newSegment_empty_ok (b : Nat) (cfg : Config) (s0 : segment) (fs0 : FS)
    (h : newSegment FS.empty b cfg = (.ok s0, fs0)) :
    cfg.MaxIndexBytes ≠ 0 ∧ cfg.MaxIndexBytes < 2 ^ 63 ∧ s0 = freshSegment 0 b cfg ∧
      fs0 = FS.empty.withFresh b cfg := by
  by_cases h63 : cfg.MaxIndexBytes < 2 ^ 63
  · by_cases h0 : cfg.MaxIndexBytes = 0
    · exfalso
      simp [newSegment, FS.OpenFile, FS.lookup, FS.empty, FS.content, newIndex, h0] at h
    · have := newSegment_fresh FS.empty b cfg rfl rfl rfl h0 h63
      rw [this] at h
      simp only [Prod.mk.injEq, Except.ok.injEq] at h
      exact ⟨h0, h63, h.1.symm, h.2.symm⟩
  · exfalso
    have h63' : 9223372036854775808 ≤ cfg.MaxIndexBytes := by omega
    simp [newSegment, FS.OpenFile, FS.lookup, FS.empty, FS.content, newIndex, h63'] at h

theorem segment_Read_X (cd : Codec) (cfg : Config) (fs : FS) (s : segment) (k b : Nat)
    (ps : List (List Byte)) (extra : List Byte) (off j : Nat)
    (h : SegX cfg fs s k b ps extra) (hj : j < ps.length)
    (hrel : (off + 2 ^ 64 - b % 2 ^ 64) % 2 ^ 64 < 2 ^ 63)
    (hrank : ((off + 2 ^ 64 - b % 2 ^ 64) % 2 ^ 64) % 2 ^ 32 = j)
    (hsz : (frames (ps.take j)).length + 8 + ps[j].length < 2 ^ 63) :
    (s.Read cd fs off).1 =
      match cd.Unmarshal ps[j] with
      | none => .error .codec
      | some rec => .ok rec := by
  obtain ⟨hb, hn, hc, hsf, hsc, hse, hsl, hss, hif, hic, him, hrep, hex⟩ := h
  have hje : j < (entriesOf ps).length := by rw [entriesOf_length]; exact hj
  have hsplit := frames_split ps j hj
  have hget : (entriesOf ps)[j] = (j, (frames (ps.take j)).length) := by
    rw [entriesOf_get]
    congr 1
    · exact Nat.mod_eq_of_lt (by omega)
    · exact Nat.mod_eq_of_lt (by omega)
  have hir : s.index.Read (fs.content (2 * k + 1))
      (((off + 2 ^ 64 - b % 2 ^ 64) % 2 ^ 64 : Nat) : Int) =
        .ok (j, (frames (ps.take j)).length) := by
    rw [← hget]
    apply index_Read_out _ _ _ _ j hrep _ hje
    · rw [hget]; simp only; omega
    · rw [hget]; simp only; omega
    · rw [if_neg (by omega)]
      omega
  have hsr := store_Read_frame s.store (fs.content (2 * k)) ps[j] (frames (ps.take j))
    (frames (ps.drop (j + 1)) ++ extra) (frames (ps.take j)).length hsc hse
    (by rw [hsl, hsplit, List.append_assoc]) rfl (by omega)
  unfold segment.Read
  simp only [hb, hif, hsf]
  rw [if_neg (by omega), hir]
  simp only [hsr]
  cases cd.Unmarshal ps[j] <;> rfl

theorem segment_run_fresh (cd : Codec) (cfg : Config) (b : Nat) (rs : List Record)
    (s0 : segment) (fs0 : FS) (hnew : newSegment FS.empty b cfg = (.ok s0, fs0))
    (hb : b < 2 ^ 64) :
    cfg.MaxIndexBytes < 2 ^ 63 ∧
    ∃ extra,
      SegX cfg (segment.appendAll cd s0 fs0 rs).2.2 (segment.appendAll cd s0 fs0 rs).2.1 0 b
        (okPayloads cd (segment.appendAll cd s0 fs0 rs).1 rs) extra ∧
      (okValues (segment.appendAll cd s0 fs0 rs).1).length =
        (okPayloads cd (segment.appendAll cd s0 fs0 rs).1 rs).length ∧
      (∀ i (hi : i < (okPayloads cd (segment.appendAll cd s0 fs0 rs).1 rs).length),
        ∃ r ∈ rs, cd.Marshal { r with Offset := (b + i) % 2 ^ 64 } =
          some (okPayloads cd (segment.appendAll cd s0 fs0 rs).1 rs)[i]) ∧
      ((∀ r ∈ rs, ∀ o, cd.Marshal { r with Offset := o } ≠ none) →
        12 * rs.length ≤ cfg.MaxIndexBytes →
        (okPayloads cd (segment.appendAll cd s0 fs0 rs).1 rs).length = rs.length) := by
  obtain ⟨h0, h63, hs0, hfs0⟩ := newSegment_empty_ok b cfg s0 fs0 hnew
  subst hs0 hfs0
  have hfresh := SegX_fresh cfg FS.empty 0 b rfl h63
  rw [Nat.mod_eq_of_lt hb, Nat.mul_zero] at hfresh
  obtain ⟨extra, g1, g2, g3, g4⟩ := segment_appendAll_X cd cfg 0 b h63 rs _ _ [] [] hfresh
    (by simp [FS.withFresh, FS.empty])
  refine ⟨h63, extra, by simpa using g1, g2, ?_, ?_⟩
  · intro i hi
    simpa using g3 i hi
  · intro htot hall
    exact g4 htot (by simpa using hall)

/-- C20, amended. A segment is made by `newSegment` in an empty directory, with
`MaxIndexBytes` at most `12 * 2 ^ 32`, then modified by any run of
`segment.Append`, whether the calls succeed or fail.  Then `index.size` is a
multiple of 12 and does not exceed the mapped length, `index.size / 12` is
`nextOffset - baseOffset` (as `uint64`) and the number of calls that succeeded,
and for every rank `i` below it `index.Read(i)` returns the relative offset `i`
with the position at which the frame of the `i`-th record appended with success
starts in the store. -/
theorem segment_index_entries (cd : Codec) (cfg : Config) (b : Nat) (rs : List Record)
    (s0 : segment) (fs0 : FS) (hnew : newSegment FS.empty b cfg = (.ok s0, fs0))
    (hb : b < 2 ^ 64) (h32 : cfg.MaxIndexBytes ≤ 12 * 2 ^ 32) :
    (segment.appendAll cd s0 fs0 rs).2.1.index.size % 12 = 0 ∧
      (segment.appendAll cd s0 fs0 rs).2.1.index.size ≤
        (segment.appendAll cd s0 fs0 rs).2.1.index.mmapLen ∧
      (segment.appendAll cd s0 fs0 rs).2.1.index.size / 12 =
        ((segment.appendAll cd s0 fs0 rs).2.1.nextOffset + 2 ^ 64 -
          (segment.appendAll cd s0 fs0 rs).2.1.baseOffset) % 2 ^ 64 ∧
      (segment.appendAll cd s0 fs0 rs).2.1.index.size / 12 =
        (okValues (segment.appendAll cd s0 fs0 rs).1).length ∧
      (segment.appendAll cd s0 fs0 rs).2.1.index.size / 12 =
        (okPayloads cd (segment.appendAll cd s0 fs0 rs).1 rs).length ∧
      ∀ i (hi : i < (okPayloads cd (segment.appendAll cd s0 fs0 rs).1 rs).length),
        ∃ pos pre post,
          (segment.appendAll cd s0 fs0 rs).2.1.index.Read
            ((segment.appendAll cd s0 fs0 rs).2.2.content
              (segment.appendAll cd s0 fs0 rs).2.1.index.file) (i : Int) = .ok (i, pos) ∧
          (segment.appendAll cd s0 fs0 rs).2.1.store.logical
            ((segment.appendAll cd s0 fs0 rs).2.2.content
              (segment.appendAll cd s0 fs0 rs).2.1.store.File) =
            pre ++ frame (okPayloads cd (segment.appendAll cd s0 fs0 rs).1 rs)[i] ++ post ∧
          pos = pre.length % 2 ^ 64 := by
  obtain ⟨h63, extra, hseg, hcount, _, _⟩ := segment_run_fresh cd cfg b rs s0 fs0 hnew hb
  obtain ⟨hbo, hn, hc, hsf, hsc, hse, hsl, hss, hif, hic, him, hrep, hex⟩ := hseg
  have hsize := hrep.1
  rw [entriesOf_length] at hsize
  have hle := hrep.2.1
  rw [him] at hle
  refine ⟨by omega, hrep.2.1, by omega, by omega, by omega, ?_⟩
  intro i hi
  have hje : i < (entriesOf (okPayloads cd (segment.appendAll cd s0 fs0 rs).1 rs)).length := by
    rw [entriesOf_length]; exact hi
  have hget := entriesOf_get _ i hje
  have hi32 : i % 2 ^ 32 = i := Nat.mod_eq_of_lt (by omega)
  rw [hi32] at hget
  refine ⟨_, frames ((okPayloads cd (segment.appendAll cd s0 fs0 rs).1 rs).take i),
    frames ((okPayloads cd (segment.appendAll cd s0 fs0 rs).1 rs).drop (i + 1)) ++ extra,
    ?_, ?_, rfl⟩
  · rw [hif, ← hget]
    apply index_Read_nth _ _ _ i hrep hje (by omega)
    · rw [hget]; simp only; omega
    · rw [hget]; simp only; omega
  · rw [hsf, hsl, frames_split _ i hi, List.append_assoc]

/-- Witness of C20: an index of 24 bytes and three appends, of which the third finds
the index full. -/
theorem segment_index_entries_witness :
    (segment.appendAll fixedCodec (freshSegment 0 0 ⟨1024, 24, 0⟩)
        (FS.empty.withFresh 0 ⟨1024, 24, 0⟩) (List.replicate 3 ⟨helloWorld, 0⟩)).1 =
        [.ok 0, .ok 1, .error .eof] ∧
      (segment.appendAll fixedCodec (freshSegment 0 0 ⟨1024, 24, 0⟩)
        (FS.empty.withFresh 0 ⟨1024, 24, 0⟩)
        (List.replicate 3 ⟨helloWorld, 0⟩)).2.1.index.size / 12 =
        (okValues (segment.appendAll fixedCodec (freshSegment 0 0 ⟨1024, 24, 0⟩)
          (FS.empty.withFresh 0 ⟨1024, 24, 0⟩) (List.replicate 3 ⟨helloWorld, 0⟩)).1).length :=
  ⟨by decide,
    (segment_index_entries fixedCodec ⟨1024, 24, 0⟩ 0 (List.replicate 3 ⟨helloWorld, 0⟩)
      (freshSegment 0 0 ⟨1024, 24, 0⟩) (FS.empty.withFresh 0 ⟨1024, 24, 0⟩) (by decide)
      (by decide) (by decide)).2.2.2.1⟩

theorem segment_wide_general (cfg : Config) (rs : List Record)
    (hM : cfg.MaxIndexBytes = 12 * (2 ^ 32 + 1)) (hlen : rs.length = 2 ^ 32 + 1)
    (hval : ∀ r ∈ rs, r.Value = []) :
    (okValues (segment.appendAll fixedCodec (freshSegment 0 0 cfg)
        (FS.empty.withFresh 0 cfg) rs).1).length = 2 ^ 32 + 1 ∧
      (segment.appendAll fixedCodec (freshSegment 0 0 cfg)
        (FS.empty.withFresh 0 cfg) rs).2.1.index.size / 12 = 2 ^ 32 + 1 ∧
      (segment.appendAll fixedCodec (freshSegment 0 0 cfg)
        (FS.empty.withFresh 0 cfg) rs).2.1.baseOffset = 0 ∧
      (segment.appendAll fixedCodec (freshSegment 0 0 cfg)
        (FS.empty.withFresh 0 cfg) rs).2.1.nextOffset = 2 ^ 32 + 1 ∧
      getUint (slice ((segment.appendAll fixedCodec (freshSegment 0 0 cfg)
          (FS.empty.withFresh 0 cfg) rs).2.2.content
        (segment.appendAll fixedCodec (freshSegment 0 0 cfg)
          (FS.empty.withFresh 0 cfg) rs).2.1.index.file) (12 * 2 ^ 32) 4) = 0 ∧
      ((segment.appendAll fixedCodec (freshSegment 0 0 cfg)
          (FS.empty.withFresh 0 cfg) rs).2.1.Read fixedCodec
        (segment.appendAll fixedCodec (freshSegment 0 0 cfg)
          (FS.empty.withFresh 0 cfg) rs).2.2 (2 ^ 32)).1 = .ok ⟨[], 0⟩ := by
  have hnew : newSegment FS.empty 0 cfg =
      (.ok (freshSegment 0 0 cfg), FS.empty.withFresh 0 cfg) :=
    newSegment_fresh FS.empty 0 cfg rfl rfl rfl (by omega) (by omega)
  obtain ⟨h63, extra, hseg, hcount, hlink, htot⟩ :=
    segment_run_fresh fixedCodec cfg 0 rs _ _ hnew (by omega)
  have hps := htot (fun r _ o => by simp [fixedCodec]) (by omega)
  generalize hrun : segment.appendAll fixedCodec (freshSegment 0 0 cfg)
    (FS.empty.withFresh 0 cfg) rs = run at hseg hcount hlink hps ⊢
  generalize hpsd : okPayloads fixedCodec run.1 rs = ps at hseg hcount hlink hps
  have hseg0 := hseg
  obtain ⟨hbo, hn, hc, hsf, hsc, hse, hsl, hss, hif, hic, him, hrep, hex⟩ := hseg
  have hsize := hrep.1
  rw [entriesOf_length] at hsize
  have hj : 2 ^ 32 < (entriesOf ps).length := by rw [entriesOf_length]; omega
  have h0 : 0 < ps.length := by omega
  obtain ⟨r0, hr0, hm0⟩ := hlink 0 h0
  have hp0 : ps[0] = putUint 8 0 ++ [] := by
    simp only [fixedCodec, Option.some.injEq, hval r0 hr0] at hm0
    rw [← hm0]; rfl
  refine ⟨by omega, by omega, by rw [hbo]; rfl, by rw [hn]; omega, ?_, ?_⟩
  · obtain ⟨_, _, _, _, rest, hcnt⟩ := hrep
    rw [hif, hcnt, entries_split _ _ hj, entriesOf_get _ _ hj]
    have hx : slice (entries ((entriesOf ps).take (2 ^ 32)) ++
        entry (2 ^ 32 % 2 ^ 32, (frames (ps.take (2 ^ 32))).length % 2 ^ 64) ++
        entries ((entriesOf ps).drop (2 ^ 32 + 1)) ++ rest) (12 * 2 ^ 32) 4 = putUint 4 0 := by
      apply slice_of_eq _ (entries ((entriesOf ps).take (2 ^ 32))) (putUint 4 0)
        (putUint 8 ((frames (ps.take (2 ^ 32))).length % 2 ^ 64) ++
          (entries ((entriesOf ps).drop (2 ^ 32 + 1)) ++ rest))
      · simp only [entry, List.append_assoc]
        rfl
      · rw [entries_length, List.length_take]
        omega
      · exact putUint_length _ _
    rw [hx, getUint_putUint4 0 (by omega)]
  · have hread := segment_Read_X fixedCodec cfg run.2.2 run.2.1 0 0 ps extra (2 ^ 32) 0 hseg0 h0
      (by omega) (by omega)
      (by rw [hp0]; simp [frames, putUint_length])
    rw [hread, hp0]
    rfl

/-- C20, counterexample. With `MaxIndexBytes = 12 * (2 ^ 32 + 1)`, `2 ^ 32 + 1` records
are appended with success to a segment made in an empty directory; the index
then holds `2 ^ 32 + 1` entries and the entry of rank `2 ^ 32` holds the relative
offset 0, not `2 ^ 32`. -/
theorem segment_entry_offset_wraps :
    ∃ run, wideSegment = run ∧ (okValues run.1).length = 2 ^ 32 + 1 ∧
      run.2.1.index.size / 12 = 2 ^ 32 + 1 ∧
      getUint (slice (run.2.2.content run.2.1.index.file) (12 * 2 ^ 32) 4) = 0 := by
  have h := segment_wide_general ⟨1024, 12 * (2 ^ 32 + 1), 0⟩ (List.replicate (2 ^ 32 + 1) ⟨[], 0⟩)
    rfl (List.length_replicate _ _) (fun r hr => by rw [List.eq_of_mem_replicate hr])
  exact ⟨_, wideSegment.eq_1, h.1, h.2.1, h.2.2.2.2.1⟩

/-! ## Claim on the offsets of the records of a segment -/

/-- C18, counterexample. A segment made at the base offset `2 ^ 64 - 1` gives that
offset to the first record and then has `nextOffset = 0`: the offset of the
stored record is not below `nextOffset`.  And with
`MaxIndexBytes = 12 * (2 ^ 32 + 1)`, after `2 ^ 32 + 1` successful appends to a
segment of base offset 0, whose `nextOffset` is `2 ^ 32 + 1`, reading the offset
`2 ^ 32` returns the record of offset 0: the rank does not fit in `uint32`. -/
theorem segment_offsets_lose_information :
    (segment.appendAll fixedCodec (freshSegment 0 (2 ^ 64 - 1) ⟨1024, 1024, 0⟩)
        (FS.empty.withFresh (2 ^ 64 - 1) ⟨1024, 1024, 0⟩) [⟨helloWorld, 0⟩]).1 =
        [.ok (2 ^ 64 - 1)] ∧
      (segment.appendAll fixedCodec (freshSegment 0 (2 ^ 64 - 1) ⟨1024, 1024, 0⟩)
        (FS.empty.withFresh (2 ^ 64 - 1) ⟨1024, 1024, 0⟩) [⟨helloWorld, 0⟩]).2.1.baseOffset =
        2 ^ 64 - 1 ∧
      (segment.appendAll fixedCodec (freshSegment 0 (2 ^ 64 - 1) ⟨1024, 1024, 0⟩)
        (FS.empty.withFresh (2 ^ 64 - 1) ⟨1024, 1024, 0⟩) [⟨helloWorld, 0⟩]).2.1.nextOffset = 0 ∧
      ∃ run, wideSegment = run ∧ (okValues run.1).length = 2 ^ 32 + 1 ∧
        run.2.1.baseOffset = 0 ∧ run.2.1.nextOffset = 2 ^ 32 + 1 ∧
        (run.2.1.Read fixedCodec run.2.2 (2 ^ 32)).1 = .ok ⟨[], 0⟩ := by
  have h := segment_wide_general ⟨1024, 12 * (2 ^ 32 + 1), 0⟩ (List.replicate (2 ^ 32 + 1) ⟨[], 0⟩)
    rfl (List.length_replicate _ _) (fun r hr => by rw [List.eq_of_mem_replicate hr])
  exact ⟨by decide, by decide, by decide, _, wideSegment.eq_1, h.1, h.2.2.1, h.2.2.2.1,
    h.2.2.2.2.2⟩

/-- C18, amended. A segment is made by `newSegment` in an empty directory, with
`MaxIndexBytes` at most `12 * 2 ^ 32`, then modified by any run of
`segment.Append`; the offsets given stay below `2 ^ 64` and the store file is
shorter than `2 ^ 63` bytes.  Then `nextOffset - baseOffset` is the number of
stored records and is at most `2 ^ 32`, and the record stored at each rank `i`
below it is read back at the offset `baseOffset + i`, carries that offset, which
lies in `[baseOffset, nextOffset)`, and its relative offset is below `2 ^ 32`. -/
theorem segment_offsets_in_range (cd : Codec) (cfg : Config) (b : Nat) (rs : List Record)
    (s0 : segment) (fs0 : FS) (hnew : newSegment FS.empty b cfg = (.ok s0, fs0))
    (hoff : b + (okValues (segment.appendAll cd s0 fs0 rs).1).length < 2 ^ 64)
    (h32 : cfg.MaxIndexBytes ≤ 12 * 2 ^ 32)
    (hsz : ((segment.appendAll cd s0 fs0 rs).2.1.store.logical
      ((segment.appendAll cd s0 fs0 rs).2.2.content
        (segment.appendAll cd s0 fs0 rs).2.1.store.File)).length < 2 ^ 63)
    (hrt : ∀ r p, r.Offset < 2 ^ 64 → cd.Marshal r = some p → cd.Unmarshal p = some r) :
    (segment.appendAll cd s0 fs0 rs).2.1.baseOffset ≤
        (segment.appendAll cd s0 fs0 rs).2.1.nextOffset ∧
      (segment.appendAll cd s0 fs0 rs).2.1.nextOffset -
        (segment.appendAll cd s0 fs0 rs).2.1.baseOffset ≤ 2 ^ 32 ∧
      (segment.appendAll cd s0 fs0 rs).2.1.index.size =
        12 * ((segment.appendAll cd s0 fs0 rs).2.1.nextOffset -
          (segment.appendAll cd s0 fs0 rs).2.1.baseOffset) ∧
      ∀ i, i < (segment.appendAll cd s0 fs0 rs).2.1.nextOffset -
          (segment.appendAll cd s0 fs0 rs).2.1.baseOffset →
        ∃ r, ((segment.appendAll cd s0 fs0 rs).2.1.Read cd (segment.appendAll cd s0 fs0 rs).2.2
            ((segment.appendAll cd s0 fs0 rs).2.1.baseOffset + i)).1 = .ok r ∧
          r.Offset = (segment.appendAll cd s0 fs0 rs).2.1.baseOffset + i ∧
          (segment.appendAll cd s0 fs0 rs).2.1.baseOffset ≤ r.Offset ∧
          r.Offset < (segment.appendAll cd s0 fs0 rs).2.1.nextOffset ∧
          r.Offset - (segment.appendAll cd s0 fs0 rs).2.1.baseOffset < 2 ^ 32 := by
  obtain ⟨h63, extra, hseg, hcount, hlink, _⟩ := segment_run_fresh cd cfg b rs s0 fs0 hnew
    (by omega)
  generalize segment.appendAll cd s0 fs0 rs = run at hoff hsz hseg hcount hlink ⊢
  generalize okPayloads cd run.1 rs = ps at hseg hcount hlink
  have hseg0 := hseg
  obtain ⟨hbo, hn, hc, hsf, hsc, hse, hsl, hss, hif, hic, him, hrep, hex⟩ := hseg
  have hsize := hrep.1
  rw [entriesOf_length] at hsize
  have hle := hrep.2.1
  rw [him] at hle
  have hb0 : b % 2 ^ 64 = b := Nat.mod_eq_of_lt (by omega)
  have hn0 : (b + ps.length) % 2 ^ 64 = b + ps.length := Nat.mod_eq_of_lt (by omega)
  rw [hb0] at hbo
  rw [hn0] at hn
  rw [hsf, hsl, List.length_append] at hsz
  refine ⟨by omega, by omega, by omega, ?_⟩
  intro i hi
  have hip : i < ps.length := by omega
  obtain ⟨r, hr, hm⟩ := hlink i hip
  have hbi : (b + i) % 2 ^ 64 = b + i := Nat.mod_eq_of_lt (by omega)
  rw [hbi] at hm
  have hsplit := congrArg List.length (frames_split ps i hip)
  simp only [List.length_append, frame_length] at hsplit
  have hread := segment_Read_X cd cfg run.2.2 run.2.1 0 b ps extra (b + i) i hseg0 hip
    (by omega) (by omega) (by omega)
  rw [hrt _ _ (by simp only; omega) hm] at hread
  refine ⟨{ r with Offset := b + i }, by rw [hbo]; exact hread, by rw [hbo], ?_, ?_, ?_⟩
  · simp only; omega
  · simp only; omega
  · simp only; omega

/-- Witness of C18: a segment at the base offset 5 with an index of 24 bytes and
three appends. -/
theorem segment_offsets_in_range_witness :
    (segment.appendAll fixedCodec (freshSegment 0 5 ⟨1024, 24, 0⟩)
        (FS.empty.withFresh 5 ⟨1024, 24, 0⟩) (List.replicate 3 ⟨helloWorld, 0⟩)).2.1.baseOffset ≤
      (segment.appendAll fixedCodec (freshSegment 0 5 ⟨1024, 24, 0⟩)
        (FS.empty.withFresh 5 ⟨1024, 24, 0⟩) (List.replicate 3 ⟨helloWorld, 0⟩)).2.1.nextOffset :=
  (segment_offsets_in_range fixedCodec ⟨1024, 24, 0⟩ 5 (List.replicate 3 ⟨helloWorld, 0⟩)
    (freshSegment 0 5 ⟨1024, 24, 0⟩) (FS.empty.withFresh 5 ⟨1024, 24, 0⟩) (by decide)
    (by decide) (by decide) (by decide) fixedCodec_roundtrip).1

/-! ## The log with wrapping offsets and after `Truncate` -/

theorem SegX_frame (cfg : Config) (fs fs1 : FS) (s : segment) (k b : Nat)
    (ps : List (List Byte)) (extra : List Byte) (h0 : fs1.content (2 * k) = fs.content (2 * k))
    (h1 : fs1.content (2 * k + 1) = fs.content (2 * k + 1)) (h : SegX cfg fs s k b ps extra) :
    SegX cfg fs1 s k b ps extra := by
  unfold SegX at h ⊢
  rw [h0, h1]
  exact h

theorem SegsX_frame (cfg : Config) (fs fs1 : FS) (segs : List segment) :
    ∀ (k : Nat) (X : List (Nat × List (List Byte))),
      (∀ j, 2 * k ≤ j → j < 2 * (k + segs.length) → fs1.content j = fs.content j) →
      SegsX cfg fs k segs X → SegsX cfg fs1 k segs X := by
  induction segs with
  | nil =>
    intro k X _ h
    cases X with
    | nil => trivial
    | cons x X => exact h
  | cons s segs ih =>
    intro k X hfs h
    cases X with
    | nil => exact h
    | cons x X =>
      obtain ⟨b, ps⟩ := x
      simp only [SegsX, List.length_cons] at h hfs ⊢
      refine ⟨SegX_frame cfg fs fs1 s k b ps [] (hfs _ (by omega) (by omega))
        (hfs _ (by omega) (by omega)) h.1, ?_⟩
      exact ih (k + 1) X (fun j hj1 hj2 => hfs j (by omega) (by omega)) h.2

theorem SegsX_length (cfg : Config) (fs : FS) (segs : List segment) :
    ∀ (k : Nat) (X : List (Nat × List (List Byte))), SegsX cfg fs k segs X →
      segs.length = X.length := by
  induction segs with
  | nil =>
    intro k X h
    cases X with
    | nil => rfl
    | cons x X => exact absurd h (by simp [SegsX])
  | cons s segs ih =>
    intro k X h
    cases X with
    | nil => exact absurd h (by simp [SegsX])
    | cons x X =>
      simp only [SegsX] at h
      simp [ih (k + 1) X h.2]

theorem SegsX_snoc (cfg : Config) (fs : FS) (segs : List segment) :
    ∀ (k : Nat) (X : List (Nat × List (List Byte))) (s : segment) (b : Nat)
      (ps : List (List Byte)),
      SegsX cfg fs k (segs ++ [s]) (X ++ [(b, ps)]) ↔
        SegsX cfg fs k segs X ∧ SegX cfg fs s (k + segs.length) b ps [] := by
  induction segs with
  | nil =>
    intro k X s b ps
    cases X with
    | nil => simp [SegsX]
    | cons x X =>
      cases X with
      | nil => simp [SegsX]
      | cons y X => simp [SegsX]
  | cons t segs ih =>
    intro k X s b ps
    cases X with
    | nil =>
      cases segs with
      | nil => simp [SegsX]
      | cons u segs => simp [SegsX]
    | cons x X =>
      obtain ⟨b1, ps1⟩ := x
      simp only [List.cons_append, SegsX, List.length_cons, List.append_eq]
      rw [ih (k + 1) X s b ps]
      have : k + 1 + segs.length = k + (segs.length + 1) := by omega
      rw [this, and_assoc]

theorem SegsX_last (cfg : Config) (fs : FS) (segs : List segment) (k : Nat)
    (X : List (Nat × List (List Byte))) (b : Nat) (ps : List (List Byte))
    (h : SegsX cfg fs k segs (X ++ [(b, ps)])) :
    ∃ init s, segs = init ++ [s] ∧ init.length = X.length ∧ SegsX cfg fs k init X ∧
      SegX cfg fs s (k + X.length) b ps [] := by
  have hlen := SegsX_length cfg fs segs k _ h
  simp only [List.length_append, List.length_singleton] at hlen
  have hne : segs ≠ [] := by
    intro h0; rw [h0] at hlen; simp at hlen
  obtain ⟨init, s, hs⟩ : ∃ init s, segs = init ++ [s] :=
    ⟨segs.dropLast, segs.getLast hne, (List.dropLast_append_getLast hne).symm⟩
  subst hs
  rw [SegsX_snoc] at h
  have hl : init.length = X.length := by
    simp only [List.length_append, List.length_singleton] at hlen; omega
  exact ⟨init, s, rfl, hl, h.1, hl ▸ h.2⟩

theorem LogX_active (cfg : Config) (lo : Nat) (l : Log) (k0 : Nat) (A : AbsLog)
    (h : LogX cfg lo l k0 A) :
    ∃ init s, l.segments = init ++ [s] ∧ init.length = A.old.length ∧
      SegsX cfg l.fs k0 init A.old ∧ SegX cfg l.fs s (k0 + A.old.length) A.base A.cur [] ∧
      l.active = some s := by
  obtain ⟨hc, hp, hact, hsegs, hino, hnames, hch, hold, hlt⟩ := h
  obtain ⟨init, s, hs, hl, h1, h2⟩ := SegsX_last cfg l.fs l.segments k0 A.old A.base A.cur hsegs
  refine ⟨init, s, hs, hl, h1, h2, ?_⟩
  simp [Log.active, hact, hs, ← hl]

theorem wrapBases_length (X : List (Nat × List (List Byte))) :
    (wrapBases X).length = X.length := by
  simp [wrapBases]

theorem wrapBases_append (X Y : List (Nat × List (List Byte))) :
    wrapBases (X ++ Y) = wrapBases X ++ wrapBases Y := by
  simp [wrapBases]

theorem LogX_bases (cfg : Config) (lo : Nat) (l : Log) (k0 : Nat) (A : AbsLog)
    (h : LogX cfg lo l k0 A) :
    ∀ x ∈ A.all, lo ≤ x.1 ∧ x.1 + x.2.length ≤ A.base + A.cur.length ∧
      (x.1 < A.base ∨ x = (A.base, A.cur)) := by
  obtain ⟨hc, hp, hact, hsegs, hino, hnames, ⟨v0, hv0, hch⟩, hold, hlt⟩ := h
  intro x hx
  obtain ⟨hle, hb⟩ := chained_bound A.old _ _ hch
  simp only [AbsLog.all, List.mem_append, List.mem_singleton] at hx
  rcases hx with h0 | h0
  · have h1 := hb x h0
    have h2 : 0 < x.2.length := List.length_pos.mpr (hold x h0)
    exact ⟨by omega, by omega, Or.inl (by omega)⟩
  · subst h0
    exact ⟨by simp only; omega, by simp only; omega, Or.inr rfl⟩

theorem LogX_newSegment (cfg : Config) (lo : Nat) (l : Log) (k0 : Nat) (A : AbsLog)
    (hcfg : CfgOk cfg) (h : LogX cfg lo l k0 A) (hne : A.cur ≠ []) :
    ∃ l1, l.newSegment ((A.base + A.cur.length) % 2 ^ 64) = (.ok (), l1) ∧
      LogX cfg lo l1 k0 A.rotate := by
  have hbs := LogX_bases cfg lo l k0 A h
  obtain ⟨hc, hp, hact, hsegs, hino, hnames, ⟨v0, hv0, hch⟩, hold, hlt⟩ := h
  obtain ⟨hM12, hM63, _⟩ := hcfg
  have hlen := SegsX_length cfg l.fs l.segments k0 _ hsegs
  have hall : A.all.length = A.old.length + 1 := by simp [AbsLog.all]
  have hcur : 0 < A.cur.length := List.length_pos.mpr hne
  have hbases : ∀ x ∈ wrapBases A.all, x.1 ≠ (A.base + A.cur.length) % 2 ^ 64 := by
    intro x hx
    simp only [wrapBases, List.mem_map] at hx
    obtain ⟨y, hy, rfl⟩ := hx
    obtain ⟨h1, h2, h3⟩ := hbs y hy
    have h4 : y.1 < A.base + A.cur.length := by
      rcases h3 with h3 | h3
      · omega
      · rw [h3]; simp only; omega
    simp only
    omega
  have hl1 : l.fs.lookup ⟨(A.base + A.cur.length) % 2 ^ 64, .store⟩ = none := by
    unfold FS.lookup
    rw [hnames, find_namesFrom_none _ _ k0 hbases]; rfl
  have hl2 : l.fs.lookup ⟨(A.base + A.cur.length) % 2 ^ 64, .index⟩ = none := by
    unfold FS.lookup
    rw [hnames, find_namesFrom_none _ _ k0 hbases]; rfl
  have hnew := newSegment_fresh l.fs ((A.base + A.cur.length) % 2 ^ 64) cfg hp hl1 hl2
    (by omega) hM63
  have hn2 : l.fs.inodes.length = 2 * (k0 + l.segments.length) := by rw [hino, hlen, hall]; omega
  refine ⟨Log.mk cfg (l.fs.withFresh ((A.base + A.cur.length) % 2 ^ 64) cfg)
    (l.segments ++ [freshSegment l.fs.inodes.length ((A.base + A.cur.length) % 2 ^ 64) cfg])
    (.inList l.segments.length), by simp only [Log.newSegment, hc, hnew], ?_⟩
  have hrot : A.rotate.all = A.all ++ [(A.base + A.cur.length, [])] := rfl
  refine ⟨rfl, hp, ?_, ?_, ?_, ?_, ⟨v0, hv0, ?_⟩, ?_, ?_⟩
  · simp only [AbsLog.rotate, List.length_append, List.length_singleton]
    rw [hlen, hall]
  · rw [hrot, SegsX_snoc]
    refine ⟨SegsX_frame cfg l.fs _ l.segments k0 _ ?_ hsegs, ?_⟩
    · intro j _ hj
      exact withFresh_content_lt _ _ _ _ (by omega)
    · rw [hn2]
      exact SegX_fresh cfg l.fs (k0 + l.segments.length) _ hn2 hM63
  · simp only [FS.withFresh, AbsLog.rotate, List.length_append, List.length_singleton,
      List.length_cons, List.length_nil]
    omega
  · rw [hrot, wrapBases_append, namesFrom_append, wrapBases_length]
    simp only [FS.withFresh, hnames, wrapBases, List.map_cons, List.map_nil, namesFrom]
    rw [hino, hall, Nat.add_assoc]
  · exact (chained_snoc A.old A.base A.cur _ _).mpr ⟨hch, rfl⟩
  · intro x hx
    simp only [AbsLog.rotate, List.mem_append, List.mem_singleton] at hx
    rcases hx with h0 | h0
    · exact hold x h0
    · subst h0; exact hne
  · simp only [AbsLog.rotate, List.length_nil]; omega

theorem LogX_appendActive (cd : Codec) (cfg : Config) (lo : Nat) (l : Log) (k0 : Nat)
    (A : AbsLog) (r : Record) (h : LogX cfg lo l k0 A) (h63 : cfg.MaxIndexBytes < 2 ^ 63)
    (hroom : 12 * A.cur.length + 12 ≤ cfg.MaxIndexBytes)
    (hoff : A.base + A.cur.length + 1 < lo + 2 ^ 64) :
    (cd.Marshal { r with Offset := (A.base + A.cur.length) % 2 ^ 64 } = none →
        (Log.appendActive cd l r).1 = .error .codec ∧
          LogX cfg lo (Log.appendActive cd l r).2 k0 A) ∧
      (∀ p, cd.Marshal { r with Offset := (A.base + A.cur.length) % 2 ^ 64 } = some p →
        (Log.appendActive cd l r).1 = .ok ((A.base + A.cur.length) % 2 ^ 64) ∧
          LogX cfg lo (Log.appendActive cd l r).2 k0 { A with cur := A.cur ++ [p] }) := by
  obtain ⟨init, s, hs, hl, hinit, hseg, hact⟩ := LogX_active cfg lo l k0 A h
  obtain ⟨hc, hp, hactref, hsegs, hino, hnames, hch, hold, hlt⟩ := h
  have hset : ∀ t, (init ++ [s]).set A.old.length t = init ++ [t] := by
    intro t; rw [← hl]; simp [List.set_append]
  obtain ⟨hnone, hsome⟩ := segment_Append_X cd cfg l.fs s (k0 + A.old.length) A.base A.cur [] r
    hseg (by omega) h63
  constructor
  · intro hm
    have hstep := hnone hm
    simp only [Log.appendActive, hact, hstep, Log.setActive, hactref]
    refine ⟨trivial, hc, hp, rfl, ?_, hino, hnames, hch, hold, hlt⟩
    simp only [hs, hset]
    rw [← hs]; exact hsegs
  · intro p hm
    obtain ⟨s1, fs1, hp1, hn1, hi1, hfr, hok, _⟩ := hsome p hm
    obtain ⟨hstep, hseg1⟩ := hok hroom
    simp only [Log.appendActive, hact, hstep, Log.setActive, hactref]
    have hnm : namesFrom k0 (wrapBases (AbsLog.all { A with cur := A.cur ++ [p] })) =
        namesFrom k0 (wrapBases A.all) := by
      simp only [AbsLog.all, wrapBases, List.map_append, List.map_cons, List.map_nil,
        namesFrom_append, namesFrom]
    refine ⟨trivial, hc, hp1.trans hp, rfl, ?segs, hi1.trans hino, ?names, hch, hold, ?lt⟩
    case names => rw [hnm]; exact hn1.trans hnames
    case segs =>
      simp only [hs, hset]
      have : AbsLog.all { A with cur := A.cur ++ [p] } = A.old ++ [(A.base, A.cur ++ [p])] := rfl
      rw [this, SegsX_snoc, hl]
      refine ⟨SegsX_frame cfg l.fs fs1 init k0 A.old ?_ hinit, hseg1⟩
      intro j _ hj
      exact hfr j (by omega) (by omega)
    case lt =>
      simp only [List.length_append, List.length_singleton]; omega

theorem SegX_IsMaxed (cfg : Config) (fs : FS) (s : segment) (k b : Nat) (ps : List (List Byte))
    (h : SegX cfg fs s k b ps []) (h63 : cfg.MaxIndexBytes < 2 ^ 63) :
    s.IsMaxed = true ↔
      (cfg.MaxStoreBytes ≤ (frames ps).length % 2 ^ 64 ∨ cfg.MaxIndexBytes < 12 * ps.length + 12) := by
  obtain ⟨hb, hn, hc, hsf, hsc, hse, hsl, hss, hif, hic, him, hrep, hex⟩ := h
  have hsize : s.index.size = 12 * ps.length := by rw [hrep.1, entriesOf_length]
  have hle : s.index.size ≤ s.index.mmapLen := hrep.2.1
  rw [IsMaxed_iff s (by omega), hc, hss, hsize, List.append_nil]

theorem LogX_Append (cd : Codec) (cfg : Config) (lo : Nat) (l : Log) (k0 : Nat) (A : AbsLog)
    (r : Record) (hcfg : CfgOk cfg) (h : LogX cfg lo l k0 A)
    (hoff : A.base + A.cur.length + 1 < lo + 2 ^ 64) :
    ∃ A1 : AbsLog, ((A.maxed cfg ∧ A1 = A.rotate) ∨ (¬ A.maxed cfg ∧ A1 = A)) ∧
      (cd.Marshal { r with Offset := (A.base + A.cur.length) % 2 ^ 64 } = none →
        (Log.Append cd l r).1 = .error .codec ∧ LogX cfg lo (Log.Append cd l r).2 k0 A1) ∧
      (∀ p, cd.Marshal { r with Offset := (A.base + A.cur.length) % 2 ^ 64 } = some p →
        (Log.Append cd l r).1 = .ok ((A.base + A.cur.length) % 2 ^ 64) ∧
          LogX cfg lo (Log.Append cd l r).2 k0 { A1 with cur := A1.cur ++ [p] }) := by
  obtain ⟨init, s, hs, hl, hinit, hseg, hact⟩ := LogX_active cfg lo l k0 A h
  obtain ⟨hM12, hM63, hS⟩ := hcfg
  have hmax := SegX_IsMaxed cfg l.fs s (k0 + A.old.length) A.base A.cur hseg hM63
  have hnext : s.nextOffset = (A.base + A.cur.length) % 2 ^ 64 := hseg.2.1
  rw [Log_Append_eq cd l r s hact]
  by_cases hm : s.IsMaxed = true
  · have hne : A.cur ≠ [] := by
      intro h0
      have := hmax.mp hm
      rw [h0] at this
      simp only [frames, List.length_nil, Nat.zero_mod] at this
      omega
    obtain ⟨l1, hl1, hinv1⟩ := LogX_newSegment cfg lo l k0 A ⟨hM12, hM63, hS⟩ h hne
    simp only [hm, if_true, hnext, hl1]
    have hb1 : A.rotate.base + A.rotate.cur.length = A.base + A.cur.length := by
      simp [AbsLog.rotate]
    have := LogX_appendActive cd cfg lo l1 k0 A.rotate r hinv1 hM63
      (by simp only [AbsLog.rotate, List.length_nil]; omega) (by rw [hb1]; exact hoff)
    rw [hb1] at this
    exact ⟨A.rotate, Or.inl ⟨hmax.mp hm, rfl⟩, this⟩
  · have hnm : ¬ A.maxed cfg := fun hx => hm (hmax.mpr hx)
    have hroom : 12 * A.cur.length + 12 ≤ cfg.MaxIndexBytes := by
      by_contra hc
      exact hnm (Or.inr (by omega))
    have hm' : s.IsMaxed = false := by
      cases hx : s.IsMaxed with
      | false => rfl
      | true => exact absurd hx hm
    simp only [hm', Bool.false_eq_true, if_false]
    exact ⟨A, Or.inr ⟨hnm, rfl⟩, LogX_appendActive cd cfg lo l k0 A r h hM63 hroom hoff⟩

theorem LogX_appendAll (cd : Codec) (cfg : Config) (lo : Nat) (hcfg : CfgOk cfg)
    (rs : List Record) :
    ∀ (l : Log) (k0 : Nat) (A : AbsLog), LogX cfg lo l k0 A →
      A.base + A.cur.length + rs.length < lo + 2 ^ 64 →
      (∀ x ∈ (Log.appendAll cd l rs).1, x = .error .codec ∨ ∃ o, x = .ok o) ∧
        ∃ A1, LogX cfg lo (Log.appendAll cd l rs).2 k0 A1 ∧
          A1.base + A1.cur.length ≤ A.base + A.cur.length + rs.length := by
  induction rs with
  | nil =>
    intro l k0 A h _
    exact ⟨fun x hx => by simp [Log.appendAll] at hx, A, h, by simp [Log.appendAll]⟩
  | cons r rs ih =>
    intro l k0 A h hb
    simp only [List.length_cons] at hb
    obtain ⟨A1, hA1, hnone, hsome⟩ := LogX_Append cd cfg lo l k0 A r hcfg h (by omega)
    have hbase : A1.base + A1.cur.length = A.base + A.cur.length := by
      rcases hA1 with ⟨_, h1⟩ | ⟨_, h1⟩
      · rw [h1]; simp [AbsLog.rotate]
      · rw [h1]
    have happ : Log.appendAll cd l (r :: rs) =
        ((Log.Append cd l r).1 :: (Log.appendAll cd (Log.Append cd l r).2 rs).1,
          (Log.appendAll cd (Log.Append cd l r).2 rs).2) := rfl
    rw [happ]
    cases hm : cd.Marshal { r with Offset := (A.base + A.cur.length) % 2 ^ 64 } with
    | none =>
      obtain ⟨hres, hinv⟩ := hnone hm
      obtain ⟨g1, A2, g2, g3⟩ := ih _ k0 A1 hinv (by omega)
      refine ⟨?_, A2, g2, by simp only [List.length_cons]; omega⟩
      intro x hx
      simp only [List.mem_cons] at hx
      rcases hx with hx | hx
      · rw [hx, hres]; exact Or.inl rfl
      · exact g1 x hx
    | some p =>
      obtain ⟨hres, hinv⟩ := hsome p hm
      obtain ⟨g1, A2, g2, g3⟩ := ih _ k0 { A1 with cur := A1.cur ++ [p] } hinv
        (by simp only [List.length_append, List.length_singleton]; omega)
      refine ⟨?_, A2, g2, ?_⟩
      · intro x hx
        simp only [List.mem_cons] at hx
        rcases hx with hx | hx
        · rw [hx, hres]; exact Or.inr ⟨_, rfl⟩
        · exact g1 x hx
      · simp only [List.length_append, List.length_cons, List.length_nil] at g3 ⊢
        omega

theorem LogX_fresh (c : Config) (h63 : c.withDefaults.MaxIndexBytes < 2 ^ 63)
    (hi : c.InitialOffset < 2 ^ 64) :
    LogX c.withDefaults c.InitialOffset (freshLog c) 0
      { old := [], base := c.InitialOffset, cur := [] } := by
  have hmod : c.InitialOffset % 2 ^ 64 = c.InitialOffset := Nat.mod_eq_of_lt hi
  refine ⟨rfl, rfl, rfl, ?_, rfl, ?_, ⟨c.InitialOffset, Nat.le_refl _, rfl⟩, ?_, ?_⟩
  · simp only [AbsLog.all, List.nil_append, freshLog, SegsX, and_true]
    have := SegX_fresh c.withDefaults FS.empty 0 c.InitialOffset rfl h63
    rw [hmod] at this
    exact this
  · simp only [AbsLog.all, List.nil_append, wrapBases, List.map_cons, List.map_nil, namesFrom,
      hmod]
    rfl
  · intro x hx; simp at hx
  · simp only [List.length_nil]; omega

/-! ## Claim on rotation and the capacity of the index -/

/-- C19. A log is made in an empty directory with `MaxIndexBytes` 0 or at least 12
and driven by `Log.Append` only, fewer than `2 ^ 64` times.  No call returns
`io.EOF`, the error of `index.Write` on a full index: every call returns an
offset or the error of the encoder. -/
theorem Log_Append_never_capacity (cd : Codec) (c : Config) (rs : List Record) (l0 : Log)
    (hnew : NewLog FS.empty c = (.ok (), l0))
    (hM : c.MaxIndexBytes = 0 ∨ 12 ≤ c.MaxIndexBytes) (hi : c.InitialOffset < 2 ^ 64)
    (hn : rs.length < 2 ^ 64) :
    ∀ x ∈ (Log.appendAll cd l0 rs).1, x ≠ .error .eof ∧ (x = .error .codec ∨ ∃ o, x = .ok o) := by
  obtain ⟨hl0, h63⟩ := NewLog_empty_ok c l0 hnew
  subst hl0
  have h12 : 12 ≤ c.withDefaults.MaxIndexBytes := by
    simp only [Config.withDefaults]
    rcases hM with h | h
    · simp [h]
    · rw [if_neg (by omega)]; exact h
  have hcfg : CfgOk c.withDefaults := ⟨h12, h63, withDefaults_store_pos c⟩
  obtain ⟨g, _⟩ := LogX_appendAll cd c.withDefaults c.InitialOffset hcfg rs (freshLog c) 0 _
    (LogX_fresh c h63 hi) (by simp only [List.length_nil]; omega)
  intro x hx
  have := g x hx
  refine ⟨?_, this⟩
  rcases this with h | ⟨o, h⟩
  · rw [h]; simp
  · rw [h]; simp

/-- Witness of C19: `InitialOffset = 2 ^ 64 - 2`, an index of three entries and five
appends; the offsets wrap and the log rotates, and no call fails. -/
theorem Log_Append_never_capacity_witness :
    (Log.appendAll fixedCodec (freshLog ⟨1024, 36, 2 ^ 64 - 2⟩)
        (List.replicate 5 ⟨helloWorld, 0⟩)).1 =
        [.ok (2 ^ 64 - 2), .ok (2 ^ 64 - 1), .ok 0, .ok 1, .ok 2] ∧
      ∀ x ∈ (Log.appendAll fixedCodec (freshLog ⟨1024, 36, 2 ^ 64 - 2⟩)
        (List.replicate 5 ⟨helloWorld, 0⟩)).1,
        x ≠ .error .eof ∧ (x = .error .codec ∨ ∃ o, x = .ok o) :=
  ⟨by decide, Log_Append_never_capacity fixedCodec ⟨1024, 36, 2 ^ 64 - 2⟩
    (List.replicate 5 ⟨helloWorld, 0⟩) _ (NewLog_empty _ (by decide)) (Or.inr (by decide))
    (by decide) (by decide)⟩

theorem segment_Close_offsets (s : segment) (fs : FS) :
    (s.Close fs).2.1.nextOffset = s.nextOffset ∧ (s.Close fs).2.1.baseOffset = s.baseOffset ∧
      (s.Close fs).2.1.index.mmapLen = s.index.mmapLen := by
  unfold segment.Close
  rcases hi : s.index.Close (fs.content s.index.file) with ⟨ri, ix, ci⟩
  have hm : ix.mmapLen = s.index.mmapLen := by
    unfold index.Close at hi
    split at hi
    · simp only [Prod.mk.injEq] at hi; rw [← hi.2.1]
    · split at hi
      · simp only [Prod.mk.injEq] at hi; rw [← hi.2.1]
      · simp only [Prod.mk.injEq] at hi; rw [← hi.2.1]
  cases ri with
  | error e => exact ⟨rfl, rfl, hm⟩
  | ok u =>
    simp only
    rcases s.store.Close ((fs.put s.index.file ci).content s.store.File) with ⟨rs, st, c⟩
    cases rs with
    | error e => exact ⟨rfl, rfl, hm⟩
    | ok u => exact ⟨rfl, rfl, hm⟩

theorem segment_Close_X (cfg : Config) (fs : FS) (s : segment) (k b : Nat)
    (ps : List (List Byte)) (extra : List Byte) (h : SegX cfg fs s k b ps extra)
    (h63 : cfg.MaxIndexBytes < 2 ^ 63) :
    ∃ s1 fs1, s.Close fs = (.ok (), s1, fs1) ∧ fs1.present = fs.present ∧
      fs1.names = fs.names ∧ fs1.inodes.length = fs.inodes.length ∧
      ∀ j, j ≠ 2 * k → j ≠ 2 * k + 1 → fs1.content j = fs.content j := by
  obtain ⟨hb, hn, hc, hsf, hsc, hse, hsl, hss, hif, hic, him, hrep, hex⟩ := h
  obtain ⟨hsize, hle, hlen, _, rest, hcont⟩ := hrep
  have hic' : index.Close s.index (fs.content (2 * k + 1)) =
      (.ok (), { s.index with closed := true }, resize (fs.content (2 * k + 1)) s.index.size) := by
    unfold index.Close
    rw [hic]
    simp only [Bool.false_eq_true, if_false]
    rw [if_neg (by omega)]
  have hsc' : ∀ c, store.Close s.store c =
      (.ok (), { s.store with buf := { buf := [], err := false }, closed := true },
        c ++ s.store.buf.buf) := by
    intro c
    unfold store.Close
    rw [hsc, Writer_Flush_open _ _ hse]
    simp only [Bool.false_eq_true, if_false]
  have hcl : ∃ s1 c0 c1, s.Close fs = (.ok (), s1, (fs.put (2 * k + 1) c0).put (2 * k) c1) := by
    unfold segment.Close
    simp only [hif, hsf, hic', hsc']
    exact ⟨_, _, _, rfl⟩
  obtain ⟨s1, c0, c1, hcl⟩ := hcl
  refine ⟨s1, _, hcl, rfl, rfl, by simp [FS.put], ?_⟩
  intro j h0 h1
  rw [FS_put_content_ne _ _ _ _ h0, FS_put_content_ne _ _ _ _ h1]

theorem filter_namesFrom (n : FileName) (X : List (Nat × List (List Byte))) :
    ∀ k, (∀ x ∈ X, x.1 ≠ n.base) →
      (namesFrom k X).filter (fun e => decide (e.1 ≠ n)) = namesFrom k X := by
  induction X with
  | nil => intro k _; rfl
  | cons x X ih =>
    intro k h
    obtain ⟨b, ps⟩ := x
    have hb : b ≠ n.base := h (b, ps) (List.mem_cons_self _ _)
    have h1 : (⟨b, .store⟩ : FileName) ≠ n := by
      intro he; apply hb; rw [← he]
    have h2 : (⟨b, .index⟩ : FileName) ≠ n := by
      intro he; apply hb; rw [← he]
    simp only [namesFrom, List.filter_cons, h1, h2, ne_eq, not_false_eq_true, decide_True,
      if_true]
    rw [ih (k + 1) (fun x hx => h x (List.mem_cons_of_mem _ hx))]

theorem segment_Remove_X (cfg : Config) (fs : FS) (s : segment) (k b : Nat)
    (ps : List (List Byte)) (X : List (Nat × List (List Byte)))
    (h : SegX cfg fs s k b ps []) (h63 : cfg.MaxIndexBytes < 2 ^ 63)
    (hnames : fs.names = namesFrom k (wrapBases ((b, ps) :: X)))
    (hdist : ∀ x ∈ X, x.1 % 2 ^ 64 ≠ b % 2 ^ 64) :
    ∃ s1 fs1, s.Remove fs = (.ok (), s1, fs1) ∧ s1.nextOffset = s.nextOffset ∧
      fs1.present = fs.present ∧ fs1.names = namesFrom (k + 1) (wrapBases X) ∧
      fs1.inodes.length = fs.inodes.length ∧
      ∀ j, j ≠ 2 * k → j ≠ 2 * k + 1 → fs1.content j = fs.content j := by
  obtain ⟨s1, fs1, hcl, hp1, hn1, hi1, hfr⟩ := segment_Close_X cfg fs s k b ps [] h h63
  have hoff := (segment_Close_offsets s fs).1
  rw [hcl] at hoff
  have hbase : s.baseOffset = b % 2 ^ 64 := h.1
  have hd : ∀ x ∈ wrapBases X, x.1 ≠ b % 2 ^ 64 := by
    intro x hx
    simp only [wrapBases, List.mem_map] at hx
    obtain ⟨y, hy, rfl⟩ := hx
    exact hdist y hy
  have hnm : fs1.names = (⟨b % 2 ^ 64, .store⟩, 2 * k) :: (⟨b % 2 ^ 64, .index⟩, 2 * k + 1) ::
      namesFrom (k + 1) (wrapBases X) := by
    rw [hn1, hnames]; rfl
  have hf1 := filter_namesFrom ⟨b % 2 ^ 64, .index⟩ (wrapBases X) (k + 1) hd
  have hf2 := filter_namesFrom ⟨b % 2 ^ 64, .store⟩ (wrapBases X) (k + 1) hd
  have hr1 : fs1.Remove ⟨b % 2 ^ 64, .index⟩ = (.ok (), FS.mk fs1.present
      ((⟨b % 2 ^ 64, .store⟩, 2 * k) :: namesFrom (k + 1) (wrapBases X)) fs1.inodes) := by
    have hfilt : List.filter (fun e => decide (e.1 ≠ (⟨b % 2 ^ 64, .index⟩ : FileName)))
        ((⟨b % 2 ^ 64, .store⟩, 2 * k) :: (⟨b % 2 ^ 64, .index⟩, 2 * k + 1) ::
          namesFrom (k + 1) (wrapBases X)) =
        (⟨b % 2 ^ 64, .store⟩, 2 * k) :: namesFrom (k + 1) (wrapBases X) := by
      rw [List.filter_cons, List.filter_cons, hf1]
      simp
    unfold FS.Remove FS.lookup
    rw [hnm, hfilt]
    simp [List.find?_cons]
  have hr2 : FS.Remove (FS.mk fs1.present
      ((⟨b % 2 ^ 64, .store⟩, 2 * k) :: namesFrom (k + 1) (wrapBases X)) fs1.inodes)
      ⟨b % 2 ^ 64, .store⟩ =
      (.ok (), FS.mk fs1.present (namesFrom (k + 1) (wrapBases X)) fs1.inodes) := by
    have hfilt : List.filter (fun e => decide (e.1 ≠ (⟨b % 2 ^ 64, .store⟩ : FileName)))
        ((⟨b % 2 ^ 64, .store⟩, 2 * k) :: namesFrom (k + 1) (wrapBases X)) =
        namesFrom (k + 1) (wrapBases X) := by
      rw [List.filter_cons, hf2]
      simp
    unfold FS.Remove FS.lookup
    simp only
    rw [hfilt]
    simp [List.find?_cons]
  refine ⟨s1, FS.mk fs1.present (namesFrom (k + 1) (wrapBases X)) fs1.inodes, ?_, hoff, hp1,
    rfl, hi1, hfr⟩
  unfold segment.Remove
  simp only [hcl, hbase, hr1, hr2]

theorem truncateLoop_keep (lowest : Nat) (segs : List segment) :
    ∀ fs, (∀ s ∈ segs, ¬ s.nextOffset ≤ (lowest + 1) % 2 ^ 64) →
      Log.truncateLoop lowest fs segs = (.ok (), fs, segs.map (fun s => (s, false))) := by
  induction segs with
  | nil => intro fs _; rfl
  | cons s segs ih =>
    intro fs h
    unfold Log.truncateLoop
    rw [if_neg (h s (List.mem_cons_self _ _)),
      ih fs (fun t ht => h t (List.mem_cons_of_mem _ ht))]
    rfl

theorem SegsX_mem_seg (cfg : Config) (fs : FS) (segs : List segment) :
    ∀ (k : Nat) (X : List (Nat × List (List Byte))), SegsX cfg fs k segs X →
      ∀ s ∈ segs, ∃ x ∈ X, s.baseOffset = x.1 % 2 ^ 64 ∧
        s.nextOffset = (x.1 + x.2.length) % 2 ^ 64 := by
  induction segs with
  | nil => intro k X _ s hs; simp at hs
  | cons t segs ih =>
    intro k X h s hs
    cases X with
    | nil => exact absurd h (by simp [SegsX])
    | cons x X =>
      obtain ⟨b, ps⟩ := x
      simp only [SegsX] at h
      simp only [List.mem_cons] at hs
      rcases hs with hs | hs
      · subst hs
        exact ⟨(b, ps), List.mem_cons_self _ _, h.1.1, h.1.2.1⟩
      · obtain ⟨x, hx, g⟩ := ih (k + 1) X h.2 s hs
        exact ⟨x, List.mem_cons_of_mem _ hx, g⟩

theorem truncateLoop_X (cfg : Config) (lowest : Nat) (h63 : cfg.MaxIndexBytes < 2 ^ 63)
    (segs : List segment) :
    ∀ (fs : FS) (k : Nat) (X : List (Nat × List (List Byte))), SegsX cfg fs k segs X →
      fs.names = namesFrom k (wrapBases X) →
      X.Pairwise (fun x y => x.1 % 2 ^ 64 ≠ y.1 % 2 ^ 64) →
      X.Pairwise (fun x y => x.1 + x.2.length ≤ y.1 + y.2.length) →
      (∀ x ∈ X, x.1 + x.2.length < 2 ^ 64) →
      ∃ (j : Nat) (fs1 : FS) (rem : List segment), j ≤ segs.length ∧ rem.length = j ∧
        Log.truncateLoop lowest fs segs =
          (.ok (), fs1, rem.map (fun s => (s, true)) ++ (segs.drop j).map (fun s => (s, false))) ∧
        rem.map (fun s => s.nextOffset) = (segs.take j).map (fun s => s.nextOffset) ∧
        fs1.names = namesFrom (k + j) (wrapBases (X.drop j)) ∧ fs1.present = fs.present ∧
        fs1.inodes.length = fs.inodes.length ∧
        SegsX cfg fs1 (k + j) (segs.drop j) (X.drop j) := by
  induction segs with
  | nil =>
    intro fs k X h hn _ _ _
    cases X with
    | cons x X => exact absurd h (by simp [SegsX])
    | nil => exact ⟨0, fs, [], Nat.le_refl _, rfl, rfl, rfl, hn, rfl, rfl, h⟩
  | cons s segs ih =>
    intro fs k X h hn hdist hmono hbound
    cases X with
    | nil => exact absurd h (by simp [SegsX])
    | cons x X =>
      obtain ⟨b, ps⟩ := x
      have hall := h
      simp only [SegsX] at h
      obtain ⟨hs, hrest⟩ := h
      rw [List.pairwise_cons] at hdist hmono
      have hnext : s.nextOffset = b + ps.length := by
        rw [hs.2.1]
        exact Nat.mod_eq_of_lt (hbound (b, ps) (List.mem_cons_self _ _))
      by_cases hrm : s.nextOffset ≤ (lowest + 1) % 2 ^ 64
      · obtain ⟨s1, fs1, hrem, hoff1, hp1, hn1, hi1, hfr⟩ := segment_Remove_X cfg fs s k b ps X hs
          h63 hn (fun x hx => (hdist.1 x hx).symm)
        have hrest1 : SegsX cfg fs1 (k + 1) segs X := by
          apply SegsX_frame cfg fs fs1 segs (k + 1) X _ hrest
          intro j hj _
          exact hfr j (by omega) (by omega)
        obtain ⟨j, fs2, rem, hj, hrl, hloop, hnx, hn2, hp2, hi2, hsegs2⟩ := ih fs1 (k + 1) X hrest1
          hn1 hdist.2 hmono.2 (fun x hx => hbound x (List.mem_cons_of_mem _ hx))
        refine ⟨j + 1, fs2, s1 :: rem, by simp only [List.length_cons]; omega,
          by simp only [List.length_cons]; omega, ?_, ?_, ?_, hp2.trans hp1, hi2.trans hi1, ?_⟩
        · unfold Log.truncateLoop
          rw [if_pos hrm]
          simp only [hrem, hloop]
          rfl
        · simp only [List.map_cons, List.take_succ_cons, hoff1, hnx]
        · have : k + (j + 1) = k + 1 + j := by omega
          rw [this]; exact hn2
        · have : k + (j + 1) = k + 1 + j := by omega
          rw [this]; exact hsegs2
      · have hkeep : ∀ t ∈ s :: segs, ¬ t.nextOffset ≤ (lowest + 1) % 2 ^ 64 := by
          intro t ht
          simp only [List.mem_cons] at ht
          rcases ht with ht | ht
          · rw [ht]; exact hrm
          · obtain ⟨x, hx, _, hxn⟩ := SegsX_mem_seg cfg fs segs (k + 1) X hrest t ht
            have h1 : b + ps.length ≤ x.1 + x.2.length := hmono.1 x hx
            have h2 := hbound x (List.mem_cons_of_mem _ hx)
            rw [hxn, Nat.mod_eq_of_lt h2]
            omega
        refine ⟨0, fs, [], Nat.zero_le _, rfl, ?_, rfl, hn, rfl, rfl, hall⟩
        rw [truncateLoop_keep lowest _ fs hkeep]
        rfl

theorem marked_filter (rem keep : List segment) :
    ((rem.map (fun s => (s, true)) ++ keep.map (fun s => (s, false))).filter
      (fun m => !m.2)).map Prod.fst = keep := by
  simp [List.filter_map, Function.comp_def]

theorem marked_countP (rem keep : List segment) (i : Nat) (h1 : rem.length ≤ i)
    (h2 : i ≤ rem.length + keep.length) :
    ((rem.map (fun s => (s, true)) ++ keep.map (fun s => (s, false))).take i).countP
      (fun m => !m.2) = i - rem.length := by
  have e1 : ∀ ks : List segment,
      List.countP (fun m : segment × Bool => !m.2) (ks.map (fun s => (s, true))) = 0 := by
    intro ks
    induction ks with
    | nil => rfl
    | cons k ks ih => simp [ih]
  have e2 : ∀ ks : List segment,
      List.countP (fun m : segment × Bool => !m.2) (ks.map (fun s => (s, false))) = ks.length := by
    intro ks
    induction ks with
    | nil => rfl
    | cons k ks ih => simp [ih]
  rw [List.take_append_eq_append_take, List.countP_append, List.length_map,
    List.take_of_length_le (by simp; omega), ← List.map_take, e1, e2, List.length_take]
  omega

theorem chained_next_mono (X : List (Nat × List (List Byte))) :
    ∀ s e, chained s X e →
      X.Pairwise (fun x y => x.1 + x.2.length ≤ y.1 + y.2.length) := by
  induction X with
  | nil => intro s e _; exact List.Pairwise.nil
  | cons x X ih =>
    intro s e h
    obtain ⟨b, ps⟩ := x
    simp only [chained] at h
    rw [List.pairwise_cons]
    refine ⟨?_, ih _ _ h.2⟩
    intro y hy
    have := ((chained_bound X _ _ h.2).2 y hy).1
    simp only
    omega

theorem chained_drop (X : List (Nat × List (List Byte))) :
    ∀ (j s e : Nat), chained s X e → ∃ s1, s ≤ s1 ∧ chained s1 (X.drop j) e := by
  induction X with
  | nil => intro j s e h; exact ⟨s, Nat.le_refl _, by simpa using h⟩
  | cons x X ih =>
    intro j s e h
    cases j with
    | zero => exact ⟨s, Nat.le_refl _, by simpa using h⟩
    | succ j =>
      obtain ⟨b, ps⟩ := x
      simp only [chained] at h
      obtain ⟨s1, h1, h2⟩ := ih j _ e h.2
      exact ⟨s1, by omega, by simpa using h2⟩

theorem LogX_Truncate (cfg : Config) (lo : Nat) (l : Log) (k0 : Nat) (A : AbsLog) (lowest : Nat)
    (h63 : cfg.MaxIndexBytes < 2 ^ 63) (h : LogX cfg lo l k0 A)
    (hnw : A.base + A.cur.length < 2 ^ 64) :
    (l.Truncate lowest).1 = .ok () ∧
      ((∃ k1 A1, LogX cfg lo (l.Truncate lowest).2 k1 A1 ∧
          A1.base + A1.cur.length = A.base + A.cur.length) ∨
        LogDead cfg lo (l.Truncate lowest).2 (A.base + A.cur.length)) := by
  have hbs := LogX_bases cfg lo l k0 A h
  obtain ⟨init, sl, hsl, hinitl, _, hsegl, _⟩ := LogX_active cfg lo l k0 A h
  obtain ⟨hc, hp, hact, hsegs, hino, hnames, ⟨v0, hv0, hch⟩, hold, hlt⟩ := h
  have hchall : chained v0 A.all (A.base + A.cur.length) :=
    (chained_snoc A.old A.base A.cur _ _).mpr ⟨hch, rfl⟩
  have hmono := chained_next_mono A.all _ _ hchall
  have hpw := chained_pairwise A.old A.base A.cur v0 _ hchall hold
  have hdist : A.all.Pairwise (fun x y => x.1 % 2 ^ 64 ≠ y.1 % 2 ^ 64) := by
    apply List.Pairwise.imp_of_mem _ hpw
    intro x y hx hy hne
    have h1 := hbs x hx
    have h2 := hbs y hy
    omega
  have hbound : ∀ x ∈ A.all, x.1 + x.2.length < 2 ^ 64 := by
    intro x hx
    have := hbs x hx
    omega
  obtain ⟨j, fs1, rem, hj, hrl, hloop, hnx, hn1, hp1, hi1, hsegs1⟩ :=
    truncateLoop_X cfg lowest h63 l.segments l.fs k0 A.all hsegs hnames hdist hmono hbound
  have hlen : l.segments.length = A.old.length + 1 := by
    rw [SegsX_length cfg l.fs l.segments k0 _ hsegs]; simp [AbsLog.all]
  unfold Log.Truncate
  rw [hloop]
  simp only [hact, marked_filter]
  refine ⟨trivial, ?_⟩
  by_cases hjl : j = l.segments.length
  · right
    have hi : A.old.length < rem.length := by omega
    have hget : (rem.map (fun s => (s, true)) ++
        (l.segments.drop j).map (fun s => (s, false)))[A.old.length]? =
        some (rem[A.old.length], true) := by
      rw [List.getElem?_append_left (by simpa using hi), List.getElem?_map,
        List.getElem?_eq_getElem hi]
      rfl
    have key : ∀ (i : Nat) (hi : i < rem.length), i = init.length →
        rem[i].nextOffset = sl.nextOffset := by
      intro i hi hie
      subst hie
      have h1 := congrArg (fun L => L[init.length]?) hnx
      simp only [List.getElem?_map, List.getElem?_eq_getElem hi, Option.map_some'] at h1
      rw [List.take_of_length_le (by omega), hsl] at h1
      simp only [List.getElem?_append_right (Nat.le_refl _), Nat.sub_self,
        List.getElem?_cons_zero, Option.map_some', Option.some.injEq] at h1
      exact h1
    have hnext : rem[A.old.length].nextOffset = (A.base + A.cur.length) % 2 ^ 64 := by
      rw [key _ hi hinitl.symm]; exact hsegl.2.1
    simp only [hget]
    have hdrop : l.segments.drop j = [] := List.drop_of_length_le (by omega)
    have hdropA : A.all.drop j = [] := List.drop_of_length_le (by simp [AbsLog.all]; omega)
    refine ⟨hc, hp1.trans hp, hdrop, ?_, ⟨k0 + A.old.length + 1, hi1.trans hino⟩, ?_,
      rem[A.old.length], rfl, hnext⟩
    · simp only
      rw [hn1, hdropA]; rfl
    · have := hbs (A.base, A.cur) (by simp [AbsLog.all])
      simp only at this
      omega
  · left
    have hjo : j ≤ A.old.length := by omega
    have hget : (rem.map (fun s => (s, true)) ++
        (l.segments.drop j).map (fun s => (s, false)))[A.old.length]? =
        some (sl, false) := by
      rw [List.getElem?_append_right (by simp; omega), List.getElem?_map, List.getElem?_drop,
        List.length_map, hrl, hsl, ← hinitl]
      have : j + (init.length - j) = init.length := by omega
      rw [this, List.getElem?_append_right (Nat.le_refl _)]
      simp
    simp only [hget]
    rw [marked_countP rem _ A.old.length (by omega) (by simp; omega), hrl]
    have hdropA : A.all.drop j = AbsLog.all { A with old := A.old.drop j } := by
      simp only [AbsLog.all]
      exact List.drop_append_of_le_length hjo
    obtain ⟨v1, hv1, hch1⟩ := chained_drop A.old j v0 A.base hch
    refine ⟨k0 + j, { A with old := A.old.drop j }, ⟨hc, hp1.trans hp, ?_, ?_, ?_, ?_,
      ⟨v1, by omega, hch1⟩, ?_, hlt⟩, rfl⟩
    · simp only [List.length_drop]
    · simp only
      rw [← hdropA]; exact hsegs1
    · simp only [List.length_drop]
      rw [hi1, hino]; omega
    · simp only
      rw [← hdropA]; exact hn1
    · intro x hx
      exact hold x (List.mem_of_mem_drop hx)

/-! ## The log whose indexes hold no entry, under `Append` and `Truncate` -/

theorem index_Read_small (i : index) (c : List Byte) (n : Int) (h : i.mmapLen < 12) :
    ∀ r, i.Read c n ≠ .ok r := by
  intro r
  have hw : endWidth = 12 := rfl
  unfold index.Read
  by_cases h0 : i.size = 0
  · rw [if_pos h0]; exact fun hh => by cases hh
  · rw [if_neg h0]
    simp only []
    generalize (if n = -1 then ((i.size / endWidth + (2 ^ 64 - 1)) % 2 ^ 64) % 2 ^ 32
      else (n % 2 ^ 32).toNat) = out
    by_cases h1 : i.size < out * endWidth + endWidth
    · rw [if_pos h1]; exact fun hh => by cases hh
    · rw [if_neg h1, if_pos (Or.inl (by rw [hw]; omega))]
      exact fun hh => by cases hh

theorem newSegment_small (fs fs1 : FS) (b : Nat) (cfg : Config) (s : segment)
    (hM : cfg.MaxIndexBytes < 12) (h : newSegment fs b cfg = (.ok s, fs1)) :
    s.baseOffset = b ∧ s.nextOffset = b ∧ s.index.mmapLen < 12 := by
  have hb := (newSegment_base fs fs1 b cfg s h).1
  have hm := newSegment_mmapLen fs fs1 b cfg s h
  refine ⟨hb, ?_, by omega⟩
  unfold newSegment at h
  split at h
  · simp at h
  · split at h
    · simp at h
    · split at h
      · simp at h
      · rename_i ix ci hn
        have hix : ix.mmapLen < 12 := by
          unfold newIndex at hn
          split at hn
          · simp at hn
          · split at hn
            · simp at hn
            · simp only [Prod.mk.injEq, Except.ok.injEq] at hn
              rw [← hn.1]; exact hM
        split at h
        · simp at h
        · simp only [Prod.mk.injEq, Except.ok.injEq] at h
          rw [← h.1]
        · rename_i off pos hr
          exact absurd hr (index_Read_small ix ci (-1) hix _)

theorem segment_Append_small_next (cd : Codec) (s : segment) (fs : FS) (r : Record)
    (h : s.index.mmapLen < 12) : (s.Append cd fs r).2.1.nextOffset = s.nextOffset := by
  unfold segment.Append
  simp only []
  split
  · rfl
  · split
    · rfl
    · rename_i n pos st c hsa
      obtain ⟨e, he⟩ := index_Write_small s.index
        ((fs.put s.store.File c).content s.index.file)
        (((s.nextOffset + 2 ^ 64 - s.baseOffset) % 2 ^ 64) % 2 ^ 32) pos h
      simp only [he]

theorem Flat_active (l : Log) (v : Nat) (h : Flat l v) (a : segment) (ha : l.active = some a) :
    a.nextOffset = v ∧ a.index.mmapLen < 12 := by
  obtain ⟨_, hl, hd⟩ := h
  unfold Log.active at ha
  cases hact : l.activeSegment with
  | nil => rw [hact] at ha; simp at ha
  | detached d =>
    rw [hact] at ha
    simp only [Option.some.injEq] at ha
    rw [← ha]; exact hd d hact
  | inList i =>
    rw [hact] at ha
    simp only at ha
    have := hl a (List.getElem?_mem ha)
    exact ⟨this.2.1, this.2.2⟩

theorem Flat_appendActive (cd : Codec) (l : Log) (v : Nat) (r : Record) (h : Flat l v) :
    Flat (Log.appendActive cd l r).2 v := by
  unfold Log.appendActive
  cases ha : l.active with
  | none => exact h
  | some a =>
    simp only
    obtain ⟨hn, hm⟩ := Flat_active l v h a ha
    have h1 := segment_Append_small_next cd a l.fs r hm
    have h2 := (segment_Append_small cd a l.fs r hm).2
    have h3 := (segment_Append_base cd a l.fs r).1
    obtain ⟨hc, hl, hd⟩ := h
    unfold Log.active at ha
    cases hact : l.activeSegment with
    | nil => rw [hact] at ha; simp at ha
    | detached d =>
      simp only [Log.setActive, hact]
      refine ⟨hc, hl, ?_⟩
      intro s hs
      simp only [ActiveRef.detached.injEq] at hs
      rw [← hs]
      exact ⟨by rw [h1]; exact hn, h2⟩
    | inList i =>
      rw [hact] at ha
      simp only at ha
      simp only [Log.setActive, hact]
      refine ⟨hc, ?_, ?_⟩
      · intro s hs
        rcases List.mem_or_eq_of_mem_set hs with hs | hs
        · exact hl s hs
        · rw [hs]
          have hav := hl a (List.getElem?_mem ha)
          exact ⟨by rw [h3]; exact hav.1, by rw [h1]; exact hn, h2⟩
      · intro s hs; simp at hs

theorem Flat_Append (cd : Codec) (l : Log) (v : Nat) (r : Record) (h : Flat l v) :
    Flat (Log.Append cd l r).2 v := by
  cases ha : l.active with
  | none =>
    unfold Log.Append
    rw [ha]
    exact h
  | some a =>
    rw [Log_Append_eq cd l r a ha]
    obtain ⟨hn, hm⟩ := Flat_active l v h a ha
    by_cases hmx : a.IsMaxed = true
    · simp only [hmx, if_true, Log.newSegment]
      cases hnew : newSegment l.fs a.nextOffset l.Config with
      | mk res fs1 =>
        cases res with
        | error e => exact ⟨h.1, h.2.1, h.2.2⟩
        | ok s =>
          simp only
          apply Flat_appendActive
          obtain ⟨hb1, hn1, hm1⟩ := newSegment_small l.fs fs1 a.nextOffset l.Config s h.1 hnew
          refine ⟨h.1, ?_, ?_⟩
          · intro t ht
            simp only [List.mem_append, List.mem_singleton] at ht
            rcases ht with ht | ht
            · exact h.2.1 t ht
            · rw [ht]; exact ⟨by rw [hb1]; exact hn, by rw [hn1]; exact hn, hm1⟩
          · intro t ht; simp at ht
    · have hm' : a.IsMaxed = false := by
        cases hx : a.IsMaxed with
        | false => rfl
        | true => exact absurd hx hmx
      simp only [hm', Bool.false_eq_true, if_false]
      exact Flat_appendActive cd l v r h

theorem segment_Remove_seg (s : segment) (fs : FS) : (s.Remove fs).2.1 = (s.Close fs).2.1 := by
  unfold segment.Remove
  rcases s.Close fs with ⟨res, s1, fs1⟩
  cases res with
  | error e => rfl
  | ok u =>
    simp only
    rcases fs1.Remove ⟨s.baseOffset, .index⟩ with ⟨r1, fs2⟩
    cases r1 with
    | error e => rfl
    | ok u =>
      simp only
      rcases fs2.Remove ⟨s.baseOffset, .store⟩ with ⟨r2, fs3⟩
      cases r2 <;> rfl

theorem truncateLoop_marked (lowest : Nat) (segs : List segment) :
    ∀ fs, ∀ m ∈ (Log.truncateLoop lowest fs segs).2.2, ∃ s ∈ segs,
      m.1.baseOffset = s.baseOffset ∧ m.1.nextOffset = s.nextOffset ∧
        m.1.index.mmapLen = s.index.mmapLen := by
  induction segs with
  | nil => intro fs m hm; simp [Log.truncateLoop] at hm
  | cons s segs ih =>
    intro fs m hm
    have hcl := segment_Close_offsets s fs
    rw [← segment_Remove_seg] at hcl
    unfold Log.truncateLoop at hm
    by_cases hc : s.nextOffset ≤ (lowest + 1) % 2 ^ 64
    · rw [if_pos hc] at hm
      rcases hrem : s.Remove fs with ⟨res, s1, fs1⟩
      rw [hrem] at hm hcl
      cases res with
      | error e =>
        simp only [List.mem_cons, List.mem_map] at hm
        rcases hm with hm | ⟨t, ht, hm⟩
        · rw [hm]
          exact ⟨s, List.mem_cons_self _ _, hcl.2.1, hcl.1, hcl.2.2⟩
        · rw [← hm]
          exact ⟨t, List.mem_cons_of_mem _ ht, rfl, rfl, rfl⟩
      | ok u =>
        simp only [List.mem_cons] at hm
        rcases hm with hm | hm
        · rw [hm]
          exact ⟨s, List.mem_cons_self _ _, hcl.2.1, hcl.1, hcl.2.2⟩
        · obtain ⟨t, ht, g⟩ := ih fs1 m hm
          exact ⟨t, List.mem_cons_of_mem _ ht, g⟩
    · rw [if_neg hc] at hm
      simp only [List.mem_cons] at hm
      rcases hm with hm | hm
      · rw [hm]
        exact ⟨s, List.mem_cons_self _ _, rfl, rfl, rfl⟩
      · obtain ⟨t, ht, g⟩ := ih fs m hm
        exact ⟨t, List.mem_cons_of_mem _ ht, g⟩

theorem Flat_Truncate (l : Log) (v lowest : Nat) (h : Flat l v) :
    Flat (l.Truncate lowest).2 v := by
  obtain ⟨hc, hl, hd⟩ := h
  have hmk := truncateLoop_marked lowest l.segments l.fs
  have hm1 : ∀ m ∈ (Log.truncateLoop lowest l.fs l.segments).2.2,
      m.1.baseOffset = v ∧ m.1.nextOffset = v ∧ m.1.index.mmapLen < 12 := by
    intro m hm
    obtain ⟨s, hs, g1, g2, g3⟩ := hmk m hm
    have := hl s hs
    exact ⟨by rw [g1]; exact this.1, by rw [g2]; exact this.2.1, by rw [g3]; exact this.2.2⟩
  unfold Log.Truncate
  rcases hloop : Log.truncateLoop lowest l.fs l.segments with ⟨res, fs1, marked⟩
  rw [hloop] at hm1
  simp only at hm1
  cases res with
  | error e =>
    refine ⟨hc, ?_, hd⟩
    intro s hs
    simp only [List.mem_map] at hs
    obtain ⟨m, hm, rfl⟩ := hs
    exact hm1 m hm
  | ok u =>
    refine ⟨hc, ?_, ?_⟩
    · intro s hs
      simp only [List.mem_map, List.mem_filter] at hs
      obtain ⟨m, ⟨hm, _⟩, rfl⟩ := hs
      exact hm1 m hm
    · intro s hs
      simp only at hs
      cases hact : l.activeSegment with
      | nil => rw [hact] at hs; simp at hs
      | detached d =>
        rw [hact] at hs
        simp only [ActiveRef.detached.injEq] at hs
        rw [← hs]; exact hd d hact
      | inList i =>
        rw [hact] at hs
        simp only at hs
        rcases hg : marked[i]? with _ | ⟨t, b⟩
        · rw [hg] at hs; simp at hs
        · rw [hg] at hs
          cases b with
          | false => simp at hs
          | true =>
            simp only [ActiveRef.detached.injEq] at hs
            rw [← hs]
            have := hm1 (t, true) (List.getElem?_mem hg)
            exact ⟨this.2.1, this.2.2⟩

theorem segment_Append_fs (cd : Codec) (s : segment) (fs : FS) (r : Record) :
    (s.Append cd fs r).2.2.present = fs.present ∧ (s.Append cd fs r).2.2.names = fs.names ∧
      (s.Append cd fs r).2.2.inodes.length = fs.inodes.length ∧
      ((s.Append cd fs r).2.1.nextOffset = s.nextOffset ∨
        (s.Append cd fs r).2.1.nextOffset = (s.nextOffset + 1) % 2 ^ 64) := by
  unfold segment.Append
  simp only []
  split
  · exact ⟨rfl, rfl, rfl, Or.inl rfl⟩
  · split
    · exact ⟨rfl, rfl, by simp [FS.put], Or.inl rfl⟩
    · split
      · exact ⟨rfl, rfl, by simp [FS.put], Or.inl rfl⟩
      · exact ⟨rfl, rfl, by simp [FS.put], Or.inr rfl⟩

theorem LogDead_Append (cd : Codec) (cfg : Config) (lo : Nat) (l : Log) (v : Nat) (r : Record)
    (hcfg : CfgOk cfg) (h : LogDead cfg lo l v) (hoff : v + 1 < lo + 2 ^ 64) :
    (∃ v1, v1 ≤ v + 1 ∧ LogDead cfg lo (Log.Append cd l r).2 v1) ∨
      ∃ k1 A1, LogX cfg lo (Log.Append cd l r).2 k1 A1 ∧ A1.base + A1.cur.length ≤ v + 1 := by
  obtain ⟨hc, hp, hsegs, hnames, ⟨K, hK⟩, hlo, a, hact, hnext⟩ := h
  obtain ⟨hM12, hM63, hS⟩ := hcfg
  have ha : l.active = some a := by simp [Log.active, hact]
  rw [Log_Append_eq cd l r a ha]
  by_cases hmx : a.IsMaxed = true
  · right
    have hl1 : l.fs.lookup ⟨v % 2 ^ 64, .store⟩ = none := by
      unfold FS.lookup; rw [hnames]; rfl
    have hl2 : l.fs.lookup ⟨v % 2 ^ 64, .index⟩ = none := by
      unfold FS.lookup; rw [hnames]; rfl
    have hnew := newSegment_fresh l.fs (v % 2 ^ 64) cfg hp hl1 hl2 (by omega) hM63
    have hinv : LogX cfg lo (Log.mk cfg (l.fs.withFresh (v % 2 ^ 64) cfg)
        (l.segments ++ [freshSegment l.fs.inodes.length (v % 2 ^ 64) cfg])
        (.inList l.segments.length)) K { old := [], base := v, cur := [] } := by
      refine ⟨rfl, hp, ?_, ?_, ?_, ?_, ⟨v, hlo, rfl⟩, ?_, ?_⟩
      · simp only [hsegs, List.length_nil]
      · simp only [hsegs, List.nil_append, AbsLog.all, SegsX, and_true]
        rw [hK]
        exact SegX_fresh cfg l.fs K v hK hM63
      · simp only [FS.withFresh, List.length_append, List.length_cons, List.length_nil]
        omega
      · simp only [FS.withFresh, hnames, List.nil_append, AbsLog.all, wrapBases, List.map_cons,
          List.map_nil, namesFrom, hK]
      · intro x hx; simp at hx
      · simp only [List.length_nil]; omega
    simp only [hmx, if_true, hnext, Log.newSegment, hc, hnew]
    have hstep := LogX_appendActive cd cfg lo _ K { old := [], base := v, cur := [] } r hinv hM63
      (by simp only [List.length_nil]; omega) (by simp only [List.length_nil]; omega)
    cases hm : cd.Marshal { r with Offset := (v + ([] : List (List Byte)).length) % 2 ^ 64 } with
    | none =>
      exact ⟨K, _, (hstep.1 hm).2, by simp only [List.length_nil]; omega⟩
    | some p =>
      exact ⟨K, _, (hstep.2 p hm).2, by simp⟩
  · left
    have hm' : a.IsMaxed = false := by
      cases hx : a.IsMaxed with
      | false => rfl
      | true => exact absurd hx hmx
    simp only [hm', Bool.false_eq_true, if_false, Log.appendActive, ha, Log.setActive, hact]
    obtain ⟨g1, g2, g3, g4⟩ := segment_Append_fs cd a l.fs r
    rcases g4 with g4 | g4
    · exact ⟨v, by omega, hc, g1.trans hp, hsegs, g2.trans hnames, ⟨K, g3.trans hK⟩, hlo, _, rfl,
        g4.trans hnext⟩
    · refine ⟨v + 1, Nat.le_refl _, hc, g1.trans hp, hsegs, g2.trans hnames, ⟨K, g3.trans hK⟩,
        by omega, _, rfl, ?_⟩
      rw [g4, hnext]
      omega

theorem LogDead_Truncate (cfg : Config) (lo : Nat) (l : Log) (v lowest : Nat)
    (h : LogDead cfg lo l v) : LogDead cfg lo (l.Truncate lowest).2 v := by
  obtain ⟨hc, hp, hsegs, hnames, hK, hlo, a, hact, hnext⟩ := h
  unfold Log.Truncate
  rw [hsegs]
  simp only [Log.truncateLoop, hact]
  exact ⟨hc, hp, rfl, hnames, hK, hlo, a, rfl, hnext⟩

theorem SegsX_sorted (cfg : Config) (fs : FS) (segs : List segment) :
    ∀ (k : Nat) (X : List (Nat × List (List Byte))) (v e : Nat), SegsX cfg fs k segs X →
      chained v X e → e < 2 ^ 64 → SortedContiguous segs := by
  induction segs with
  | nil => intro k X v e _ _ _; exact ⟨List.Pairwise.nil, List.chain'_nil⟩
  | cons s segs ih =>
    intro k X v e h hch he
    cases X with
    | nil => exact absurd h (by simp [SegsX])
    | cons x X =>
      obtain ⟨b, ps⟩ := x
      simp only [SegsX] at h
      simp only [chained] at hch
      obtain ⟨hs, hrest⟩ := h
      obtain ⟨hp, hc⟩ := ih (k + 1) X _ e hrest hch.2 he
      obtain ⟨hle, hbd⟩ := chained_bound X _ _ hch.2
      have hsb : s.baseOffset = b := by rw [hs.1]; exact Nat.mod_eq_of_lt (by omega)
      have hsn : s.nextOffset = b + ps.length := by rw [hs.2.1]; exact Nat.mod_eq_of_lt (by omega)
      constructor
      · rw [List.map_cons, List.pairwise_cons]
        refine ⟨?_, hp⟩
        intro a ha
        simp only [List.mem_map] at ha
        obtain ⟨t, ht, rfl⟩ := ha
        obtain ⟨x, hx, hxb, _⟩ := SegsX_mem_seg cfg fs segs (k + 1) X hrest t ht
        have := hbd x hx
        rw [hsb, hxb, Nat.mod_eq_of_lt (by omega)]
        omega
      · rw [List.chain'_cons']
        refine ⟨?_, hc⟩
        intro t ht
        cases segs with
        | nil => simp at ht
        | cons u segs =>
          simp only [List.head?_cons, Option.mem_def, Option.some.injEq] at ht
          subst ht
          cases X with
          | nil => exact absurd hrest (by simp [SegsX])
          | cons y X =>
            obtain ⟨b1, ps1⟩ := y
            simp only [SegsX] at hrest
            simp only [chained] at hch
            have h1 := hbd (b1, ps1) (List.mem_cons_self _ _)
            rw [hsn, hrest.1.1, Nat.mod_eq_of_lt (by simp only at h1; omega)]
            exact hch.2.1.symm

theorem Flat_sorted (segs : List segment) (v : Nat)
    (h : ∀ s ∈ segs, s.baseOffset = v ∧ s.nextOffset = v) : SortedContiguous segs := by
  induction segs with
  | nil => exact ⟨List.Pairwise.nil, List.chain'_nil⟩
  | cons s segs ih =>
    obtain ⟨hp, hc⟩ := ih (fun t ht => h t (List.mem_cons_of_mem _ ht))
    have hs := h s (List.mem_cons_self _ _)
    constructor
    · rw [List.map_cons, List.pairwise_cons]
      refine ⟨?_, hp⟩
      intro a ha
      simp only [List.mem_map] at ha
      obtain ⟨t, ht, rfl⟩ := ha
      rw [hs.1, (h t (List.mem_cons_of_mem _ ht)).1]
    · rw [List.chain'_cons']
      refine ⟨?_, hc⟩
      intro t ht
      have htm : t ∈ segs := List.mem_of_mem_head? ht
      rw [hs.2, (h t (List.mem_cons_of_mem _ htm)).1]

theorem Flat_run (cd : Codec) (v : Nat) (ops : List LogOp) :
    ∀ l, Flat l v → Flat (Log.run cd l ops) v := by
  induction ops with
  | nil => intro l h; exact h
  | cons op ops ih =>
    intro l h
    cases op with
    | append r => exact ih _ (Flat_Append cd l v r h)
    | truncate lowest => exact ih _ (Flat_Truncate l v lowest h)

theorem LogX_run (cd : Codec) (cfg : Config) (lo : Nat) (hcfg : CfgOk cfg) (ops : List LogOp) :
    ∀ (l : Log) (n : Nat),
      ((∃ k A, LogX cfg lo l k A ∧ A.base + A.cur.length ≤ lo + n) ∨
        ∃ v, LogDead cfg lo l v ∧ v ≤ lo + n) →
      lo + n + appendCount ops < 2 ^ 64 →
      (∃ k A, LogX cfg lo (Log.run cd l ops) k A ∧ A.base + A.cur.length < 2 ^ 64) ∨
        ∃ v, LogDead cfg lo (Log.run cd l ops) v := by
  induction ops with
  | nil =>
    intro l n h hb
    simp only [appendCount] at hb
    rcases h with ⟨k, A, h1, h2⟩ | ⟨v, h1, _⟩
    · exact Or.inl ⟨k, A, h1, by omega⟩
    · exact Or.inr ⟨v, h1⟩
  | cons op ops ih =>
    intro l n h hb
    cases op with
    | append r =>
      simp only [appendCount] at hb
      apply ih _ (n + 1) _ (by omega)
      rcases h with ⟨k, A, h1, h2⟩ | ⟨v, h1, h2⟩
      · obtain ⟨A1, hA1, hnone, hsome⟩ := LogX_Append cd cfg lo l k A r hcfg h1 (by omega)
        have hbase : A1.base + A1.cur.length = A.base + A.cur.length := by
          rcases hA1 with ⟨_, e⟩ | ⟨_, e⟩
          · rw [e]; simp [AbsLog.rotate]
          · rw [e]
        left
        cases hm : cd.Marshal { r with Offset := (A.base + A.cur.length) % 2 ^ 64 } with
        | none => exact ⟨k, A1, (hnone hm).2, by omega⟩
        | some p =>
          refine ⟨k, _, (hsome p hm).2, ?_⟩
          simp only [List.length_append, List.length_cons, List.length_nil]
          omega
      · rcases LogDead_Append cd cfg lo l v r hcfg h1 (by omega) with ⟨v1, g1, g2⟩ | ⟨k1, A1, g1, g2⟩
        · exact Or.inr ⟨v1, g2, by omega⟩
        · exact Or.inl ⟨k1, A1, g1, by omega⟩
    | truncate lowest =>
      simp only [appendCount] at hb
      apply ih _ n _ hb
      rcases h with ⟨k, A, h1, h2⟩ | ⟨v, h1, h2⟩
      · rcases (LogX_Truncate cfg lo l k A lowest hcfg.2.1 h1 (by omega)).2 with
          ⟨k1, A1, g1, g2⟩ | g
        · exact Or.inl ⟨k1, A1, g1, by omega⟩
        · exact Or.inr ⟨_, g, h2⟩
      · exact Or.inr ⟨v, LogDead_Truncate cfg lo l v lowest h1, h2⟩

/-! ## Claim on the order and the contiguity of the segments -/

/-- C17, counterexample. `InitialOffset = 2 ^ 64 - 1` and `MaxStoreBytes = 1`: after two
appends the segments are `[2 ^ 64 - 1, 0)` and `[0, 1)`; the list is not sorted
by base offset. -/
theorem Log_segments_unsorted_after_wrap :
    (sampleLog ⟨1, 0, 2 ^ 64 - 1⟩ 2).segments.map (fun s => (s.baseOffset, s.nextOffset)) =
        [(2 ^ 64 - 1, 0), (0, 1)] ∧
      ¬ SortedContiguous (sampleLog ⟨1, 0, 2 ^ 64 - 1⟩ 2).segments := by
  refine ⟨by decide, ?_⟩
  intro h
  have h1 := h.1
  have e : (sampleLog ⟨1, 0, 2 ^ 64 - 1⟩ 2).segments.map (fun s => s.baseOffset) =
      [2 ^ 64 - 1, 0] := by decide
  rw [e] at h1
  simp at h1

/-- C17, amended. In every state reached from a log made in an empty directory by
`Append` and `Truncate` calls, as long as the offsets do not wrap
(`InitialOffset` plus the number of `Append` calls is below `2 ^ 64`), the
segment list is sorted by base offset and `segments[i].nextOffset` is
`segments[i+1].baseOffset` for every adjacent pair. -/
theorem Log_segments_sorted (cd : Codec) (c : Config) (ops : List LogOp) (l0 : Log)
    (hnew : NewLog FS.empty c = (.ok (), l0))
    (hoff : c.InitialOffset + appendCount ops < 2 ^ 64) :
    SortedContiguous (Log.run cd l0 ops).segments := by
  obtain ⟨hl0, h63⟩ := NewLog_empty_ok c l0 hnew
  subst hl0
  by_cases h12 : 12 ≤ c.withDefaults.MaxIndexBytes
  · have hcfg : CfgOk c.withDefaults := ⟨h12, h63, withDefaults_store_pos c⟩
    have hfresh := LogX_fresh c h63 (by omega)
    rcases LogX_run cd c.withDefaults c.InitialOffset hcfg ops (freshLog c) 0
      (Or.inl ⟨0, _, hfresh, by simp⟩) (by omega) with ⟨k, A, h1, h2⟩ | ⟨v, h1⟩
    · obtain ⟨_, _, _, hsegs, _, _, ⟨v0, _, hch⟩, _, _⟩ := h1
      exact SegsX_sorted c.withDefaults _ _ k A.all v0 _ hsegs
        ((chained_snoc A.old A.base A.cur _ _).mpr ⟨hch, rfl⟩) h2
    · rw [h1.2.2.1]
      exact ⟨List.Pairwise.nil, List.chain'_nil⟩
  · have hflat : Flat (freshLog c) c.InitialOffset := by
      refine ⟨by simp only [freshLog]; omega, ?_, ?_⟩
      · intro s hs
        simp only [freshLog, List.mem_singleton] at hs
        rw [hs]
        exact ⟨rfl, rfl, by simp only [freshSegment]; omega⟩
      · intro s hs; simp [freshLog] at hs
    have := Flat_run cd c.InitialOffset ops _ hflat
    exact Flat_sorted _ c.InitialOffset (fun s hs => ⟨(this.2.1 s hs).1, (this.2.1 s hs).2.1⟩)

/-- Witness of C17: five appends, `Truncate(2)`, one append, with segments of two
records. -/
theorem Log_segments_sorted_witness :
    (Log.run fixedCodec (freshLog ⟨32, 36, 0⟩)
        ((List.replicate 5 (LogOp.append ⟨helloWorld, 0⟩)) ++
          [LogOp.truncate 2, LogOp.append ⟨helloWorld, 0⟩])).segments.map
        (fun s => (s.baseOffset, s.nextOffset)) = [(2, 4), (4, 6)] ∧
      SortedContiguous (Log.run fixedCodec (freshLog ⟨32, 36, 0⟩)
        ((List.replicate 5 (LogOp.append ⟨helloWorld, 0⟩)) ++
          [LogOp.truncate 2, LogOp.append ⟨helloWorld, 0⟩])).segments :=
  ⟨by decide, Log_segments_sorted fixedCodec ⟨32, 36, 0⟩ _ _ (NewLog_empty _ (by decide))
    (by decide)⟩

end Proglog
